import Mathlib

/-!
# Verification of the gthack customer-experience pipeline

Shallow embedding of the repository's Python sources (`app/masking.py`,
`app/context.py`, `app/rag.py`, `app/chat.py`, `app/main.py`) and proofs
about the claims of the specification.

Texts are modelled as `List Char`.  The Python regular expressions of
`masking.py` are modelled by a small backtracking matcher over a fixed
item language (character classes with exact counts, greedy optionals,
greedy plus, word boundaries) that covers exactly the constructs used by
the four PII patterns, with Python's leftmost / first-alternative /
greedy-with-backtracking semantics.
-/

set_option maxHeartbeats 1000000

namespace GTHack

/-! ## Character classes (ASCII fragment of Python's `\w`, `\d`, `\s`) -/

/-- Python `\d` (ASCII). -/
def isDigitC (c : Char) : Bool := c.isDigit

/-- Python `\s` (ASCII): space, tab, newline, carriage return, vertical tab, form feed. -/
def isSpaceC (c : Char) : Bool :=
  c = ' ' || c = '\t' || c = '\n' || c = '\x0d' || c = '\x0b' || c = '\x0c'

/-- Python `\w` (ASCII fragment): letters, digits, underscore. -/
def isWordC (c : Char) : Bool := c.isAlpha || c.isDigit || c = '_'

/-- The class `[-.\s]` of the phone pattern. -/
def isPhoneSep (c : Char) : Bool := c = '-' || c = '.' || isSpaceC c

/-- The class `[-\s]` of the credit-card pattern. -/
def isCardSep (c : Char) : Bool := c = '-' || isSpaceC c

/-- The class `[\w.-]` of the email pattern. -/
def isEmailC (c : Char) : Bool := isWordC c || c = '.' || c = '-'

/-! ## String primitives (Python `str.replace`) -/

/-- Auxiliary scan of Python's `s.replace(old, new, 1)`: replace the first
(leftmost) occurrence of `old` in `s` by `new`.  Behaviour for `old = []`
is handled by the wrapper. -/
def replaceFirstAux (old new : List Char) : List Char → List Char
  | [] => []
  | c :: cs =>
    if old.isPrefixOf (c :: cs) then new ++ (c :: cs).drop old.length
    else c :: replaceFirstAux old new cs

/-- Python `s.replace(old, new, 1)`. -/
def replaceFirst (s old new : List Char) : List Char :=
  if old.isEmpty then new ++ s else replaceFirstAux old new s

/-- Fuel-driven scan behind `replaceAllAux` (the fuel, at least the
subject's length, makes the recursion structural). -/
def replaceAllAuxF (old new : List Char) : Nat → List Char → List Char
  | 0, s => s
  | _ + 1, [] => []
  | fuel + 1, c :: cs =>
    if old.isPrefixOf (c :: cs) then
      new ++ replaceAllAuxF old new fuel (cs.drop (old.length - 1))
    else c :: replaceAllAuxF old new fuel cs

/-- Auxiliary scan of Python's `s.replace(old, new)` for non-empty `old`. -/
def replaceAllAux (old new s : List Char) : List Char :=
  replaceAllAuxF old new s.length s

/-- Python `s.replace(old, new)`: replace every occurrence, scanning left to
right, non-overlapping.  For `old = ""` Python inserts `new` at every gap. -/
def replaceAll (s old new : List Char) : List Char :=
  if old.isEmpty then new ++ s.flatMap (fun c => c :: new)
  else replaceAllAux old new s

/-! ## Decimal rendering of counters (for `f"[{T}_{n}]"`) -/

/-- Decimal digit character. -/
def digitChar (n : Nat) : Char := Char.ofNat (48 + n)

/-- Fuel-driven digit renderer behind `natDigits` (fuel above the number
makes the recursion structural). -/
def natDigitsF : Nat → Nat → List Char
  | 0, _ => []
  | fuel + 1, n =>
    if n < 10 then [digitChar n]
    else natDigitsF fuel (n / 10) ++ [digitChar (n % 10)]

/-- Decimal representation of a natural number, most significant digit first
(as Python's `str(n)` / f-string interpolation produces). -/
def natDigits (n : Nat) : List Char := natDigitsF (n + 1) n

/-! ## The regex matcher

An item consumes part of the subject, a pattern alternative is a list of
items, and a pattern is an ordered list of alternatives (Python tries the
alternatives left to right, taking the first that succeeds). -/

/-- One regex item of the PII patterns. -/
inductive RItem where
  /-- exactly `n` consecutive characters of class `p` (`\d{n}`, literals). -/
  | cls (p : Char → Bool) (n : Nat)
  /-- greedy `[...]?`: prefer consuming one character of class `p`. -/
  | opt (p : Char → Bool)
  /-- greedy `[...]+`: prefer the longest run, backtracking downwards. -/
  | plus (p : Char → Bool)
  /-- word boundary `\b`. -/
  | bnd

/-- Is the character at position `i` of `s` a word character (`false` out of
range)? -/
def wordAt (s : List Char) (i : Nat) : Bool :=
  match s.drop i with
  | [] => false
  | c :: _ => isWordC c

/-- Python's `\b`: positions `0 ≤ i ≤ s.length` where word-ness changes
between `i-1` and `i`. -/
def boundaryAt (s : List Char) (i : Nat) : Bool :=
  (if i = 0 then false else wordAt s (i - 1)) != wordAt s i

/-- Length of the maximal run of class-`p` characters starting at `i`. -/
def runLen (p : Char → Bool) (s : List Char) (i : Nat) : Nat :=
  ((s.drop i).takeWhile p).length

/-- Candidate end positions (in backtracking priority order) after matching
one item at position `i` of `s`. -/
def itemEnds (it : RItem) (s : List Char) (i : Nat) : List Nat :=
  match it with
  | .cls p n =>
    let seg := (s.drop i).take n
    if seg.length = n && seg.all p then [i + n] else []
  | .opt p =>
    match s.drop i with
    | [] => [i]
    | c :: _ => if p c then [i + 1, i] else [i]
  | .plus p =>
    let r := runLen p s i
    (List.range r).map (fun k => i + r - k)
  | .bnd => if boundaryAt s i then [i] else []

/-- Candidate end positions (in backtracking priority order) after matching a
whole alternative starting at position `i`. -/
def matchItems (items : List RItem) (s : List Char) (i : Nat) : List Nat :=
  match items with
  | [] => [i]
  | it :: rest => (itemEnds it s i).flatMap (matchItems rest s)

/-- A pattern: ordered list of alternatives. -/
abbrev Pat := List (List RItem)

/-- Python-style match attempt at position `i`: first alternative that
succeeds wins, and within it the first (most greedy) candidate end. -/
def matchAt (pat : Pat) (s : List Char) (i : Nat) : Option Nat :=
  match pat with
  | [] => none
  | alt :: rest =>
    match matchItems alt s i with
    | j :: _ => some j
    | [] => matchAt rest s i

/-- The substring of `s` from `i` (inclusive) to `j` (exclusive). -/
def slice (s : List Char) (i j : Nat) : List Char := (s.drop i).take (j - i)

/-- Scanner of `re.findall`: try to match at `i`; on success record the
matched substring and continue after it (one step forward on an empty
match), otherwise advance one position.  `fuel` bounds the recursion and
`s.length + 1 - i` steps always suffice. -/
def findScan (pat : Pat) (s : List Char) : Nat → Nat → List (List Char)
  | 0, _ => []
  | fuel + 1, i =>
    if i > s.length then []
    else
      match matchAt pat s i with
      | some j => slice s i j :: findScan pat s fuel (if j ≤ i then i + 1 else j)
      | none => findScan pat s fuel (i + 1)

/-- Python `re.findall(pattern, s)` for patterns without capture groups. -/
def findall (pat : Pat) (s : List Char) : List (List Char) :=
  findScan pat s (s.length + 1) 0

/-! ## The four PII patterns of `masking.py` -/

/-- `\b\d{10}\b|\b\d{3}[-.\s]?\d{3}[-.\s]?\d{4}\b` -/
def phonePat : Pat :=
  [[.bnd, .cls isDigitC 10, .bnd],
   [.bnd, .cls isDigitC 3, .opt isPhoneSep, .cls isDigitC 3, .opt isPhoneSep,
    .cls isDigitC 4, .bnd]]

/-- `\b[\w.-]+@[\w.-]+\.\w+\b` -/
def emailPat : Pat :=
  [[.bnd, .plus isEmailC, .cls (· = '@') 1, .plus isEmailC, .cls (· = '.') 1,
    .plus isWordC, .bnd]]

/-- `\b\d{3}-\d{2}-\d{4}\b` -/
def ssnPat : Pat :=
  [[.bnd, .cls isDigitC 3, .cls (· = '-') 1, .cls isDigitC 2, .cls (· = '-') 1,
    .cls isDigitC 4, .bnd]]

/-- `\b\d{4}[-\s]?\d{4}[-\s]?\d{4}[-\s]?\d{4}\b` -/
def cardPat : Pat :=
  [[.bnd, .cls isDigitC 4, .opt isCardSep, .cls isDigitC 4, .opt isCardSep,
    .cls isDigitC 4, .opt isCardSep, .cls isDigitC 4, .bnd]]

/-- `PII_PATTERNS`, in the dict's (insertion) iteration order. -/
def PII_PATTERNS : List (List Char × Pat) :=
  [("phone".data, phonePat), ("email".data, emailPat),
   ("ssn".data, ssnPat), ("credit_card".data, cardPat)]

/-! ## `mask_pii` / `unmask_pii` -/

/-- A PII mapping: insertion-ordered association list token ↦ original value
(Python dicts iterate in insertion order). -/
abbrev PIIMap := List (List Char × List Char)

/-- Python `mapping[k] = v`: update in place if the key exists, else append. -/
def dictInsert (m : PIIMap) (k v : List Char) : PIIMap :=
  if m.any (fun kv => kv.1 = k) then
    m.map (fun kv => if kv.1 = k then (k, v) else kv)
  else m ++ [(k, v)]

/-- Python `pii_type.upper()` (ASCII). -/
def pyUpper (s : List Char) : List Char := s.map Char.toUpper

/-- The key prefix `f"[{pii_type.upper()}_"` used for counting. -/
def typePfx (name : List Char) : List Char := '[' :: pyUpper name ++ ['_']

/-- `sum(1 for k in mapping if k.startswith(f"[{pii_type.upper()}_"))`. -/
def countPrefixKeys (name : List Char) (m : PIIMap) : Nat :=
  (m.filter (fun kv => (typePfx name).isPrefixOf kv.1)).length

/-- The token `f"[{pii_type.upper()}_{existing_count + i + 1}]"`. -/
def tokenOf (name : List Char) (n : Nat) : List Char :=
  typePfx name ++ natDigits n ++ [']']

/-- Body of the inner `for i, match in enumerate(matches)` loop. -/
def maskStep (name : List Char) (cnt : Nat) (sm : List Char × PIIMap)
    (iv : Nat × List Char) : List Char × PIIMap :=
  let t := tokenOf name (cnt + iv.1 + 1)
  (replaceFirst sm.1 iv.2 t, dictInsert sm.2 t iv.2)

/-- Body of the outer `for pii_type, pattern in PII_PATTERNS.items()` loop. -/
def maskCat (sm : List Char × PIIMap) (np : (List Char × Pat)) :
    List Char × PIIMap :=
  let cnt := countPrefixKeys np.1 sm.2
  let ms := findall np.2 sm.1
  ms.enum.foldl (maskStep np.1 cnt) sm

/-- `mask_pii(text, existing_mapping)` of `app/masking.py` (an absent
`existing_mapping` is the empty mapping). -/
def mask_pii (text : List Char) (existing : PIIMap) : List Char × PIIMap :=
  PII_PATTERNS.foldl maskCat (text, existing)

/-- `unmask_pii(text, mapping)` of `app/masking.py`. -/
def unmask_pii (text : List Char) (m : PIIMap) : List Char :=
  m.foldl (fun s tv => replaceAll s tv.1 tv.2) text

/-! ## Bracket discipline

The proofs about masking rest on a simple structural fact: every generated
token is `'['` + bracket-free body + `']'`, while every matched value is
bracket-free.  Occurrences of tokens in intermediate strings can therefore
be located exactly. -/

/-- `l` contains no square bracket. -/
def NoBr (l : List Char) : Prop := ∀ c ∈ l, c ≠ '[' ∧ c ≠ ']'

instance (l : List Char) : Decidable (NoBr l) := by unfold NoBr; infer_instance

/-- `t` is a bracket-delimited token: `'['` + nonempty bracket-free body + `']'`. -/
def BTok (t : List Char) : Prop :=
  ∃ body, t = '[' :: body ++ [']'] ∧ NoBr body ∧ body ≠ []

/-! ### Safe values and safe tokens

A matched value is bracket-free, nonempty, and either contains a separator
or `'@'`, or is a digit string of length at least 10.  A generated token
body contains neither separators nor `'@'` nor a run of 10 digits (the
latter is exactly what the claim's precondition about category patterns
not matching inside tokens guarantees).  Together these imply a value can
never sit inside a token body. -/

/-- Structural properties every matched PII value enjoys. -/
def SafeVal (v : List Char) : Prop :=
  NoBr v ∧ v ≠ [] ∧
    ((∃ c ∈ v, isPhoneSep c = true ∨ c = '@') ∨ (v.all isDigitC ∧ 10 ≤ v.length))

/-- `body` contains no run of 10 consecutive digits. -/
def NoLongRun (body : List Char) : Prop :=
  ¬ ∃ w, w <:+: body ∧ w.all isDigitC ∧ w.length = 10

/-- Structural properties of a generated token that block accidental
occurrences of values inside it. -/
def SafeTok (t : List Char) : Prop :=
  ∃ body, t = '[' :: body ++ [']'] ∧ body ≠ [] ∧
    (∀ c ∈ body, c ≠ '[' ∧ c ≠ ']' ∧ ¬ isPhoneSep c = true ∧ c ≠ '@') ∧
    NoLongRun body

/-! ### The alternating mix structure

`AMix` represents an intermediate string of the masking/unmasking process
as a leading piece followed by entries, each a (token, value) pair with
its trailing piece.  `aflat` reads tokens, `arestore` reads the original
values. -/

/-- Alternating decomposition of a working string. -/
abbrev AMix := List Char × List ((List Char × List Char) × List Char)

/-- The string represented, with tokens in place. -/
def aflat (m : AMix) : List Char :=
  m.1 ++ (m.2.map (fun e => e.1.1 ++ e.2)).flatten

/-- The string represented, with original values in place. -/
def arestore (m : AMix) : List Char :=
  m.1 ++ (m.2.map (fun e => e.1.2 ++ e.2)).flatten

/-- The (token, value) pairs of the mix, in order. -/
def toks (m : AMix) : List (List Char × List Char) := m.2.map (·.1)

/-- The pieces of the mix, in order. -/
def pieces (m : AMix) : List (List Char) := m.1 :: m.2.map (·.2)

/-! ### Inserting a token at the first occurrence of a value -/

/-- Locate the first occurrence of `v`, returning the parts before and
after it (mirrors the scan of `replaceFirstAux`). -/
def splitFirst (v : List Char) : List Char → Option (List Char × List Char)
  | [] => none
  | c :: cs =>
    if v.isPrefixOf (c :: cs) then some ([], (c :: cs).drop v.length)
    else (splitFirst v cs).map (fun xy => (c :: xy.1, xy.2))

/-- Insert a token at the first occurrence of `v` in the mix. -/
def insertTok (v t : List Char) :
    List Char → List ((List Char × List Char) × List Char) → AMix
  | p, L =>
    match splitFirst v p with
    | some xy => (xy.1, ((t, v), xy.2) :: L)
    | none =>
      match L with
      | [] => (p, [])
      | e :: L2 =>
        let m2 := insertTok v t e.2 L2
        (p, (e.1, m2.1) :: m2.2)

/-- Replace the (unique) entry with token `t` by its value, merging the
surrounding pieces. -/
def removeTok (t v : List Char) :
    List Char → List ((List Char × List Char) × List Char) → AMix
  | p, [] => (p, [])
  | p, e :: L =>
    if e.1.1 = t then (p ++ v ++ e.2, L)
    else
      let m2 := removeTok t v e.2 L
      (p, (e.1, m2.1) :: m2.2)

/-! ### The `findall` decomposition -/

/-- Interleave gaps and matches: `g₀ ++ v₁ ++ g₁ ++ v₂ ++ ...`. -/
def interleave : List (List Char) → List (List Char) → List Char
  | g :: gs, v :: vs => g ++ v ++ interleave gs vs
  | g :: _, [] => g
  | [], _ => []

/-- Value of a digit string (inverse of `natDigits`). -/
def digitsVal (l : List Char) : Nat :=
  l.foldl (fun a c => 10 * a + (c.toNat - 48)) 0

/-- The body of a generated token. -/
def tokenBody (name : List Char) (n : Nat) : List Char :=
  pyUpper name ++ '_' :: natDigits n

/-- What it means for a token to be flagged by the claim's precondition:
some substring, taken standalone, fully matches a category pattern. -/
def tokenMatchFree (t : List Char) : Prop :=
  ∀ j, j ≤ t.length → ∀ i, i ≤ j →
    ∀ np ∈ PII_PATTERNS, matchAt np.2 (slice t i j) 0 ≠ some (slice t i j).length

instance (t : List Char) : Decidable (tokenMatchFree t) := by
  unfold tokenMatchFree
  infer_instance

/-- The four category names, as explicit character lists. -/
def catNames : List (List Char) :=
  [['p','h','o','n','e'], ['e','m','a','i','l'], ['s','s','n'],
   ['c','r','e','d','i','t','_','c','a','r','d']]

/-- The keys of a mapping that carry the prefix of category `name`, in
order. -/
def keysFor (name : List Char) (m : PIIMap) : List (List Char) :=
  (m.filter (fun kv => (typePfx name).isPrefixOf kv.1)).map Prod.fst

/-- Well-formed mapping: for every category, the keys carrying that
category's prefix are exactly its tokens numbered `1, 2, ..., count`, in
order. -/
def WFMap (m : PIIMap) : Prop :=
  ∀ name ∈ catNames, keysFor name m =
    (List.range (countPrefixKeys name m)).map (fun j => tokenOf name (j + 1))

instance (m : PIIMap) : Decidable (WFMap m) := by
  unfold WFMap
  infer_instance

/-- Invariant tying the working string's mix decomposition to the original
text and the mapping built so far. -/
def MixInv (text : List Char) (m : PIIMap) (mx : AMix) : Prop :=
  (∀ e ∈ toks mx, SafeTok e.1 ∧ SafeVal e.2) ∧
  (mx.2.map (fun e => e.1.1)).Nodup ∧
  List.Perm (toks mx) m ∧
  arestore mx = text ∧
  (∀ q ∈ pieces mx, q <:+: text)

/-! ## `app/context.py`: distances, venues and promotions

`haversine_distance` is floating-point trigonometry; it is modelled as an
abstract distance function into `ℚ` passed to the venue finders.  Python's
`round` is banker's rounding (round half to even). -/

/-- Python's `round` on a rational: nearest integer, ties to even.  The
fractional part `q - floor q` is compared with `1/2` through the numerator
and denominator (`r < 1/2` iff `2*(num - floor*den) < den`). -/
def pyRound (q : ℚ) : ℤ :=
  let f := q.floor
  let num2 := 2 * (q.num - f * (q.den : ℤ))
  if num2 < (q.den : ℤ) then f
  else if (q.den : ℤ) < num2 then f + 1
  else if f % 2 = 0 then f else f + 1

/-- A store record of `data/stores.json` (the fields the code consults). -/
structure Store where
  store_id : List Char
  lat : ℚ
  lng : ℚ
deriving DecidableEq

/-- A promotion record of `data/promotions.json`. -/
structure Promo where
  promo_id : List Char
  store_id : List Char
deriving DecidableEq

/-- An element of the Overpass API reply consumed by `fetch_live_stores`. -/
structure OsmElement where
  osm_id : List Char
  lat : Option ℚ
  lng : Option ℚ
deriving DecidableEq

/-- The sort key comparison `key=lambda x: x["distance_m"]`. -/
def distLe (a b : Store × ℤ) : Prop := a.2 ≤ b.2

instance : DecidableRel distLe := fun a b =>
  inferInstanceAs (Decidable (a.2 ≤ b.2))

instance : IsTotal (Store × ℤ) distLe := ⟨fun a b => Int.le_total a.2 b.2⟩

instance : IsTrans (Store × ℤ) distLe := ⟨fun _ _ _ => Int.le_trans⟩

/-- Default radius of `get_mock_stores` (meters). -/
def MOCK_RADIUS : ℚ := 500

/-- Default radius of `fetch_live_stores` (meters). -/
def LIVE_RADIUS : ℚ := 800

/-- Default element limit of `fetch_live_stores`. -/
def LIVE_LIMIT : Nat := 6

/-- `get_mock_stores`: filter the data file's stores by true distance within
the radius, attach the rounded distance, and sort stably by the rounded
distance (`list.sort` is stable; insertion sort keeps earlier equals
first). -/
def get_mock_stores (dist : ℚ → ℚ → ℚ → ℚ → ℚ) (stores : List Store)
    (lat lng radius_m : ℚ) : List (Store × ℤ) :=
  List.insertionSort distLe
    ((stores.filter (fun st => dist lat lng st.lat st.lng ≤ radius_m)).map
      (fun st => (st, pyRound (dist lat lng st.lat st.lng))))

/-- `fetch_live_stores`: the radius only parameterizes the Overpass query
(whose reply is the `elements` argument); the body itself applies no radius
check.  Elements are truncated to `limit`, those without coordinates are
skipped, and the rest are sorted by rounded distance. -/
def fetch_live_stores (dist : ℚ → ℚ → ℚ → ℚ → ℚ) (elements : List OsmElement)
    (lat lng : ℚ) (radius_m : ℚ) (limit : Nat) : List (Store × ℤ) :=
  List.insertionSort distLe
    ((elements.take limit).filterMap (fun e =>
      match e.lat, e.lng with
      | some elat, some elng =>
        some (⟨'l' :: 'i' :: 'v' :: 'e' :: '_' :: e.osm_id, elat, elng⟩,
          pyRound (dist lat lng elat elng))
      | _, _ => none))

/-- `get_store_promotions`: promotions of the data file with this store id,
in file order. -/
def get_store_promotions (promotions : List Promo) (store_id : List Char) :
    List Promo :=
  promotions.filter (fun p => p.store_id = store_id)

/-- The context fields `enrich_context` computes from location data. -/
structure EnrichedContext where
  nearby_stores : List (Store × ℤ)
  promotions : List Promo
deriving DecidableEq

/-- `enrich_context` (location part): nearby venues from the mock or live
source (falling back to mock when live is empty), and promotions collected
per nearby venue — over the whole list — in mock mode only. -/
def enrich_context (dist : ℚ → ℚ → ℚ → ℚ → ℚ) (stores : List Store)
    (promotions : List Promo) (elements : List OsmElement)
    (lat lng : ℚ) (use_mock_data : Bool) : EnrichedContext :=
  let nearby :=
    if use_mock_data then get_mock_stores dist stores lat lng MOCK_RADIUS
    else
      let live := fetch_live_stores dist elements lat lng LIVE_RADIUS LIVE_LIMIT
      if live.isEmpty then get_mock_stores dist stores lat lng MOCK_RADIUS
      else live
  { nearby_stores := nearby
    promotions :=
      if use_mock_data then
        nearby.flatMap (fun st => get_store_promotions promotions st.1.store_id)
      else [] }

/-! ## `app/rag.py`: user profile updates and memory isolation -/

/-- A user profile as `update_user_profile` maintains it. -/
@[ext]
structure Profile where
  favorite_drinks : List (List Char)
  dietary : List (List Char)
  preferred_temperature : Option (List Char)
  purchase_history : List (List Char × List Char)
  loyalty_points : ℤ
deriving DecidableEq

/-- The update keys `update_user_profile` recognizes. -/
structure ProfileUpdates where
  add_favorite_drink : Option (List Char)
  add_dietary : Option (List Char)
  set_temperature : Option (List Char)
  add_purchase : Option (List Char)
  add_loyalty_points : Option ℤ
deriving DecidableEq

/-- `if new not in xs: xs.append(new)`. -/
def appendNew (xs : List (List Char)) (x : List Char) : List (List Char) :=
  if x ∈ xs then xs else xs ++ [x]

/-- Python `l[-n:]`. -/
def lastN (n : Nat) (l : List α) : List α := l.drop (l.length - n)

/-- `update_user_profile` of `app/rag.py`: the five update keys applied in
code order (`datetime.now().strftime(...)` is the `today` argument). -/
def update_user_profile (today : List Char) (u : ProfileUpdates)
    (p : Profile) : Profile :=
  let p1 := match u.add_favorite_drink with
    | some d => { p with favorite_drinks := appendNew p.favorite_drinks d }
    | none => p
  let p2 := match u.add_dietary with
    | some d => { p1 with dietary := appendNew p1.dietary d }
    | none => p1
  let p3 := match u.set_temperature with
    | some t => { p2 with preferred_temperature := some t }
    | none => p2
  let p4 := match u.add_purchase with
    | some item =>
      { p3 with purchase_history := lastN 10 (p3.purchase_history ++ [(item, today)]) }
    | none => p3
  match u.add_loyalty_points with
  | some k => { p4 with loyalty_points := p4.loyalty_points + k }
  | none => p4

/-- Effect of an `add_favorite_drink` key on the drinks list. -/
def fdApply (o : Option (List Char)) (xs : List (List Char)) :
    List (List Char) :=
  match o with
  | some d => appendNew xs d
  | none => xs

/-- Effect of an `add_dietary` key on the dietary list. -/
def dietApply (o : Option (List Char)) (xs : List (List Char)) :
    List (List Char) :=
  match o with
  | some d => appendNew xs d
  | none => xs

/-- Effect of a `set_temperature` key. -/
def tempApply (o : Option (List Char)) (cur : Option (List Char)) :
    Option (List Char) :=
  match o with
  | some t => some t
  | none => cur

/-- Effect of an `add_purchase` key on the history. -/
def histApply (today : List Char) (o : Option (List Char))
    (h : List (List Char × List Char)) : List (List Char × List Char) :=
  match o with
  | some item => lastN 10 (h ++ [(item, today)])
  | none => h

/-- Effect of an `add_loyalty_points` key. -/
def pointsApply (o : Option ℤ) (n : ℤ) : ℤ :=
  match o with
  | some k => n + k
  | none => n

/-- No update key is claimed by both of two updates. -/
def DisjointUpdates (u1 u2 : ProfileUpdates) : Prop :=
  (u1.add_favorite_drink = none ∨ u2.add_favorite_drink = none) ∧
  (u1.add_dietary = none ∨ u2.add_dietary = none) ∧
  (u1.set_temperature = none ∨ u2.set_temperature = none) ∧
  (u1.add_purchase = none ∨ u2.add_purchase = none) ∧
  (u1.add_loyalty_points = none ∨ u2.add_loyalty_points = none)

instance (u1 u2 : ProfileUpdates) : Decidable (DisjointUpdates u1 u2) := by
  unfold DisjointUpdates
  infer_instance

/-! ### Memory store -/

/-- One entry of the `user_memory` collection. -/
structure MemEntry where
  user_id : List Char
  memory_type : List Char
  content : List Char
  timestamp : List Char
deriving DecidableEq

/-- `save_memory`: append an entry carrying the user's id in its
metadata. -/
def save_memory (mc : List MemEntry)
    (user_id memory_type content timestamp : List Char) : List MemEntry :=
  mc ++ [⟨user_id, memory_type, content, timestamp⟩]

/-- `retrieve_memories`: the ChromaDB query ranks entries by vector
similarity (the abstract `search` argument) but only among entries whose
metadata matches `where={"user_id": user_id}`. -/
def retrieve_memories (search : List Char → List MemEntry → Nat → List MemEntry)
    (mc : List MemEntry) (user_id query : List Char) (n_results : Nat) :
    List MemEntry :=
  search query (mc.filter (fun e => e.user_id = user_id)) n_results

/-! ## `app/chat.py` and `app/main.py`: the pipeline

The LangGraph workflow is a straight-line chain of nodes.  External
collaborators (`enrich_context`'s data sources, the ChromaDB queries, the
context-string formatter and the Gemini API) are the fields of `Env`; a
generation call that raises is an `Except.error`.  The enriched-context
dictionary is an abstract type `γ`. -/

/-- The sentinel `llm_generation_node` returns when no API key is set. -/
def NO_API_KEY_MSG : List Char := "Error: GOOGLE_API_KEY not configured".data

/-- The pipeline's collaborators. -/
structure Env (γ : Type) where
  emptyContext : γ
  enrich : List Char → ℚ → ℚ → Bool → γ
  retrieveMemories : List Char → List Char → Nat → List (List Char)
  retrieveRelevantInfo : List Char → Nat → List (List Char)
  buildContext : γ → List (List Char) → List (List Char) →
    List (List Char × List Char) → List Char
  apiKey : Option (List Char)
  generate : List Char → Except (List Char) (List Char)

/-- `ChatState` of `app/chat.py`. -/
structure ChatState (γ : Type) where
  user_id : List Char
  user_message : List Char
  lat : ℚ
  lng : ℚ
  use_mock_data : Bool
  conversation_history : List (List Char × List Char)
  enriched_context : γ
  long_term_memories : List (List Char)
  rag_results : List (List Char)
  masked_message : List Char
  masked_context : List Char
  pii_mapping : PIIMap
  llm_response : List Char
  final_response : List Char

/-- Node 1: `context_enrichment_node` — enrichment and memory retrieval,
both on the raw `user_message`. -/
def context_enrichment_node {γ : Type} (env : Env γ) (s : ChatState γ) :
    ChatState γ :=
  { s with
    enriched_context := env.enrich s.user_id s.lat s.lng s.use_mock_data
    long_term_memories := env.retrieveMemories s.user_id s.user_message 3 }

/-- Node 2: `rag_retrieval_node` — store/promotion retrieval on the raw
`user_message`. -/
def rag_retrieval_node {γ : Type} (env : Env γ) (s : ChatState γ) :
    ChatState γ :=
  { s with rag_results := env.retrieveRelevantInfo s.user_message 3 }

/-- Node 3: `pii_masking_node` — mask the message with a fresh mapping,
then the context string with the extended mapping. -/
def pii_masking_node {γ : Type} (env : Env γ) (s : ChatState γ) :
    ChatState γ :=
  let mm := mask_pii s.user_message []
  let ctx := env.buildContext s.enriched_context s.rag_results
    s.long_term_memories s.conversation_history
  let mc := mask_pii ctx mm.2
  { s with
    masked_message := mm.1
    masked_context := mc.1
    pii_mapping := mc.2 }

/-- The prompt of `llm_generation_node` (the f-string, with the masked
context and masked message spliced in). -/
def llmPrompt {γ : Type} (s : ChatState γ) : List Char :=
  "You are a hyper-local concierge that recommends nearby places and products.\nYour job is to tell the customer what they should do next (e.g., \"Stop by X and grab Y\").\nAlways reference the most relevant nearby store or action from the context.\nNever claim that you can make, prepare, or serve items yourself—only recommend external locations.\nKeep responses concise (2-3 sentences) and grounded in the provided context and history.\n\nCUSTOMER CONTEXT & HISTORY:\n".data ++
    s.masked_context ++ "\n\nCUSTOMER MESSAGE: ".data ++ s.masked_message ++
    "\n\nRespond helpfully:".data

/-- Node 4: `llm_generation_node` — a missing key yields the sentinel; with
a key set, the generation call is made with no exception handler, so its
failure propagates. -/
def llm_generation_node {γ : Type} (env : Env γ) (s : ChatState γ) :
    Except (List Char) (ChatState γ) :=
  match env.apiKey with
  | none => .ok { s with llm_response := NO_API_KEY_MSG }
  | some _ =>
    match env.generate (llmPrompt s) with
    | .ok r => .ok { s with llm_response := r }
    | .error e => .error e

/-- Node 5: `unmask_response_node`. -/
def unmask_response_node {γ : Type} (s : ChatState γ) : ChatState γ :=
  { s with final_response := unmask_pii s.llm_response s.pii_mapping }

/-- Node 6: `persona_update_node` — its generation call and store writes
sit behind the api-key check and a `try/except` swallowing every
exception, and the state is returned unchanged on every path. -/
def persona_update_node {γ : Type} (s : ChatState γ) : ChatState γ := s

/-- The initial state `process_message` builds. -/
def initialChatState {γ : Type} (empty : γ) (user_id message : List Char)
    (lat lng : ℚ) (history : List (List Char × List Char))
    (use_mock_data : Bool) : ChatState γ :=
  ⟨user_id, message, lat, lng, use_mock_data, history, empty,
   [], [], [], [], [], [], []⟩

/-- The state after the three pre-LLM stages. -/
def pipeline_state3 {γ : Type} (env : Env γ) (user_id message : List Char)
    (lat lng : ℚ) (history : List (List Char × List Char))
    (use_mock_data : Bool) : ChatState γ :=
  pii_masking_node env (rag_retrieval_node env (context_enrichment_node env
    (initialChatState env.emptyContext user_id message lat lng history
      use_mock_data)))

/-- The stages after generation: unmask, persona update, and the final
response — or the escaped generation failure. -/
def finish_stages {γ : Type} (r : Except (List Char) (ChatState γ)) :
    Except (List Char) (List Char) :=
  match r with
  | .error e => .error e
  | .ok s4 => .ok (persona_update_node (unmask_response_node s4)).final_response

/-- `process_message`: the node chain; only `llm_generation_node` can
raise, and nothing catches what it raises. -/
def process_message {γ : Type} (env : Env γ) (user_id message : List Char)
    (lat lng : ℚ) (history : List (List Char × List Char))
    (use_mock_data : Bool) : Except (List Char) (List Char) :=
  finish_stages (llm_generation_node env
    (pipeline_state3 env user_id message lat lng history use_mock_data))

instance {ε α : Type} [DecidableEq ε] [DecidableEq α] :
    DecidableEq (Except ε α) := fun a b =>
  match a, b with
  | .error e1, .error e2 =>
    if h : e1 = e2 then .isTrue (by rw [h])
    else .isFalse (fun hc => h (Except.error.inj hc))
  | .ok a1, .ok a2 =>
    if h : a1 = a2 then .isTrue (by rw [h])
    else .isFalse (fun hc => h (Except.ok.inj hc))
  | .error _, .ok _ => .isFalse (fun hc => Except.noConfusion hc)
  | .ok _, .error _ => .isFalse (fun hc => Except.noConfusion hc)

/-! ### `app/main.py`: request validation -/

/-- The validated `ChatRequest` model of `app/main.py`. -/
structure ChatRequest where
  user_id : List Char
  message : List Char
  lat : ℚ
  lng : ℚ
  use_mock_data : Bool
  conversation_history : List (List Char × List Char)
deriving DecidableEq

/-- A request body before pydantic validation: each field present or
absent. -/
structure RawChatRequest where
  user_id : Option (List Char)
  message : Option (List Char)
  lat : Option ℚ
  lng : Option ℚ
  use_mock_data : Option Bool
  conversation_history : Option (List (List Char × List Char))
deriving DecidableEq

/-- Pydantic validation of `ChatRequest`: the four required fields must be
present (`use_mock_data` and `conversation_history` have defaults); the
coordinates' values are not inspected. -/
def validateChatRequest (r : RawChatRequest) :
    Except (List Char) ChatRequest :=
  match r.user_id with
  | none => .error "user_id: Field required".data
  | some uid =>
    match r.message with
    | none => .error "message: Field required".data
    | some msg =>
      match r.lat with
      | none => .error "lat: Field required".data
      | some lat =>
        match r.lng with
        | none => .error "lng: Field required".data
        | some lng =>
          .ok ⟨uid, msg, lat, lng, r.use_mock_data.getD true,
            r.conversation_history.getD []⟩

/-- The `/chat` endpoint: validation happens before `process_message`; a
validation failure is the outer error, a pipeline failure the inner one. -/
def chat_endpoint {γ : Type} (env : Env γ) (raw : RawChatRequest) :
    Except (List Char) (Except (List Char) (List Char)) :=
  match validateChatRequest raw with
  | .error e => .error e
  | .ok q => .ok (process_message env q.user_id q.message q.lat q.lng
      q.conversation_history q.use_mock_data)

theorem replaceAllAuxF_congr (old new : List Char) :
    ∀ f1 f2 s, s.length ≤ f1 → s.length ≤ f2 →
      replaceAllAuxF old new f1 s = replaceAllAuxF old new f2 s := by
  intro f1
  induction f1 with
  | zero =>
    intro f2 s h1 _
    have : s = [] := List.length_eq_zero.mp (by omega)
    subst this
    cases f2 <;> rfl
  | succ f1 ih =>
    intro f2 s h1 h2
    cases s with
    | nil => cases f2 <;> rfl
    | cons c cs =>
      cases f2 with
      | zero => simp at h2
      | succ f2 =>
        rw [replaceAllAuxF, replaceAllAuxF]
        simp only [List.length_cons] at h1 h2
        split
        · rw [ih f2 (cs.drop (old.length - 1))
            (by simp only [List.length_drop]; omega)
            (by simp only [List.length_drop]; omega)]
        · rw [ih f2 cs (by omega) (by omega)]

theorem replaceAllAux_nil (old new : List Char) :
    replaceAllAux old new [] = [] := rfl

theorem replaceAllAux_cons (old new : List Char) (c : Char) (cs : List Char) :
    replaceAllAux old new (c :: cs) =
      if old.isPrefixOf (c :: cs) then
        new ++ replaceAllAux old new (cs.drop (old.length - 1))
      else c :: replaceAllAux old new cs := by
  show replaceAllAuxF old new (cs.length + 1) (c :: cs) = _
  rw [replaceAllAuxF]
  split
  · rw [replaceAllAuxF_congr old new cs.length (cs.drop (old.length - 1)).length
      (cs.drop (old.length - 1)) (by simp only [List.length_drop]; omega)
      (Nat.le_refl _)]
    rfl
  · rfl

theorem natDigitsF_congr : ∀ f1 f2 n, n < f1 → n < f2 →
    natDigitsF f1 n = natDigitsF f2 n := by
  intro f1
  induction f1 with
  | zero => omega
  | succ f1 ih =>
    intro f2 n h1 h2
    cases f2 with
    | zero => omega
    | succ f2 =>
      rw [natDigitsF, natDigitsF]
      split
      · rfl
      · have hd : n / 10 < n := Nat.div_lt_self (by omega) (by omega)
        rw [ih f2 (n / 10) (by omega) (by omega)]

theorem natDigits_eq (n : Nat) : natDigits n =
    if n < 10 then [digitChar n]
    else natDigits (n / 10) ++ [digitChar (n % 10)] := by
  show natDigitsF (n + 1) n = _
  rw [natDigitsF]
  split
  · rfl
  · next h =>
    have hd : n / 10 < n := Nat.div_lt_self (by omega) (by omega)
    rw [natDigitsF_congr n (n / 10 + 1) (n / 10) (by omega) (by omega)]
    rfl

theorem BTok.ne_nil {t : List Char} (h : BTok t) : t ≠ [] := by
  obtain ⟨b, rfl, -, -⟩ := h; simp

theorem BTok.head {t : List Char} (h : BTok t) : ∃ t₂, t = '[' :: t₂ := by
  obtain ⟨b, rfl, -, -⟩ := h; exact ⟨_, rfl⟩

/-- Characters of a token at positive index are never `'['`. -/
theorem BTok.getElem_pos_ne {t : List Char} (h : BTok t) {k : Nat}
    (hk : k < t.length) (hk0 : 0 < k) : t[k] ≠ '[' := by
  obtain ⟨b, rfl, hb, -⟩ := h
  obtain ⟨k, rfl⟩ : ∃ k2, k = k2 + 1 := ⟨k - 1, by omega⟩
  have hkb : k < (b ++ [']']).length := by simp at hk ⊢; omega
  have h2 : (b ++ [']'])[k] ≠ '[' := by
    rcases Nat.lt_or_ge k b.length with hlt | hge
    · rw [List.getElem_append_left hlt]
      exact (hb _ (List.getElem_mem _)).1
    · rw [List.getElem_append_right hge]
      simp only [List.getElem_singleton]
      decide
  simpa using h2

/-- Characters of a token strictly before the last index are never `']'`. -/
theorem BTok.getElem_lt_last_ne {t : List Char} (h : BTok t) {k : Nat}
    (hk : k < t.length) (hkl : k + 1 < t.length) : t[k] ≠ ']' := by
  obtain ⟨b, rfl, hb, -⟩ := h
  rcases Nat.eq_zero_or_pos k with rfl | hpos
  · simp only [List.cons_append, List.getElem_cons_zero]; decide
  · obtain ⟨k, rfl⟩ : ∃ k2, k = k2 + 1 := ⟨k - 1, by omega⟩
    simp only [List.cons_append, List.getElem_cons_succ]
    have hklen : k < b.length := by
      simp only [List.length_cons, List.length_append, List.length_cons] at hkl
      simp only [List.length_nil] at hkl
      omega
    rw [List.getElem_append_left hklen]
    exact (hb _ (List.getElem_mem _)).2

/-! ### Occurrence lemmas for `replaceFirstAux` / `replaceAllAux` -/

theorem replaceFirstAux_of_not_infix {v s : List Char} (t : List Char)
    (h : ¬ v <:+: s) : replaceFirstAux v t s = s := by
  induction s with
  | nil => rfl
  | cons c cs ih =>
    rw [replaceFirstAux]
    have hnp : ¬ v.isPrefixOf (c :: cs) := by
      intro hp
      exact h ((List.isPrefixOf_iff_prefix.mp hp).isInfix)
    rw [if_neg hnp, ih (fun hi => h (List.infix_cons hi))]

theorem replaceAllAux_of_not_infix {v s : List Char} (t : List Char)
    (h : ¬ v <:+: s) : replaceAllAux v t s = s := by
  induction s with
  | nil => rw [replaceAllAux_nil]
  | cons c cs ih =>
    rw [replaceAllAux_cons]
    have hnp : ¬ v.isPrefixOf (c :: cs) := by
      intro hp
      exact h ((List.isPrefixOf_iff_prefix.mp hp).isInfix)
    rw [if_neg hnp, ih (fun hi => h (List.infix_cons hi))]

/-- A prefix of `A ++ C` that fits inside `A` is a prefix of `A`. -/
theorem prefix_of_prefix_append {w A C : List Char} (hp : w <+: A ++ C)
    (hl : w.length ≤ A.length) : w <+: A :=
  List.prefix_of_prefix_length_le hp (List.prefix_append A C) hl

/-- Occurrences of `w` that start strictly inside `A` cannot reach into `C`
when `C` starts with `'['` and `w` has no `'['` at a positive index. -/
theorem cross_general {w : List Char} (A C₂ : List Char)
    (hw : ∀ k, (hk : k < w.length) → 0 < k → w[k] ≠ '[') :
    ∀ i, i < A.length → w <+: ((A ++ '[' :: C₂).drop i) →
      i + w.length ≤ A.length := by
  intro i hi hp
  by_contra hgt
  have hk : A.length - i < w.length := by omega
  have hk0 : 0 < A.length - i := by omega
  have hbig : i + (A.length - i) < (A ++ '[' :: C₂).length := by simp; omega
  have hchar : w[A.length - i] = (A ++ '[' :: C₂)[i + (A.length - i)] := by
    rw [hp.getElem hk]
    exact List.getElem_drop ..
  have hbr : (A ++ '[' :: C₂)[i + (A.length - i)] = '[' := by
    have hia : i + (A.length - i) = A.length := by omega
    simp only [hia]
    rw [List.getElem_append_right (Nat.le_refl _)]
    simp
  exact hw _ hk hk0 (hchar.trans hbr)

/-- Scanning `A ++ C` when no occurrence of `w` starts inside `A`:
`replaceFirstAux` passes over `A` untouched. -/
theorem replaceFirstAux_append_right {w : List Char} (t : List Char)
    {A : List Char} (C : List Char)
    (hcr : ∀ i, i < A.length → w <+: ((A ++ C).drop i) → i + w.length ≤ A.length)
    (hA : ¬ w <:+: A) :
    replaceFirstAux w t (A ++ C) = A ++ replaceFirstAux w t C := by
  induction A with
  | nil => rfl
  | cons c A2 ih =>
    rw [List.cons_append, replaceFirstAux]
    have hnp : ¬ w.isPrefixOf (c :: (A2 ++ C)) := by
      intro hp
      replace hp := List.isPrefixOf_iff_prefix.mp hp
      have := hcr 0 (by simp) (by simpa using hp)
      exact hA (prefix_of_prefix_append (by simpa using hp) (by simpa using this)).isInfix
    rw [if_neg hnp]
    rw [ih (fun i hi hp => by
          have := hcr (i + 1) (by simp; omega) (by simpa using hp)
          simp at this ⊢
          omega)
        (fun hi => hA (List.infix_cons hi))]
    simp

/-- Scanning `A ++ C` when no occurrence of `w` starts inside `A`:
`replaceAllAux` passes over `A` untouched. -/
theorem replaceAllAux_append_right {w : List Char} (v : List Char)
    {A : List Char} (C : List Char)
    (hcr : ∀ i, i < A.length → w <+: ((A ++ C).drop i) → i + w.length ≤ A.length)
    (hA : ¬ w <:+: A) :
    replaceAllAux w v (A ++ C) = A ++ replaceAllAux w v C := by
  induction A with
  | nil => rfl
  | cons c A2 ih =>
    rw [List.cons_append, replaceAllAux_cons]
    have hnp : ¬ w.isPrefixOf (c :: (A2 ++ C)) := by
      intro hp
      replace hp := List.isPrefixOf_iff_prefix.mp hp
      have := hcr 0 (by simp) (by simpa using hp)
      exact hA (prefix_of_prefix_append (by simpa using hp) (by simpa using this)).isInfix
    rw [if_neg hnp]
    rw [ih (fun i hi hp => by
          have := hcr (i + 1) (by simp; omega) (by simpa using hp)
          simp at this ⊢
          omega)
        (fun hi => hA (List.infix_cons hi))]
    simp

/-- Replacing one bracket-delimited token at the head. -/
theorem replaceAllAux_tok {t : List Char} (v B : List Char) (ht : BTok t)
    (hB : ¬ t <:+: B) : replaceAllAux t v (t ++ B) = v ++ B := by
  obtain ⟨body, rfl, -, -⟩ := ht
  rw [show ('[' :: body ++ [']']) ++ B = '[' :: ((body ++ [']']) ++ B) by simp]
  rw [replaceAllAux_cons]
  have hp : ('[' :: body ++ [']']).isPrefixOf ('[' :: ((body ++ [']']) ++ B)) := by
    rw [List.isPrefixOf_iff_prefix]
    exact ⟨B, by simp⟩
  rw [if_pos hp]
  have hd : ((body ++ [']']) ++ B).drop (('[' :: body ++ [']']).length - 1) = B := by
    have h2 : ('[' :: body ++ [']']).length - 1 = (body ++ [']']).length := by simp
    rw [h2, List.drop_left]
  rw [hd, replaceAllAux_of_not_infix v hB]

/-- Replacing exactly one bracket-delimited occurrence:
`replaceAll (A ++ t ++ B) t v = A ++ v ++ B` when `t` occurs in neither
`A` nor `B`. -/
theorem replaceAll_single {t : List Char} (v A B : List Char) (ht : BTok t)
    (hA : ¬ t <:+: A) (hB : ¬ t <:+: B) :
    replaceAll (A ++ t ++ B) t v = A ++ v ++ B := by
  have hne : ¬ t.isEmpty := by
    rcases ht.head with ⟨t₂, rfl⟩
    simp [List.isEmpty]
  rw [replaceAll, if_neg hne]
  obtain ⟨tc, t₂, htc⟩ := List.exists_cons_of_ne_nil ht.ne_nil
  have hc : tc = '[' := by
    rcases ht.head with ⟨t₃, h3⟩
    rw [htc] at h3
    simpa using congrArg List.head? h3
  have hassoc : A ++ t ++ B = A ++ (t ++ B) := by simp
  rw [hassoc, replaceAllAux_append_right v (t ++ B) ?hcr hA]
  · rw [replaceAllAux_tok v B ht hB]
    simp
  case hcr =>
    intro i hi hp
    have hform : A ++ (t ++ B) = A ++ '[' :: (t₂ ++ B) := by
      rw [htc, hc]; simp
    rw [hform] at hp
    exact cross_general A (t₂ ++ B)
      (fun k hk hk0 => ht.getElem_pos_ne hk hk0) i hi hp

/-- The first-occurrence behaviour of `replaceFirstAux`: on `B ++ v ++ T` it
replaces an occurrence of `v` ending no later than the exhibited one, and
the tail `T` survives intact. -/
theorem replaceFirstAux_found (v t : List Char) (hv : v ≠ []) :
    ∀ B T, ∃ a b, B ++ v ++ T = a ++ v ++ b ∧
      replaceFirstAux v t (B ++ v ++ T) = a ++ t ++ b ∧ ∃ z, b = z ++ T := by
  intro B
  induction B with
  | nil =>
    intro T
    obtain ⟨vc, vcs, rfl⟩ := List.exists_cons_of_ne_nil hv
    refine ⟨[], T, by simp, ?_, [], rfl⟩
    rw [show ([] : List Char) ++ (vc :: vcs) ++ T = vc :: (vcs ++ T) by simp]
    rw [replaceFirstAux]
    have hp : (vc :: vcs).isPrefixOf (vc :: (vcs ++ T)) := by
      rw [List.isPrefixOf_iff_prefix]
      exact ⟨T, by simp⟩
    rw [if_pos hp]
    have hd : (vc :: (vcs ++ T)).drop (vc :: vcs).length = T := by
      rw [show (vc :: (vcs ++ T)) = (vc :: vcs) ++ T by simp, List.drop_left]
    rw [hd]
    simp
  | cons c B2 ih =>
    intro T
    rw [show (c :: B2) ++ v ++ T = c :: (B2 ++ v ++ T) by simp]
    rw [replaceFirstAux]
    by_cases hp : v.isPrefixOf (c :: (B2 ++ v ++ T))
    · rw [if_pos hp]
      replace hp := List.isPrefixOf_iff_prefix.mp hp
      obtain ⟨r, hr⟩ := hp
      refine ⟨[], r, by simpa using hr.symm, ?_, ?_⟩
      · have hd : (c :: (B2 ++ v ++ T)).drop v.length = r := by
          rw [← hr, List.drop_left]
        rw [hd]
        simp
      · -- `T` is a suffix of `r`
        have hTs : T <:+ c :: (B2 ++ v ++ T) := ⟨c :: (B2 ++ v), by simp⟩
        have hrs : r <:+ c :: (B2 ++ v ++ T) := ⟨v, hr⟩
        have hlen : T.length ≤ r.length := by
          have := congrArg List.length hr
          simp at this
          omega
        obtain ⟨z, hz⟩ := List.suffix_of_suffix_length_le hTs hrs hlen
        exact ⟨z, hz.symm⟩
    · rw [if_neg hp]
      obtain ⟨a, b, h1, h2, z, hz⟩ := ih T
      exact ⟨c :: a, b, by simpa using congrArg (c :: ·) h1,
        by simpa using congrArg (c :: ·) h2, z, hz⟩

theorem SafeTok.btok {t : List Char} (h : SafeTok t) : BTok t := by
  obtain ⟨body, rfl, hne, hchar, -⟩ := h
  exact ⟨body, rfl, fun c hc => ⟨(hchar c hc).1, (hchar c hc).2.1⟩, hne⟩

/-- The last character of a token is `']'`. -/
theorem BTok.getElem_last {t : List Char} (h : BTok t) (hl : t.length - 1 < t.length) :
    t[t.length - 1] = ']' := by
  obtain ⟨b, rfl, -, -⟩ := h
  have hlen : ('[' :: b ++ [']']).length - 1 = ('[' :: b).length := by simp
  have hb2 : ('[' :: b).length < (('[' :: b) ++ [']']).length := by simp
  have : ('[' :: b ++ [']'])[('[' :: b ++ [']']).length - 1] =
      (('[' :: b) ++ [']'])[('[' :: b).length] := by
    congr 1 <;> simp
  rw [this, List.getElem_append_right (Nat.le_refl _)]
  simp

/-- Indexing into the middle component of `l ++ t ++ r`. -/
theorem getElem_mid (l t r : List Char) (i : Nat) (hi : i < t.length)
    (hm : l.length + i < (l ++ t ++ r).length) :
    (l ++ t ++ r)[l.length + i] = t[i] := by
  have e : (l ++ t ++ r)[l.length + i]? = some t[i] := by
    rw [List.append_assoc, List.getElem?_append_right (Nat.le_add_right _ _)]
    have h2 : l.length + i - l.length = i := by omega
    rw [h2, List.getElem?_append, if_pos hi, List.getElem?_eq_getElem hi]
  have e2 : (l ++ t ++ r)[l.length + i]? =
      some ((l ++ t ++ r)[l.length + i]) :=
    List.getElem?_eq_getElem _
  rw [e2] at e
  exact Option.some_inj.mp e

/-- A nonempty bracket-free infix of a token lies inside its body. -/
theorem NoBr.infix_body {v body : List Char} (hv : NoBr v) (hvne : v ≠ [])
    (h : v <:+: '[' :: body ++ [']']) : v <:+: body := by
  obtain ⟨l, r, hlr⟩ := h
  rcases l with _ | ⟨lc, l₂⟩
  · exfalso
    obtain ⟨vc, vcs, rfl⟩ := List.exists_cons_of_ne_nil hvne
    have : vc = '[' := by simpa using congrArg List.head? hlr
    exact (hv vc (by simp)).1 this
  · rcases Nat.eq_zero_or_pos r.length with hr0 | hrpos
    · exfalso
      have hr : r = [] := List.eq_nil_of_length_eq_zero hr0
      subst hr
      obtain ⟨vc, vcs, rfl⟩ := List.exists_cons_of_ne_nil hvne
      have hlast : ((lc :: l₂) ++ (vc :: vcs) ++ ([] : List Char)).getLast? =
          ('[' :: body ++ [']']).getLast? := by rw [hlr]
      have h1 : ((lc :: l₂) ++ (vc :: vcs) ++ ([] : List Char)).getLast? =
          some ((vc :: vcs).getLast (by simp)) := by
        rw [List.append_nil, List.getLast?_append_of_ne_nil _ (by simp)]
        exact List.getLast?_eq_getLast _ _
      have h2 : ('[' :: body ++ [']']).getLast? = some ']' := by
        rw [show ('[' :: body ++ [']']) = ('[' :: body) ++ [']'] by simp,
          List.getLast?_append_of_ne_nil _ (by simp)]
        rfl
      rw [h1, h2] at hlast
      have : (vc :: vcs).getLast (by simp) ∈ vc :: vcs := List.getLast_mem (by simp)
      rw [Option.some_inj.mp hlast] at this
      exact (hv _ this).2 rfl
    · have hrne : r ≠ [] := by
        intro h0; rw [h0] at hrpos; simp at hrpos
      obtain ⟨r₂, rl, hr⟩ : ∃ r₂ rl, r = r₂ ++ [rl] :=
        ⟨r.dropLast, r.getLast hrne, (List.dropLast_append_getLast hrne).symm⟩
      have hlc : lc = '[' := by simpa using congrArg List.head? hlr
      have hrl : rl = ']' := by
        have hlast : ((lc :: l₂) ++ v ++ r).getLast? =
            ('[' :: body ++ [']']).getLast? := by rw [hlr]
        have h1 : ((lc :: l₂) ++ v ++ r).getLast? = some rl := by
          rw [List.getLast?_append_of_ne_nil _ hrne, hr,
            List.getLast?_append_of_ne_nil _ (by simp)]
          rfl
        have h2 : ('[' :: body ++ [']']).getLast? = some ']' := by
          rw [show ('[' :: body ++ [']']) = ('[' :: body) ++ [']'] by simp,
            List.getLast?_append_of_ne_nil _ (by simp)]
          rfl
        rw [h1, h2] at hlast
        exact Option.some_inj.mp hlast
      refine ⟨l₂, r₂, ?_⟩
      have hmain : ('[' :: (l₂ ++ v ++ r₂)) ++ [']'] = ('[' :: body) ++ [']'] := by
        rw [← hlr, hlc, hr, hrl]
        simp
      have h5 : '[' :: (l₂ ++ v ++ r₂) = '[' :: body :=
        List.append_inj_left' hmain rfl
      injection h5

/-- A safe value is never an infix of a safe token's body. -/
theorem SafeVal.not_infix_body {v body : List Char} (hv : SafeVal v)
    (hchar : ∀ c ∈ body, c ≠ '[' ∧ c ≠ ']' ∧ ¬ isPhoneSep c = true ∧ c ≠ '@')
    (hrun : NoLongRun body) : ¬ v <:+: body := by
  intro hinf
  obtain ⟨-, hne, hdis⟩ := hv
  rcases hdis with ⟨c, hc, hcs⟩ | ⟨hdig, hlen⟩
  · have hcb := hinf.subset hc
    rcases hcs with hsep | hat
    · exact (hchar c hcb).2.2.1 hsep
    · exact (hchar c hcb).2.2.2 hat
  · refine hrun ⟨v.take 10, (List.take_prefix _ _).isInfix.trans hinf, ?_, ?_⟩
    · exact List.all_eq_true.mpr fun c hc =>
        List.all_eq_true.mp hdig c (List.take_subset _ _ hc)
    · simp [Nat.min_eq_left hlen]

/-- A safe value is never an infix of a safe token. -/
theorem SafeVal.not_infix_tok {v t : List Char} (hv : SafeVal v)
    (ht : SafeTok t) : ¬ v <:+: t := by
  obtain ⟨body, rfl, -, hchar, hrun⟩ := ht
  intro hinf
  exact hv.not_infix_body hchar hrun (hv.1.infix_body hv.2.1 hinf)

/-- Key glue lemma: a safe token cannot occur across or inside
`a ++ v ++ b` when it occurs in neither `a` nor `b` and `v` is a safe
value. -/
theorem SafeTok.not_infix_glue {t : List Char} (ht : SafeTok t)
    {a v b : List Char} (ha : ¬ t <:+: a) (hb : ¬ t <:+: b)
    (hv : SafeVal v) : ¬ t <:+: a ++ v ++ b := by
  intro hinf
  obtain ⟨l, r, hlr⟩ := hinf
  have hbt : BTok t := ht.btok
  have htpos : 0 < t.length := by
    rcases hbt.head with ⟨t₂, rfl⟩; simp
  rcases le_or_lt (l.length + t.length) a.length with h1 | h1
  · -- occurrence entirely inside `a`
    have e : a = (l ++ (t ++ r)).take a.length := by
      rw [show l ++ (t ++ r) = l ++ t ++ r by simp, hlr,
        show a ++ v ++ b = a ++ (v ++ b) by simp, List.take_left' rfl]
    have e2 : (l ++ (t ++ r)).take a.length =
        l ++ (t ++ r.take (a.length - l.length - t.length)) := by
      rw [List.take_append_eq_append_take,
        List.take_of_length_le (show l.length ≤ a.length by omega),
        List.take_append_eq_append_take,
        List.take_of_length_le (show t.length ≤ a.length - l.length by omega)]
    refine ha ⟨l, r.take (a.length - l.length - t.length), ?_⟩
    rw [show l ++ t ++ r.take (a.length - l.length - t.length) =
      l ++ (t ++ r.take (a.length - l.length - t.length)) by simp, ← e2, ← e]
  · rcases le_or_lt (a.length + v.length) l.length with h2 | h2
    · -- occurrence entirely inside `b`
      refine hb ⟨l.drop (a.length + v.length), r, ?_⟩
      have e : (l ++ t ++ r).drop (a.length + v.length) = b := by
        rw [hlr, show a ++ v ++ b = (a ++ v) ++ b by simp,
          List.drop_left' (by simp)]
      rw [← e, show l ++ t ++ r = l ++ (t ++ r) by simp,
        List.drop_append_eq_append_drop, Nat.sub_eq_zero_of_le h2,
        List.drop_zero]
      simp
    · rcases le_or_lt a.length l.length with h3 | h3
      · -- the `'['` of `t` sits inside `v`
        have hlt : l.length - a.length < v.length := by omega
        have hc1 : l.length + 0 < (l ++ t ++ r).length := by simp; omega
        have hc2 : a.length + (l.length - a.length) < (a ++ v ++ b).length := by
          simp; omega
        have hc3 : l.length + 0 < (a ++ v ++ b).length := by simp; omega
        have e1 : (l ++ t ++ r)[l.length + 0] = t[0] :=
          getElem_mid l t r 0 htpos hc1
        have e2 : (a ++ v ++ b)[a.length + (l.length - a.length)] =
            v[l.length - a.length] := getElem_mid a v b _ hlt hc2
        have hidx : a.length + (l.length - a.length) = l.length + 0 := by omega
        simp only [hidx] at e2
        have e3 : t[0] = '[' := by
          rcases hbt.head with ⟨t₂, rfl⟩; rfl
        have e4 : (l ++ t ++ r)[l.length + 0] =
            (a ++ v ++ b)[l.length + 0] :=
          List.getElem_of_eq hlr _
        have : v[l.length - a.length] = '[' := by
          rw [← e2, ← e4, e1, e3]
        exact (hv.1 _ (List.getElem_mem _)).1 this
      · rcases le_or_lt (l.length + t.length) (a.length + v.length) with h4 | h4
        · -- the `']'` of `t` sits inside `v`
          have hj : t.length - 1 < t.length := by omega
          have hm : l.length + (t.length - 1) - a.length < v.length := by omega
          have hc1 : l.length + (t.length - 1) < (l ++ t ++ r).length := by
            simp; omega
          have hc2 : a.length + (l.length + (t.length - 1) - a.length) <
              (a ++ v ++ b).length := by simp; omega
          have hc3 : l.length + (t.length - 1) < (a ++ v ++ b).length := by
            simp; omega
          have e1 : (l ++ t ++ r)[l.length + (t.length - 1)] =
              t[t.length - 1] := getElem_mid l t r _ hj hc1
          have e2 : (a ++ v ++ b)[a.length + (l.length + (t.length - 1) - a.length)] =
              v[l.length + (t.length - 1) - a.length] := getElem_mid a v b _ hm hc2
          have hidx : a.length + (l.length + (t.length - 1) - a.length) =
              l.length + (t.length - 1) := by omega
          simp only [hidx] at e2
          have e3 : t[t.length - 1] = ']' := hbt.getElem_last hj
          have e4 : (l ++ t ++ r)[l.length + (t.length - 1)] =
              (a ++ v ++ b)[l.length + (t.length - 1)] :=
            List.getElem_of_eq hlr _
          have : v[l.length + (t.length - 1) - a.length] = ']' := by
            rw [← e2, ← e4, e1, e3]
          exact (hv.1 _ (List.getElem_mem _)).2 this
        · -- `v` sits strictly inside `t`
          have e : (a ++ v ++ b).drop a.length = v ++ b := by
            rw [show a ++ v ++ b = a ++ (v ++ b) by simp, List.drop_left' rfl]
          have e2 : ((a ++ v ++ b).drop a.length).take v.length = v := by
            rw [e, List.take_left' rfl]
          have e3 : (l ++ t ++ r).drop a.length =
              t.drop (a.length - l.length) ++ r := by
            rw [show l ++ t ++ r = l ++ (t ++ r) by simp,
              List.drop_append_eq_append_drop,
              List.drop_eq_nil_of_le (by omega),
              List.drop_append_eq_append_drop,
              Nat.sub_eq_zero_of_le (by omega : a.length - l.length ≤ t.length),
              List.drop_zero, List.nil_append]
          have e4 : ((l ++ t ++ r).drop a.length).take v.length =
              (t.drop (a.length - l.length)).take v.length := by
            rw [e3, List.take_append_eq_append_take,
              Nat.sub_eq_zero_of_le
                (by simp only [List.length_drop]; omega : v.length ≤ (t.drop (a.length - l.length)).length),
              List.take_zero, List.append_nil]
          have hveq : v = (t.drop (a.length - l.length)).take v.length := by
            conv_lhs => rw [← e2, ← hlr]
            exact e4
          have hseg : v <:+: t := by
            rw [hveq]
            exact (List.take_prefix _ _).isInfix.trans
              (List.drop_suffix _ _).isInfix
          exact hv.not_infix_tok ht hseg

/-! ### Infix splitting over appends -/

/-- An occurrence that ends inside `A` is an occurrence in `A`. -/
theorem infix_left_of_eq {l x r A B : List Char} (h : l ++ x ++ r = A ++ B)
    (hle : l.length + x.length ≤ A.length) : x <:+: A := by
  have e : A = (l ++ (x ++ r)).take A.length := by
    rw [show l ++ (x ++ r) = l ++ x ++ r by simp, h, List.take_left' rfl]
  have e2 : (l ++ (x ++ r)).take A.length =
      l ++ (x ++ r.take (A.length - l.length - x.length)) := by
    rw [List.take_append_eq_append_take,
      List.take_of_length_le (show l.length ≤ A.length by omega),
      List.take_append_eq_append_take,
      List.take_of_length_le (show x.length ≤ A.length - l.length by omega)]
  refine ⟨l, r.take (A.length - l.length - x.length), ?_⟩
  rw [show l ++ x ++ r.take (A.length - l.length - x.length) =
    l ++ (x ++ r.take (A.length - l.length - x.length)) by simp, ← e2, ← e]

/-- An occurrence that starts at or past `A` is an occurrence in `B`. -/
theorem infix_right_of_eq {l x r A B : List Char} (h : l ++ x ++ r = A ++ B)
    (hge : A.length ≤ l.length) : x <:+: B := by
  refine ⟨l.drop A.length, r, ?_⟩
  have e : (l ++ (x ++ r)).drop A.length = B := by
    rw [show l ++ (x ++ r) = l ++ x ++ r by simp, h, List.drop_left' rfl]
  rw [← e, List.drop_append_eq_append_drop, Nat.sub_eq_zero_of_le hge,
    List.drop_zero]
  simp

/-- Splitting an occurrence of `x` in `A ++ B`: it is inside `A`, inside
`B`, or splits as a nonempty suffix-of-`A` part and a nonempty
prefix-of-`B` part. -/
theorem infix_append_split {x A B : List Char} (h : x <:+: A ++ B) :
    x <:+: A ∨ x <:+: B ∨
      ∃ n, 0 < n ∧ n < x.length ∧ x.take n <:+ A ∧ x.drop n <+: B := by
  obtain ⟨l, r, hlr⟩ := h
  rcases le_or_lt (l.length + x.length) A.length with h1 | h1
  · exact Or.inl (infix_left_of_eq hlr h1)
  · rcases le_or_lt A.length l.length with h2 | h2
    · exact Or.inr (Or.inl (infix_right_of_eq hlr h2))
    · refine Or.inr (Or.inr ⟨A.length - l.length, by omega, by omega, ?_, ?_⟩)
      · -- `A = l ++ x.take (A.length - l.length)`
        refine ⟨l, ?_⟩
        have e : A = (l ++ (x ++ r)).take A.length := by
          rw [show l ++ (x ++ r) = l ++ x ++ r by simp, hlr, List.take_left' rfl]
        have e2 : (l ++ (x ++ r)).take A.length =
            l ++ x.take (A.length - l.length) := by
          rw [List.take_append_eq_append_take,
            List.take_of_length_le (show l.length ≤ A.length by omega),
            List.take_append_eq_append_take,
            Nat.sub_eq_zero_of_le (show A.length - l.length ≤ x.length by omega),
            List.take_zero, List.append_nil]
        rw [← e2, ← e]
      · -- `B = x.drop (A.length - l.length) ++ r`
        refine ⟨r, ?_⟩
        have e : (l ++ (x ++ r)).drop A.length = B := by
          rw [show l ++ (x ++ r) = l ++ x ++ r by simp, hlr, List.drop_left' rfl]
        have e3 : (l ++ (x ++ r)).drop A.length =
            x.drop (A.length - l.length) ++ r := by
          rw [List.drop_append_eq_append_drop,
            List.drop_eq_nil_of_le (show l.length ≤ A.length by omega),
            List.drop_append_eq_append_drop,
            Nat.sub_eq_zero_of_le (show A.length - l.length ≤ x.length by omega),
            List.drop_zero, List.nil_append]
        rw [← e, e3]

/-- A bracket-delimited token that occurs inside another one equals it. -/
theorem BTok.infix_btok_eq {t u : List Char} (ht : BTok t) (hu : BTok u)
    (h : t <:+: u) : t = u := by
  obtain ⟨l, r, hlr⟩ := h
  have htpos : 0 < t.length := by rcases ht.head with ⟨t₂, rfl⟩; simp
  have hup : l.length + 0 < u.length := by
    have := congrArg List.length hlr
    simp at this
    omega
  have hl0 : l.length = 0 := by
    by_contra hne
    have hc1 : l.length + 0 < (l ++ t ++ r).length := by simp; omega
    have e1 : (l ++ t ++ r)[l.length + 0] = t[0] :=
      getElem_mid l t r 0 htpos hc1
    have e4 : (l ++ t ++ r)[l.length + 0] =
        u[l.length + 0] := List.getElem_of_eq hlr _
    have e3 : t[0] = '[' := by rcases ht.head with ⟨t₂, rfl⟩; rfl
    exact hu.getElem_pos_ne hup (by omega) (by rw [← e4, e1, e3])
  have hl : l = [] := List.eq_nil_of_length_eq_zero hl0
  subst hl
  simp only [List.nil_append] at hlr
  have hpre : t <+: u := ⟨r, hlr⟩
  have hlen : u.length ≤ t.length := by
    by_contra hlt
    push_neg at hlt
    have hj : t.length - 1 < t.length := by omega
    have hju : t.length - 1 < u.length := by omega
    have e1 : t[t.length - 1] = ']' := ht.getElem_last hj
    have e2 : t[t.length - 1] = u[t.length - 1] := hpre.getElem hj
    exact hu.getElem_lt_last_ne hju (by omega) (by rw [← e2, e1])
  exact hpre.eq_of_length_le hlen

theorem aflat_nil (p : List Char) : aflat (p, []) = p := by
  simp [aflat]

theorem aflat_cons (p : List Char) (e) (L) :
    aflat (p, e :: L) = p ++ (e.1.1 ++ aflat (e.2, L)) := by
  simp [aflat]

theorem arestore_nil (p : List Char) : arestore (p, []) = p := by
  simp [arestore]

theorem arestore_cons (p : List Char) (e) (L) :
    arestore (p, e :: L) = p ++ (e.1.2 ++ arestore (e.2, L)) := by
  simp [arestore]

theorem BTok.head?_eq {t : List Char} (ht : BTok t) : t.head? = some '[' := by
  obtain ⟨b, rfl, -, -⟩ := ht
  rfl

theorem BTok.getLast?_eq {t : List Char} (ht : BTok t) : t.getLast? = some ']' := by
  obtain ⟨b, rfl, -, -⟩ := ht
  rw [show ('[' :: b ++ [']']) = ('[' :: b) ++ [']'] by simp]
  exact List.getLast?_concat _

/-- The last element of a nonempty `take`. -/
theorem getLast?_take {t : List Char} {n : Nat} (hn0 : 0 < n)
    (hn : n ≤ t.length) :
    (t.take n).getLast? = some t[n - 1] := by
  have he : t.take (n - 1) ++ [t[n - 1]] = t.take n := by
    have := List.take_concat_get t (n - 1) (by omega)
    simpa [List.concat_eq_append, Nat.sub_add_cancel hn0] using this
  rw [← he]
  exact List.getLast?_concat _

/-- The head of a nonempty `drop`. -/
theorem head?_drop_eq {t : List Char} {n : Nat} (hn : n < t.length) :
    (t.drop n).head? = some t[n] := by
  rw [List.head?_drop]
  exact List.getElem?_eq_getElem hn

/-- A nonempty prefix agrees on `head?`. -/
theorem IsPrefix.head?_eq_of_ne_nil {x y : List Char} (h : x <+: y)
    (hx : x ≠ []) : y.head? = x.head? := by
  obtain ⟨w, rfl⟩ := h
  rw [List.head?_append]
  obtain ⟨c, cs, rfl⟩ := List.exists_cons_of_ne_nil hx
  rfl

/-- A nonempty suffix agrees on `getLast?`. -/
theorem IsSuffix.getLast?_eq_of_ne_nil {x y : List Char} (h : x <:+ y)
    (hx : x ≠ []) : y.getLast? = x.getLast? := by
  obtain ⟨w, rfl⟩ := h
  exact List.getLast?_append_of_ne_nil _ hx

/-- Occurrences of `w` that start strictly inside `A ++ [']']` cannot reach
past it when `w` has no `']'` before its final position. -/
theorem cross_general2 {w : List Char} (A C : List Char)
    (hw : ∀ k, (hk : k < w.length) → k + 1 < w.length → w[k] ≠ ']') :
    ∀ i, i < (A ++ [']']).length → w <+: ((A ++ [']'] ++ C).drop i) →
      i + w.length ≤ (A ++ [']']).length := by
  intro i hi hp
  by_contra hgt
  have hAl : (A ++ [']']).length = A.length + 1 := by simp
  rw [hAl] at hi hgt
  have hk : A.length - i < w.length := by omega
  have hk1 : A.length - i + 1 < w.length := by omega
  have hcb : i + (A.length - i) < (A ++ [']'] ++ C).length := by simp; omega
  have hchar : w[A.length - i] =
      (A ++ [']'] ++ C)[i + (A.length - i)] := by
    rw [hp.getElem hk]
    exact List.getElem_drop ..
  have hbr : (A ++ [']'] ++ C)[i + (A.length - i)] = ']' := by
    have hia : i + (A.length - i) = A.length := by omega
    simp only [hia]
    rw [List.getElem_append_left (by simp)]
    rw [List.getElem_append_right (Nat.le_refl _)]
    simp
  exact hw _ hk hk1 (hchar.trans hbr)

/-- With nothing after `A`, occurrences starting inside `A` end inside. -/
theorem cross_nil {w A : List Char} :
    ∀ i, i < A.length → w <+: ((A ++ ([] : List Char)).drop i) →
      i + w.length ≤ A.length := by
  intro i hi hp
  have := hp.length_le
  simp at this
  omega

/-- Scanning `A ++ C` when the first occurrence of `w` lies inside `A`:
`replaceFirstAux` never reaches `C`. -/
theorem replaceFirstAux_append_left {w : List Char} (t : List Char)
    {A : List Char} (C : List Char) (hw : w ≠ [])
    (hcr : ∀ i, i < A.length → w <+: ((A ++ C).drop i) → i + w.length ≤ A.length)
    (hA : w <:+: A) :
    replaceFirstAux w t (A ++ C) = replaceFirstAux w t A ++ C := by
  induction A with
  | nil =>
    exact absurd (List.eq_nil_of_infix_nil hA) hw
  | cons c A2 ih =>
    rw [List.cons_append, replaceFirstAux, replaceFirstAux]
    by_cases hp : w.isPrefixOf (c :: A2)
    · have hp2 : w.isPrefixOf (c :: (A2 ++ C)) := by
        rw [List.isPrefixOf_iff_prefix] at hp ⊢
        exact hp.trans (by simpa using List.prefix_append (c :: A2) C)
      rw [if_pos hp, if_pos hp2]
      have hlen : w.length ≤ (c :: A2).length :=
        (List.isPrefixOf_iff_prefix.mp hp).length_le
      rw [show c :: (A2 ++ C) = (c :: A2) ++ C from rfl,
        List.drop_append_eq_append_drop, Nat.sub_eq_zero_of_le (by simpa using hlen),
        List.drop_zero]
      simp
    · have hp2 : ¬ w.isPrefixOf (c :: (A2 ++ C)) := by
        intro hcon
        replace hcon := List.isPrefixOf_iff_prefix.mp hcon
        have := hcr 0 (by simp) (by simpa using hcon)
        exact hp (List.isPrefixOf_iff_prefix.mpr
          (prefix_of_prefix_append (by simpa using hcon) (by simpa using this)))
      rw [if_neg hp, if_neg hp2, List.cons_append]
      have hA2 : w <:+: A2 := by
        rcases List.infix_cons_iff.mp hA with hpre | hinf
        · exact absurd (List.isPrefixOf_iff_prefix.mpr hpre) hp
        · exact hinf
      rw [ih (fun i hi hpw => by
            have := hcr (i + 1) (by simp; omega) (by simpa using hpw)
            simp at this ⊢
            omega) hA2]

/-- A bracket-delimited token absent from the entries of an alternating mix
and from its pieces does not occur in the flattened string. -/
theorem not_infix_aflat {t : List Char} (ht : BTok t) :
    ∀ (L : List ((List Char × List Char) × List Char)) (p : List Char),
      (∀ q ∈ pieces (p, L), ¬ t <:+: q) →
      (∀ e ∈ toks (p, L), BTok e.1 ∧ e.1 ≠ t) →
      ¬ t <:+: aflat (p, L) := by
  intro L
  induction L with
  | nil =>
    intro p hp _ hinf
    rw [aflat_nil] at hinf
    exact hp p (by simp [pieces]) hinf
  | cons e L ih =>
    intro p hp htk hinf
    rw [aflat_cons] at hinf
    have hte : BTok e.1.1 ∧ e.1.1 ≠ t := htk e.1 (by simp [toks])
    -- split at the `p | token ++ rest` boundary
    rcases infix_append_split hinf with hA | hBC | ⟨n, hn0, hnl, h1, h2⟩
    · exact hp p (by simp [pieces]) hA
    · -- split at the `token | rest` boundary
      rcases infix_append_split hBC with hT | hR | ⟨n, hn0, hnl, h1, h2⟩
      · exact hte.2 (ht.infix_btok_eq hte.1 hT).symm
      · exact ih e.2 (fun q hq => hp q (by simp [pieces] at hq ⊢; tauto))
          (fun u hu => htk u (by simp [toks] at hu ⊢; tauto)) hR
      · -- a nonempty suffix of `x` ends the token: it would have to end
        -- with `']'`, impossible strictly before the end of `t`
        have htlen : n ≤ t.length := by omega
        have hne : t.take n ≠ [] := by
          have hpos : 0 < (t.take n).length := by
            simp only [List.length_take]
            omega
          exact List.length_pos.mp hpos
        have h5 : e.1.1.getLast? = (t.take n).getLast? :=
          IsSuffix.getLast?_eq_of_ne_nil h1 hne
        rw [hte.1.getLast?_eq, getLast?_take hn0 htlen] at h5
        have hcb : n - 1 < t.length := by omega
        have hc : t[n - 1] = ']' := (Option.some_inj.mp h5).symm
        exact ht.getElem_lt_last_ne (by omega) (by omega) hc
    · -- an occurrence starting inside `p` would continue into the token:
      -- the continuation starts with `'['`, impossible at a positive
      -- position of `t`
      have hne : t.drop n ≠ [] := by
        have hpos : 0 < (t.drop n).length := by
          simp only [List.length_drop]
          omega
        exact List.length_pos.mp hpos
      have h5 : (e.1.1 ++ aflat (e.2, L)).head? = (t.drop n).head? :=
        IsPrefix.head?_eq_of_ne_nil h2 hne
      have hd2 : (e.1.1 ++ aflat (e.2, L)).head? = some '[' := by
        rw [List.head?_append, hte.1.head?_eq]
        rfl
      rw [hd2, head?_drop_eq (show n < t.length by omega)] at h5
      exact ht.getElem_pos_ne (by omega) hn0 (Option.some_inj.mp h5).symm

theorem splitFirst_spec (v t : List Char) (hv : v ≠ []) :
    ∀ s : List Char,
      (splitFirst v s = none → ¬ v <:+: s) ∧
      (∀ x y, splitFirst v s = some (x, y) →
        s = x ++ v ++ y ∧ replaceFirstAux v t s = x ++ t ++ y) := by
  intro s
  induction s with
  | nil =>
    refine ⟨fun _ hinf => hv (List.eq_nil_of_infix_nil hinf), fun x y h => ?_⟩
    simp [splitFirst] at h
  | cons c cs ih =>
    by_cases hp : v.isPrefixOf (c :: cs)
    · refine ⟨fun h => ?_, fun x y h => ?_⟩
      · rw [splitFirst, if_pos hp] at h
        exact absurd h (by simp)
      · rw [splitFirst, if_pos hp] at h
        obtain ⟨hx, hy⟩ := Prod.mk.injEq .. ▸ Option.some_inj.mp h
        subst hx
        obtain ⟨w, hw⟩ := List.isPrefixOf_iff_prefix.mp hp
        constructor
        · rw [← hy, ← hw, List.drop_left' rfl]
          simpa using hw.symm
        · rw [replaceFirstAux, if_pos hp, ← hy, ← hw, List.drop_left' rfl]
          simp
    · refine ⟨fun h => ?_, fun x y h => ?_⟩
      · rw [splitFirst, if_neg hp] at h
        rw [List.infix_cons_iff]
        rintro (hpre | hinf)
        · exact hp (List.isPrefixOf_iff_prefix.mpr hpre)
        · exact ih.1 (by simpa using h) hinf
      · rw [splitFirst, if_neg hp] at h
        rcases h2 : splitFirst v cs with _ | xy
        · rw [h2] at h; simp at h
        · rw [h2] at h
          have h' : some ((c :: xy.1, xy.2) : List Char × List Char) = some (x, y) := h
          obtain ⟨hx, hy⟩ := Prod.mk.injEq .. ▸ Option.some_inj.mp h'
          obtain ⟨h3, h4⟩ := ih.2 xy.1 xy.2 (by simpa using h2)
          subst hx
          constructor
          · rw [← hy]
            simpa using congrArg (c :: ·) h3
          · rw [replaceFirstAux, if_neg hp, ← hy]
            simpa using congrArg (c :: ·) h4

/-- Crossing condition for a continuation that is empty or starts with `'['`. -/
theorem cross_bracket_or_nil {w A C : List Char}
    (hw : ∀ k, (hk : k < w.length) → 0 < k → w[k] ≠ '[')
    (hC : C = [] ∨ ∃ C₂, C = '[' :: C₂) :
    ∀ i, i < A.length → w <+: ((A ++ C).drop i) → i + w.length ≤ A.length := by
  rcases hC with rfl | ⟨C₂, rfl⟩
  · exact fun i hi hp => cross_nil i hi hp
  · exact fun i hi hp => cross_general A C₂ hw i hi hp

/-- The tail of an alternating mix is empty or starts with `'['`. -/
theorem aflat_tail_shape (L : List ((List Char × List Char) × List Char))
    (htoks : ∀ e ∈ L, BTok e.1.1) :
    (L.map (fun e => e.1.1 ++ e.2)).flatten = [] ∨
      ∃ C₂, (L.map (fun e => e.1.1 ++ e.2)).flatten = '[' :: C₂ := by
  rcases L with _ | ⟨e, L2⟩
  · exact Or.inl (by simp)
  · obtain ⟨b, hb, -, -⟩ := htoks e (by simp)
    refine Or.inr ⟨(b ++ [']']) ++ e.2 ++ (L2.map (fun e => e.1.1 ++ e.2)).flatten, ?_⟩
    simp only [List.map_cons, List.flatten_cons, hb]
    simp

/-- A bracket-free value occurring in `p ++ (t₁ ++ X)` but not in `p` and
not in the token `t₁` occurs in `X`. -/
theorem infix_tail_of_infix {v p t₁ X : List Char} (hv : SafeVal v)
    (ht₁ : SafeTok t₁) (hnp : ¬ v <:+: p)
    (h : v <:+: p ++ (t₁ ++ X)) : v <:+: X := by
  rcases infix_append_split h with hin | hin | ⟨n, hn0, hnl, h1, h2⟩
  · exact absurd hin hnp
  · rcases infix_append_split hin with hin2 | hin2 | ⟨n, hn0, hnl, h1, h2⟩
    · exact absurd hin2 (hv.not_infix_tok ht₁)
    · exact hin2
    · exfalso
      have hne : v.take n ≠ [] := by
        have hpos : 0 < (v.take n).length := by
          simp only [List.length_take]
          omega
        exact List.length_pos.mp hpos
      have h5 : t₁.getLast? = (v.take n).getLast? :=
        IsSuffix.getLast?_eq_of_ne_nil h1 hne
      rw [ht₁.btok.getLast?_eq, getLast?_take hn0 (by omega)] at h5
      exact (hv.1 _ (List.getElem_mem _)).2 (Option.some_inj.mp h5).symm
  · exfalso
    have hne : v.drop n ≠ [] := by
      have hpos : 0 < (v.drop n).length := by
        simp only [List.length_drop]
        omega
      exact List.length_pos.mp hpos
    have h5 : (t₁ ++ X).head? = (v.drop n).head? :=
      IsPrefix.head?_eq_of_ne_nil h2 hne
    have hd2 : (t₁ ++ X).head? = some '[' := by
      rw [List.head?_append, ht₁.btok.head?_eq]
      rfl
    rw [hd2, head?_drop_eq (show n < v.length by omega)] at h5
    exact (hv.1 _ (List.getElem_mem _)).1 (Option.some_inj.mp h5).symm

/-- Main insertion lemma: `replaceFirstAux` on the flattened mix equals the
flattening of `insertTok`, restoring is unchanged, the new pair is added,
and new pieces are infixes of the old. -/
theorem insertTok_spec {v : List Char} (t : List Char) (hv : SafeVal v) :
    ∀ (L : List ((List Char × List Char) × List Char)) (p : List Char),
      (∀ e ∈ toks (p, L), SafeTok e.1) →
      v <:+: aflat (p, L) →
      replaceFirstAux v t (aflat (p, L)) = aflat (insertTok v t p L) ∧
      arestore (insertTok v t p L) = arestore (p, L) ∧
      List.Perm (toks (insertTok v t p L)) ((t, v) :: toks (p, L)) ∧
      (∀ q ∈ pieces (insertTok v t p L), ∃ q₀ ∈ pieces (p, L), q <:+: q₀) := by
  intro L
  induction L with
  | nil =>
    intro p _ hinf
    rw [aflat_nil] at hinf
    rcases hsp : splitFirst v p with _ | xy
    · exact absurd hinf ((splitFirst_spec v t hv.2.1 p).1 hsp)
    · obtain ⟨hdec, hrepl⟩ := (splitFirst_spec v t hv.2.1 p).2 xy.1 xy.2 hsp
      rw [show insertTok v t p [] = (xy.1, ((t, v), xy.2) :: []) by
        rw [insertTok, hsp]]
      refine ⟨?_, ?_, by simp [toks], ?_⟩
      · rw [aflat_nil, hrepl, aflat_cons, aflat_nil]
        simp
      · rw [arestore_cons, arestore_nil, arestore_nil]
        simp [hdec]
      · intro q hq
        simp only [pieces, List.map_cons, List.map_nil, List.mem_cons,
          List.mem_singleton] at hq
        rcases hq with rfl | hq
        · exact ⟨p, by simp [pieces], ⟨[], v ++ xy.2, by rw [hdec]; simp⟩⟩
        · rcases hq with rfl | hq
          · refine ⟨p, by simp [pieces], ?_⟩
            rw [hdec, show xy.1 ++ v ++ xy.2 = (xy.1 ++ v) ++ xy.2 by simp]
            exact (List.suffix_append _ _).isInfix
          · simp at hq
  | cons e L2 ih =>
    intro p htoks hinf
    have hte : SafeTok e.1.1 := htoks e.1 (by simp [toks])
    rcases hsp : splitFirst v p with _ | xy
    · -- the value occurs past the head piece
      have hnp : ¬ v <:+: p := (splitFirst_spec v t hv.2.1 p).1 hsp
      rw [aflat_cons] at hinf
      have hX : v <:+: aflat (e.2, L2) := infix_tail_of_infix hv hte hnp hinf
      obtain ⟨ih1, ih2, ih3, ih4⟩ := ih e.2
        (fun u hu => htoks u (by simp [toks] at hu ⊢; tauto)) hX
      rw [show insertTok v t p (e :: L2) =
        (p, (e.1, (insertTok v t e.2 L2).1) :: (insertTok v t e.2 L2).2) by
        rw [insertTok, hsp]]
      set m2 := insertTok v t e.2 L2 with hm2
      refine ⟨?_, ?_, ?_, ?_⟩
      · rw [aflat_cons, aflat_cons]
        obtain ⟨b, hb, -, -⟩ := hte.btok
        have hcr1 : ∀ i, i < p.length →
            v <+: ((p ++ (e.1.1 ++ aflat (e.2, L2))).drop i) →
            i + v.length ≤ p.length := by
          intro i hi hp2
          rw [show e.1.1 ++ aflat (e.2, L2) =
            '[' :: (b ++ [']'] ++ aflat (e.2, L2)) by simp [hb]] at hp2
          exact cross_general p _
            (fun k hk _ => (hv.1 _ (List.getElem_mem _)).1) i hi hp2
        rw [replaceFirstAux_append_right t _ hcr1 hnp]
        have hcr2 : ∀ i, i < e.1.1.length →
            v <+: ((e.1.1 ++ aflat (e.2, L2)).drop i) →
            i + v.length ≤ e.1.1.length := by
          intro i hi hp2
          have h3 : e.1.1 = ('[' :: b) ++ [']'] := by simp [hb]
          rw [h3] at hi ⊢
          rw [show e.1.1 ++ aflat (e.2, L2) =
            ('[' :: b) ++ [']'] ++ aflat (e.2, L2) by simp [hb]] at hp2
          exact cross_general2 ('[' :: b) _
            (fun k hk _ => (hv.1 _ (List.getElem_mem _)).2) i hi hp2
        rw [replaceFirstAux_append_right t _ hcr2 (hv.not_infix_tok hte)]
        rw [ih1]
      · rw [arestore_cons, arestore_cons]
        rw [show arestore (m2.1, m2.2) = arestore m2 from rfl, ih2]
      · have he : toks (p, (e.1, m2.1) :: m2.2) = e.1 :: toks m2 := by
          simp [toks]
        rw [he]
        have h7 : toks (p, e :: L2) = e.1 :: toks (e.2, L2) := by simp [toks]
        rw [h7]
        exact (ih3.cons e.1).trans (List.Perm.swap _ _ _)
      · intro q hq
        simp only [pieces, List.map_cons, List.mem_cons] at hq
        rcases hq with rfl | hq
        · exact ⟨q, by simp [pieces], List.infix_refl q⟩
        · have hq2 : q ∈ pieces m2 := by
            simp only [pieces, List.mem_cons]
            tauto
          obtain ⟨q₀, hq₀, hinf₀⟩ := ih4 q hq2
          refine ⟨q₀, ?_, hinf₀⟩
          simp only [pieces, List.map_cons, List.mem_cons] at hq₀ ⊢
          tauto
    · -- the value occurs in the head piece
      obtain ⟨hdec, hrepl⟩ := (splitFirst_spec v t hv.2.1 p).2 xy.1 xy.2 hsp
      rw [show insertTok v t p (e :: L2) = (xy.1, ((t, v), xy.2) :: e :: L2) by
        rw [insertTok, hsp]]
      refine ⟨?_, ?_, by simp [toks], ?_⟩
      · rw [aflat_cons, aflat_cons, aflat_cons]
        obtain ⟨b, hb, -, -⟩ := hte.btok
        have hcr1 : ∀ i, i < p.length →
            v <+: ((p ++ (e.1.1 ++ aflat (e.2, L2))).drop i) →
            i + v.length ≤ p.length := by
          intro i hi hp2
          rw [show e.1.1 ++ aflat (e.2, L2) =
            '[' :: (b ++ [']'] ++ aflat (e.2, L2)) by simp [hb]] at hp2
          exact cross_general p _
            (fun k hk _ => (hv.1 _ (List.getElem_mem _)).1) i hi hp2
        rw [replaceFirstAux_append_left t _ hv.2.1 hcr1 ⟨xy.1, xy.2, hdec.symm⟩]
        rw [hrepl]
        simp
      · rw [arestore_cons, arestore_cons, arestore_cons]
        simp [hdec]
      · intro q hq
        simp only [pieces, List.map_cons, List.mem_cons] at hq
        rcases hq with rfl | hq
        · exact ⟨p, by simp [pieces], ⟨[], v ++ xy.2, by rw [hdec]; simp⟩⟩
        · rcases hq with rfl | hq
          · refine ⟨p, by simp [pieces], ?_⟩
            rw [hdec, show xy.1 ++ v ++ xy.2 = (xy.1 ++ v) ++ xy.2 by simp]
            exact (List.suffix_append _ _).isInfix
          · refine ⟨q, ?_, List.infix_refl q⟩
            simp only [pieces, List.map_cons, List.mem_cons]
            tauto

/-! ### Removing a token (unmasking direction) -/

/-- `replaceAll` with a nonempty pattern is the auxiliary scan. -/
theorem replaceAll_eq_aux {old : List Char} (s new : List Char)
    (h : old ≠ []) : replaceAll s old new = replaceAllAux old new s := by
  rw [replaceAll, if_neg (by simpa [List.isEmpty_iff] using h)]

/-- Main removal lemma: `replaceAll` of a token on the flattened mix equals
the flattening of `removeTok`; restore is unchanged; invariants carry. -/
theorem removeTok_spec {t v : List Char} {T : List (List Char)}
    (hT : ∀ u ∈ T, SafeTok u) (htT : t ∈ T) (hv : SafeVal v) :
    ∀ (L : List ((List Char × List Char) × List Char)) (p : List Char),
      (∀ e ∈ toks (p, L), SafeTok e.1 ∧ SafeVal e.2) →
      (L.map (fun e => e.1.1)).Nodup →
      (t, v) ∈ toks (p, L) →
      (∀ q ∈ pieces (p, L), ∀ u ∈ T, ¬ u <:+: q) →
      (∀ e ∈ toks (p, L), e.1 ∈ T) →
      replaceAll (aflat (p, L)) t v = aflat (removeTok t v p L) ∧
      arestore (removeTok t v p L) = arestore (p, L) ∧
      List.Perm (toks (p, L)) ((t, v) :: toks (removeTok t v p L)) ∧
      (∀ e ∈ toks (removeTok t v p L), SafeTok e.1 ∧ SafeVal e.2) ∧
      ((removeTok t v p L).2.map (fun e => e.1.1)).Nodup ∧
      (∀ q ∈ pieces (removeTok t v p L), ∀ u ∈ T, ¬ u <:+: q) ∧
      (∀ e ∈ toks (removeTok t v p L), e.1 ∈ T) := by
  have hst : SafeTok t := hT t htT
  intro L
  induction L with
  | nil =>
    intro p _ _ hmem _ _
    simp [toks] at hmem
  | cons e L ih =>
    intro p htoks hnodup hmem hpieces htT2
    by_cases he : e.1.1 = t
    · -- this entry carries the token
      have hval : e.1.2 = v := by
      -- `(t, v)` is the head entry, by key uniqueness
        rcases (by simpa [toks] using hmem :
            (t, v) = e.1 ∨ (t, v) ∈ L.map (fun x => x.1)) with h1 | h1
        · rw [← h1]
        · exfalso
          have : t ∈ L.map (fun x => x.1.1) := by
            simp only [List.mem_map] at h1 ⊢
            obtain ⟨x, hx, hx2⟩ := h1
            exact ⟨x, hx, by rw [hx2]⟩
          simp only [List.map_cons, List.nodup_cons] at hnodup
          exact hnodup.1 (he ▸ this)
      rw [show removeTok t v p (e :: L) = (p ++ v ++ e.2, L) by
        rw [removeTok, if_pos he]]
      have hnp : ¬ t <:+: p := hpieces p (by simp [pieces]) t htT
      have hnX : ¬ t <:+: aflat (e.2, L) := by
        refine not_infix_aflat hst.btok L e.2 ?_ ?_
        · intro q hq
          refine hpieces q ?_ t htT
          simp only [pieces, List.map_cons, List.mem_cons] at hq ⊢
          tauto
        · intro u hu
          constructor
          · exact (htoks u (by simp [toks] at hu ⊢; tauto)).1.btok
          · simp only [List.map_cons, List.nodup_cons] at hnodup
            intro hcon
            apply hnodup.1
            rw [he]
            simp only [toks, List.mem_map] at hu
            obtain ⟨x, hx, hx2⟩ := hu
            rw [← hcon, ← hx2]
            simp only [List.mem_map]
            exact ⟨x, hx, rfl⟩
      refine ⟨?_, ?_, ?_, ?_, ?_, ?_, ?_⟩
      · rw [aflat_cons, he,
          show p ++ (t ++ aflat (e.2, L)) = p ++ t ++ aflat (e.2, L) by simp,
          replaceAll_single v p (aflat (e.2, L)) hst.btok hnp hnX]
        simp [aflat]
      · rw [arestore_cons, hval]
        simp [arestore]
      · have h8 : toks (p, e :: L) = e.1 :: toks (e.2, L) := by simp [toks]
        have h9 : toks (p ++ v ++ e.2, L) = toks (e.2, L) := by simp [toks]
        rw [h8, h9, show e.1 = (t, v) by
          rw [← he, ← hval]]
      · intro u hu
        exact htoks u (by simp [toks] at hu ⊢; tauto)
      · simp only [List.map_cons, List.nodup_cons] at hnodup
        exact hnodup.2
      · intro q hq u hu
        simp only [pieces, List.mem_cons] at hq
        rcases hq with rfl | hq
        · exact (hT u hu).not_infix_glue
            (hpieces p (by simp [pieces]) u hu)
            (hpieces e.2 (by simp [pieces]) u hu) hv
        · exact hpieces q (by simp only [pieces, List.map_cons, List.mem_cons]; tauto) u hu
      · intro u hu
        exact htT2 u (by simp [toks] at hu ⊢; tauto)
    · -- the token lies further on
      have hmem2 : (t, v) ∈ toks (e.2, L) := by
        rcases (by simpa [toks] using hmem :
            (t, v) = e.1 ∨ (t, v) ∈ L.map (fun x => x.1)) with h1 | h1
        · exact absurd (congrArg Prod.fst h1.symm) he
        · simpa [toks] using h1
      have hnodup2 : (L.map (fun e => e.1.1)).Nodup := by
        simp only [List.map_cons, List.nodup_cons] at hnodup
        exact hnodup.2
      obtain ⟨ih1, ih2, ih3, ih4, ih5, ih6, ih7⟩ := ih e.2
        (fun u hu => htoks u (by simp [toks] at hu ⊢; tauto)) hnodup2 hmem2
        (fun q hq u hu => hpieces q
          (by simp only [pieces, List.map_cons, List.mem_cons] at hq ⊢; tauto) u hu)
        (fun u hu => htT2 u (by simp [toks] at hu ⊢; tauto))
      rw [show removeTok t v p (e :: L) =
        (p, (e.1, (removeTok t v e.2 L).1) :: (removeTok t v e.2 L).2) by
        rw [removeTok, if_neg he]]
      set m2 := removeTok t v e.2 L with hm2
      have hte : SafeTok e.1.1 := (htoks e.1 (by simp [toks])).1
      have htne : t ≠ [] := hst.btok.ne_nil
      refine ⟨?_, ?_, ?_, ?_, ?_, ?_, ?_⟩
      · rw [replaceAll_eq_aux _ _ htne, aflat_cons, aflat_cons]
        obtain ⟨b, hb, -, -⟩ := hte.btok
        have hcr1 : ∀ i, i < p.length →
            t <+: ((p ++ (e.1.1 ++ aflat (e.2, L))).drop i) →
            i + t.length ≤ p.length := by
          intro i hi hp2
          rw [show e.1.1 ++ aflat (e.2, L) =
            '[' :: (b ++ [']'] ++ aflat (e.2, L)) by simp [hb]] at hp2
          exact cross_general p _
            (fun k hk hk0 => hst.btok.getElem_pos_ne hk hk0) i hi hp2
        rw [replaceAllAux_append_right v _ hcr1
          (hpieces p (by simp [pieces]) t htT)]
        have hcr2 : ∀ i, i < e.1.1.length →
            t <+: ((e.1.1 ++ aflat (e.2, L)).drop i) →
            i + t.length ≤ e.1.1.length := by
          intro i hi hp2
          have h3 : e.1.1 = ('[' :: b) ++ [']'] := by simp [hb]
          rw [h3] at hi ⊢
          rw [show e.1.1 ++ aflat (e.2, L) =
            ('[' :: b) ++ [']'] ++ aflat (e.2, L) by simp [hb]] at hp2
          exact cross_general2 ('[' :: b) _
            (fun k hk hk1 => hst.btok.getElem_lt_last_ne hk hk1) i hi hp2
        have hnt₁ : ¬ t <:+: e.1.1 := by
          intro hcon
          exact he (hst.btok.infix_btok_eq hte.btok hcon).symm
        rw [replaceAllAux_append_right v _ hcr2 hnt₁]
        rw [← replaceAll_eq_aux _ _ htne, ih1]
      · rw [arestore_cons, arestore_cons]
        rw [show arestore (m2.1, m2.2) = arestore m2 from rfl, ih2]
      · have h8 : toks (p, e :: L) = e.1 :: toks (e.2, L) := by simp [toks]
        have h9 : toks (p, (e.1, m2.1) :: m2.2) = e.1 :: toks m2 := by
          simp [toks]
        rw [h8, h9]
        exact (ih3.cons e.1).trans (List.Perm.swap _ _ _)
      · intro u hu
        simp only [toks, List.map_cons, List.mem_cons] at hu
        rcases hu with rfl | hu
        · exact htoks e.1 (by simp [toks])
        · exact ih4 u (by simpa [toks] using hu)
      · simp only [List.map_cons, List.nodup_cons]
        refine ⟨?_, ih5⟩
        intro hcon
        simp only [List.mem_map] at hcon
        obtain ⟨x, hx, hx2⟩ := hcon
        have : (x.1.1 : List Char) ∈ (toks m2).map Prod.fst := by
          simp only [toks, List.map_map, List.mem_map]
          exact ⟨x, hx, rfl⟩
        rw [hx2] at this
        -- `e.1.1` would be a key of `m2`, but keys of `m2` are keys of the
        -- tail which are nodup-distinct from `e.1.1`
        have h10 : ((t, v) :: toks m2).Sublist ((t, v) :: toks m2) := List.Sublist.refl _
        have h11 : e.1.1 ∈ (toks (e.2, L)).map Prod.fst := by
          have hperm : List.Perm ((toks (e.2, L)).map Prod.fst)
              (((t, v) :: toks m2).map Prod.fst) := ih3.map Prod.fst
          apply hperm.mem_iff.mpr
          simp only [List.map_cons, List.mem_cons]
          right
          exact this
        simp only [toks, List.map_map, List.mem_map] at h11
        obtain ⟨y, hy, hy2⟩ := h11
        simp only [List.map_cons, List.nodup_cons] at hnodup
        apply hnodup.1
        simp only [List.mem_map]
        exact ⟨y, hy, hy2⟩
      · intro q hq u hu
        simp only [pieces, List.map_cons, List.mem_cons] at hq
        rcases hq with rfl | hq
        · exact hpieces q (by simp [pieces]) u hu
        · exact ih6 q (by simp only [pieces, List.mem_cons]; tauto) u hu
      · intro u hu
        simp only [toks, List.map_cons, List.mem_cons] at hu
        rcases hu with rfl | hu
        · exact htT2 e.1 (by simp [toks])
        · exact ih7 u (by simpa [toks] using hu)

/-- Folding `replaceAll` over the recorded (token, value) pairs of a
well-formed mix restores the original string. -/
theorem unmask_fold {T : List (List Char)} (hT : ∀ u ∈ T, SafeTok u) :
    ∀ (pairs : List (List Char × List Char)) (p : List Char)
      (L : List ((List Char × List Char) × List Char)),
      (∀ e ∈ toks (p, L), SafeTok e.1 ∧ SafeVal e.2) →
      (L.map (fun e => e.1.1)).Nodup →
      List.Perm (toks (p, L)) pairs →
      (∀ q ∈ pieces (p, L), ∀ u ∈ T, ¬ u <:+: q) →
      (∀ e ∈ toks (p, L), e.1 ∈ T) →
      pairs.foldl (fun s tv => replaceAll s tv.1 tv.2) (aflat (p, L)) =
        arestore (p, L) := by
  intro pairs
  induction pairs with
  | nil =>
    intro p L _ _ hperm _ _
    have h0 : toks (p, L) = [] := hperm.eq_nil
    have hL : L = [] := by
      simpa [toks] using congrArg List.length h0
    subst hL
    rw [aflat_nil, arestore_nil]
    rfl
  | cons tv rest ih =>
    intro p L htoks hnodup hperm hpieces htT2
    have hmem : (tv.1, tv.2) ∈ toks (p, L) := by
      rw [show ((tv.1, tv.2) : List Char × List Char) = tv from rfl]
      exact hperm.mem_iff.mpr (by simp)
    have hsafe := htoks (tv.1, tv.2) hmem
    obtain ⟨r1, r2, r3, r4, r5, r6, r7⟩ :=
      removeTok_spec hT (htT2 (tv.1, tv.2) hmem) hsafe.2 L p htoks hnodup
        hmem hpieces htT2
    rw [List.foldl_cons]
    rw [show replaceAll (aflat (p, L)) tv.1 tv.2 =
      aflat (removeTok tv.1 tv.2 p L) from r1]
    have hperm2 : List.Perm (toks (removeTok tv.1 tv.2 p L)) rest := by
      have := (r3.symm.trans hperm)
      exact this.cons_inv
    have := ih (removeTok tv.1 tv.2 p L).1 (removeTok tv.1 tv.2 p L).2
      (by simpa using r4) r5 (by simpa using hperm2) (by simpa using r6)
      (by simpa using r7)
    rw [show ((removeTok tv.1 tv.2 p L).1, (removeTok tv.1 tv.2 p L).2) =
      removeTok tv.1 tv.2 p L from rfl] at this
    rw [this, r2]

/-! ### Matcher lemmas: bounds and consumed characters -/

theorem itemEnds_cls_spec {p : Char → Bool} {n s i j} (h : j ∈ itemEnds (.cls p n) s i) :
    j = i + n ∧ ((s.drop i).take n).length = n ∧ ((s.drop i).take n).all p := by
  simp only [itemEnds] at h
  split at h
  · next hc =>
    simp only [List.mem_singleton] at h
    simp only [Bool.and_eq_true, decide_eq_true_eq] at hc
    exact ⟨h, hc.1, hc.2⟩
  · simp at h

theorem itemEnds_opt_spec {p : Char → Bool} {s i j} (h : j ∈ itemEnds (.opt p) s i) :
    j = i ∨ (j = i + 1 ∧ ∃ c cs, s.drop i = c :: cs ∧ p c) := by
  rw [itemEnds] at h
  rcases hd : s.drop i with _ | ⟨c, cs⟩ <;> rw [hd] at h
  · have h2 : j ∈ [i] := h
    simp at h2
    exact Or.inl h2
  · have h2 : j ∈ (if p c = true then [i + 1, i] else [i]) := h
    by_cases hp : p c
    · rw [if_pos hp] at h2
      simp only [List.mem_cons, List.mem_singleton] at h2
      rcases h2 with rfl | h2
      · exact Or.inr ⟨rfl, c, cs, rfl, hp⟩
      · simp at h2
        exact Or.inl h2
    · rw [if_neg hp] at h2
      simp at h2
      exact Or.inl h2

theorem itemEnds_plus_spec {p : Char → Bool} {s i j} (h : j ∈ itemEnds (.plus p) s i) :
    i < j ∧ j ≤ i + runLen p s i ∧ ((s.drop i).take (j - i)).all p := by
  simp only [itemEnds, List.mem_map, List.mem_range] at h
  obtain ⟨k, hk, rfl⟩ := h
  have hb1 : i < i + runLen p s i - k := by omega
  have hb2 : i + runLen p s i - k ≤ i + runLen p s i := by omega
  refine ⟨hb1, hb2, ?_⟩
  have hlen : i + runLen p s i - k - i ≤ ((s.drop i).takeWhile p).length := by
    simp only [runLen] at hb2 ⊢
    omega
  have htw : (s.drop i).take (i + runLen p s i - k - i) =
      ((s.drop i).takeWhile p).take (i + runLen p s i - k - i) := by
    obtain ⟨w, hw⟩ := List.takeWhile_prefix (l := s.drop i) p
    conv_lhs => rw [← hw]
    rw [List.take_append_eq_append_take, Nat.sub_eq_zero_of_le hlen,
      List.take_zero, List.append_nil]
  rw [htw]
  exact List.all_eq_true.mpr fun x hx =>
    List.mem_takeWhile_imp (List.take_subset _ _ hx)

theorem itemEnds_bnd_spec {s i j} (h : j ∈ itemEnds .bnd s i) :
    j = i ∧ boundaryAt s i := by
  simp only [itemEnds] at h
  split at h
  · next hb => simp at h; exact ⟨h, hb⟩
  · simp at h

/-- Bounds of a whole alternative. -/
theorem matchItems_bounds : ∀ (items : List RItem) (s : List Char) (i : Nat),
    i ≤ s.length → ∀ j ∈ matchItems items s i, i ≤ j ∧ j ≤ s.length := by
  intro items
  induction items with
  | nil =>
    intro s i hi j hj
    simp only [matchItems, List.mem_singleton] at hj
    omega
  | cons it rest ih =>
    intro s i hi j hj
    simp only [matchItems, List.mem_flatMap] at hj
    obtain ⟨k, hk, hj⟩ := hj
    have hik : i ≤ k ∧ k ≤ s.length := by
      cases it with
      | cls p n =>
        obtain ⟨rfl, hlen, -⟩ := itemEnds_cls_spec hk
        simp only [List.length_take, List.length_drop] at hlen
        omega
      | opt p =>
        rcases itemEnds_opt_spec hk with rfl | ⟨rfl, c, cs, hd, -⟩
        · omega
        · have : 0 < (s.drop i).length := by rw [hd]; simp
          simp only [List.length_drop] at this
          omega
      | plus p =>
        obtain ⟨h1, h2, -⟩ := itemEnds_plus_spec hk
        have : runLen p s i ≤ s.length - i := by
          simp only [runLen]
          have h4 : ((s.drop i).takeWhile p).length ≤ (s.drop i).length :=
            (List.takeWhile_prefix p).length_le
          simpa using h4
        omega
      | bnd =>
        obtain ⟨rfl, -⟩ := itemEnds_bnd_spec hk
        omega
    obtain ⟨h5, h6⟩ := ih s k hik.2 j hj
    exact ⟨le_trans hik.1 h5, h6⟩

/-- Decomposing a successful `matchAt` into an alternative. -/
theorem matchAt_exists_alt {pat : Pat} {s : List Char} {i j : Nat}
    (h : matchAt pat s i = some j) :
    ∃ alt ∈ pat, j ∈ matchItems alt s i := by
  induction pat with
  | nil => simp [matchAt] at h
  | cons alt rest ih =>
    rw [matchAt] at h
    rcases hm : matchItems alt s i with _ | ⟨j0, js⟩
    · rw [hm] at h
      obtain ⟨a, ha, hj⟩ := ih h
      exact ⟨a, by simp [ha], hj⟩
    · rw [hm] at h
      refine ⟨alt, by simp, ?_⟩
      rw [hm]
      simp only [Option.some_inj] at h
      simp [h]

theorem matchAt_bounds {pat : Pat} {s : List Char} {i j : Nat}
    (hi : i ≤ s.length) (h : matchAt pat s i = some j) :
    i ≤ j ∧ j ≤ s.length := by
  obtain ⟨alt, -, hj⟩ := matchAt_exists_alt h
  exact matchItems_bounds alt s i hi j hj

/-! ### Slice lemmas -/

theorem slice_length {s : List Char} {i j : Nat} (hij : i ≤ j)
    (hj : j ≤ s.length) : (slice s i j).length = j - i := by
  simp only [slice, List.length_take, List.length_drop]
  omega

theorem slice_ne_nil {s : List Char} {i j : Nat} (hij : i < j)
    (hj : j ≤ s.length) : slice s i j ≠ [] := by
  apply List.length_pos.mp
  rw [slice_length (by omega) hj]
  omega

theorem slice_split {s : List Char} {i k j : Nat} (h1 : i ≤ k) (h2 : k ≤ j) :
    slice s i j = slice s i k ++ slice s k j := by
  simp only [slice]
  have hj : j - i = (k - i) + (j - k) := by omega
  rw [hj, List.take_add]
  congr 2
  rw [List.drop_drop]
  congr 1
  omega

theorem slice_cls {s : List Char} {i : Nat} (n : Nat) :
    slice s i (i + n) = (s.drop i).take n := by
  simp [slice]

/-! ### Character-class facts -/

theorem isDigitC_ne_br {c : Char} (h : isDigitC c = true) : c ≠ '[' ∧ c ≠ ']' := by
  constructor <;> rintro rfl <;> exact absurd h (by decide)

theorem isWordC_ne_br {c : Char} (h : isWordC c = true) : c ≠ '[' ∧ c ≠ ']' := by
  constructor <;> rintro rfl <;> exact absurd h (by decide)

theorem isEmailC_ne_br {c : Char} (h : isEmailC c = true) : c ≠ '[' ∧ c ≠ ']' := by
  constructor <;> rintro rfl <;> exact absurd h (by decide)

theorem isPhoneSep_ne_br {c : Char} (h : isPhoneSep c = true) : c ≠ '[' ∧ c ≠ ']' := by
  constructor <;> rintro rfl <;> exact absurd h (by decide)

theorem isCardSep_phoneSep {c : Char} (h : isCardSep c = true) : isPhoneSep c = true := by
  simp only [isCardSep, Bool.or_eq_true] at h
  simp only [isPhoneSep, Bool.or_eq_true]
  tauto

/-! ### Item slices -/

theorem clsSlice {s : List Char} {k j : Nat} {p : Char → Bool} {n : Nat}
    (h : j ∈ itemEnds (.cls p n) s k) :
    j = k + n ∧ (slice s k j).length = n ∧ (slice s k j).all p := by
  obtain ⟨rfl, hlen, hall⟩ := itemEnds_cls_spec h
  have hsl : slice s k (k + n) = (s.drop k).take n := slice_cls n
  rw [hsl]
  exact ⟨rfl, hlen, hall⟩

theorem optSlice {s : List Char} {k j : Nat} {p : Char → Bool}
    (h : j ∈ itemEnds (.opt p) s k) :
    j = k ∨ (j = k + 1 ∧ ∃ c, slice s k j = [c] ∧ p c) := by
  rcases itemEnds_opt_spec h with rfl | ⟨rfl, c, cs, hd, hp⟩
  · exact Or.inl rfl
  · refine Or.inr ⟨rfl, c, ?_, hp⟩
    simp only [slice, hd]
    simp

theorem plusSlice {s : List Char} {k j : Nat} {p : Char → Bool}
    (h : j ∈ itemEnds (.plus p) s k) :
    k < j ∧ (slice s k j).all p := by
  obtain ⟨h1, -, h3⟩ := itemEnds_plus_spec h
  exact ⟨h1, h3⟩

/-! ### Per-pattern value properties -/

/-- A successful phone match consumes a nonempty safe value. -/
theorem phone_props {s : List Char} {i j : Nat} (hi : i ≤ s.length)
    (h : matchAt phonePat s i = some j) : i < j ∧ SafeVal (slice s i j) := by
  have hj := matchAt_bounds hi h
  obtain ⟨alt, halt, hm⟩ := matchAt_exists_alt h
  simp only [phonePat, List.mem_cons, List.not_mem_nil, or_false] at halt
  rcases halt with rfl | rfl
  · -- `\b\d{10}\b`
    simp only [matchItems, List.mem_flatMap, List.mem_singleton] at hm
    obtain ⟨k1, hk1, k2, hk2, k3, hk3, rfl⟩ := hm
    obtain ⟨rfl, -⟩ := itemEnds_bnd_spec hk1
    obtain ⟨rfl, hlen, hall⟩ := clsSlice hk2
    obtain ⟨rfl, -⟩ := itemEnds_bnd_spec hk3
    refine ⟨by omega, ?_, ?_, Or.inr ⟨hall, le_of_eq hlen.symm⟩⟩
    · exact fun c hc => isDigitC_ne_br (List.all_eq_true.mp hall c hc)
    · exact List.length_pos.mp (by rw [hlen]; omega)
  · -- `\b\d{3}[-.\s]?\d{3}[-.\s]?\d{4}\b`
    simp only [matchItems, List.mem_flatMap, List.mem_singleton] at hm
    obtain ⟨k1, hk1, k2, hk2, k3, hk3, k4, hk4, k5, hk5, k6, hk6, k7, hk7, rfl⟩ := hm
    obtain ⟨rfl, -⟩ := itemEnds_bnd_spec hk1
    obtain ⟨rfl, hlen2, hall2⟩ := clsSlice hk2
    obtain ⟨rfl, hlen4, hall4⟩ := clsSlice hk4
    obtain ⟨rfl, hlen6, hall6⟩ := clsSlice hk6
    obtain ⟨rfl, -⟩ := itemEnds_bnd_spec hk7
    have hk3b := optSlice hk3
    have hk5b := optSlice hk5
    have hle3 : k1 + 3 ≤ k3 ∧ k3 ≤ k1 + 4 := by
      rcases hk3b with rfl | ⟨rfl, -⟩ <;> omega
    have hle5 : k3 + 3 ≤ k5 ∧ k5 ≤ k3 + 4 := by
      rcases hk5b with rfl | ⟨rfl, -⟩ <;> omega
    have hij : k1 < k5 + 4 := by omega
    have hsp : slice s k1 (k5 + 4) =
        slice s k1 (k1 + 3) ++ slice s (k1 + 3) k3 ++ slice s k3 (k3 + 3) ++
          slice s (k3 + 3) k5 ++ slice s k5 (k5 + 4) := by
      rw [← slice_split (by omega) (by omega), ← slice_split (by omega) (by omega),
        ← slice_split (by omega) (by omega), ← slice_split (by omega) (by omega)]
    have hmid3 : (slice s (k1 + 3) k3 = []) ∨
        (∃ c, slice s (k1 + 3) k3 = [c] ∧ isPhoneSep c) := by
      rcases hk3b with rfl | ⟨rfl, c, hc, hp⟩
      · exact Or.inl (by simp [slice])
      · exact Or.inr ⟨c, hc, hp⟩
    have hmid5 : (slice s (k3 + 3) k5 = []) ∨
        (∃ c, slice s (k3 + 3) k5 = [c] ∧ isPhoneSep c) := by
      rcases hk5b with rfl | ⟨rfl, c, hc, hp⟩
      · exact Or.inl (by simp [slice])
      · exact Or.inr ⟨c, hc, hp⟩
    refine ⟨hij, ?_, ?_, ?_⟩
    · -- bracket-free
      intro c hc
      rw [hsp] at hc
      simp only [List.mem_append] at hc
      rcases hc with ((((hc | hc) | hc) | hc) | hc)
      · exact isDigitC_ne_br (List.all_eq_true.mp hall2 c hc)
      · rcases hmid3 with he | ⟨c2, he, hp⟩ <;> rw [he] at hc
        · simp at hc
        · simp only [List.mem_singleton] at hc
          exact hc ▸ isPhoneSep_ne_br hp
      · exact isDigitC_ne_br (List.all_eq_true.mp hall4 c hc)
      · rcases hmid5 with he | ⟨c2, he, hp⟩ <;> rw [he] at hc
        · simp at hc
        · simp only [List.mem_singleton] at hc
          exact hc ▸ isPhoneSep_ne_br hp
      · exact isDigitC_ne_br (List.all_eq_true.mp hall6 c hc)
    · -- nonempty
      apply List.length_pos.mp
      rw [slice_length (by omega) (by omega)]
      omega
    · -- separator present, or all digits of length ≥ 10
      rcases hmid3 with he3 | ⟨c, he3, hp⟩
      · rcases hmid5 with he5 | ⟨c, he5, hp⟩
        · refine Or.inr ⟨?_, ?_⟩
          · rw [hsp, he3, he5]
            simp only [List.append_nil, List.all_append, Bool.and_eq_true]
            exact ⟨⟨hall2, hall4⟩, hall6⟩
          · have h33 : k3 = k1 + 3 := by
              have := congrArg List.length he3
              rw [slice_length (by omega) (by omega)] at this
              simp at this
              omega
            have h55 : k5 = k3 + 3 := by
              have := congrArg List.length he5
              rw [slice_length (by omega) (by omega)] at this
              simp at this
              omega
            rw [slice_length (by omega) (by omega)]
            omega
        · refine Or.inl ⟨c, ?_, Or.inl hp⟩
          rw [hsp, he5]
          simp
      · refine Or.inl ⟨c, ?_, Or.inl hp⟩
        rw [hsp, he3]
        simp

/-- A successful SSN match consumes a nonempty safe value. -/
theorem ssn_props {s : List Char} {i j : Nat} (hi : i ≤ s.length)
    (h : matchAt ssnPat s i = some j) : i < j ∧ SafeVal (slice s i j) := by
  have hj := matchAt_bounds hi h
  obtain ⟨alt, halt, hm⟩ := matchAt_exists_alt h
  simp only [ssnPat, List.mem_cons, List.not_mem_nil, or_false] at halt
  subst halt
  simp only [matchItems, List.mem_flatMap, List.mem_singleton] at hm
  obtain ⟨k1, hk1, k2, hk2, k3, hk3, k4, hk4, k5, hk5, k6, hk6, k7, hk7, rfl⟩ := hm
  obtain ⟨rfl, -⟩ := itemEnds_bnd_spec hk1
  obtain ⟨rfl, hlen2, hall2⟩ := clsSlice hk2
  obtain ⟨rfl, hlen3, hall3⟩ := clsSlice hk3
  obtain ⟨rfl, hlen4, hall4⟩ := clsSlice hk4
  obtain ⟨rfl, hlen5, hall5⟩ := clsSlice hk5
  obtain ⟨rfl, hlen6, hall6⟩ := clsSlice hk6
  obtain ⟨rfl, -⟩ := itemEnds_bnd_spec hk7
  obtain ⟨c3, hc3⟩ := List.length_eq_one.mp hlen3
  have hc3d : c3 = '-' := by
    have := List.all_eq_true.mp hall3 c3 (by simp [hc3])
    simpa using this
  have hsp : slice s k1 (k1 + 3 + 1 + 2 + 1 + 4) =
      slice s k1 (k1 + 3) ++ slice s (k1 + 3) (k1 + 3 + 1) ++
        slice s (k1 + 3 + 1) (k1 + 3 + 1 + 2) ++
        slice s (k1 + 3 + 1 + 2) (k1 + 3 + 1 + 2 + 1) ++
        slice s (k1 + 3 + 1 + 2 + 1) (k1 + 3 + 1 + 2 + 1 + 4) := by
    rw [← slice_split (by omega) (by omega), ← slice_split (by omega) (by omega),
      ← slice_split (by omega) (by omega), ← slice_split (by omega) (by omega)]
  obtain ⟨c5, hc5⟩ := List.length_eq_one.mp hlen5
  have hc5d : c5 = '-' := by
    have := List.all_eq_true.mp hall5 c5 (by simp [hc5])
    simpa using this
  refine ⟨by omega, ?_, ?_, Or.inl ⟨'-', ?_, Or.inl (by decide)⟩⟩
  · intro c hc
    rw [hsp] at hc
    simp only [List.mem_append] at hc
    rcases hc with ((((hc | hc) | hc) | hc) | hc)
    · exact isDigitC_ne_br (List.all_eq_true.mp hall2 c hc)
    · rw [hc3, hc3d] at hc
      simp only [List.mem_singleton] at hc
      subst hc
      exact ⟨by decide, by decide⟩
    · exact isDigitC_ne_br (List.all_eq_true.mp hall4 c hc)
    · rw [hc5, hc5d] at hc
      simp only [List.mem_singleton] at hc
      subst hc
      exact ⟨by decide, by decide⟩
    · exact isDigitC_ne_br (List.all_eq_true.mp hall6 c hc)
  · exact List.length_pos.mp (by rw [slice_length (by omega) (by omega)]; omega)
  · rw [hsp]
    simp only [List.mem_append]
    left; left; left; right
    rw [hc3, hc3d]
    simp

/-- A successful credit-card match consumes a nonempty safe value. -/
theorem card_props {s : List Char} {i j : Nat} (hi : i ≤ s.length)
    (h : matchAt cardPat s i = some j) : i < j ∧ SafeVal (slice s i j) := by
  have hj := matchAt_bounds hi h
  obtain ⟨alt, halt, hm⟩ := matchAt_exists_alt h
  simp only [cardPat, List.mem_cons, List.not_mem_nil, or_false] at halt
  subst halt
  simp only [matchItems, List.mem_flatMap, List.mem_singleton] at hm
  obtain ⟨k1, hk1, k2, hk2, k3, hk3, k4, hk4, k5, hk5, k6, hk6, k7, hk7, k8, hk8,
    k9, hk9, rfl⟩ := hm
  obtain ⟨rfl, -⟩ := itemEnds_bnd_spec hk1
  obtain ⟨rfl, hlen2, hall2⟩ := clsSlice hk2
  have hk3b := optSlice hk3
  obtain ⟨rfl, hlen4, hall4⟩ := clsSlice hk4
  have hk5b := optSlice hk5
  obtain ⟨rfl, hlen6, hall6⟩ := clsSlice hk6
  have hk7b := optSlice hk7
  obtain ⟨rfl, hlen8, hall8⟩ := clsSlice hk8
  obtain ⟨rfl, -⟩ := itemEnds_bnd_spec hk9
  have hle3 : k1 + 4 ≤ k3 ∧ k3 ≤ k1 + 5 := by
    rcases hk3b with rfl | ⟨rfl, -⟩ <;> omega
  have hle5 : k3 + 4 ≤ k5 ∧ k5 ≤ k3 + 5 := by
    rcases hk5b with rfl | ⟨rfl, -⟩ <;> omega
  have hle7 : k5 + 4 ≤ k7 ∧ k7 ≤ k5 + 5 := by
    rcases hk7b with rfl | ⟨rfl, -⟩ <;> omega
  have hsp : slice s k1 (k7 + 4) =
      slice s k1 (k1 + 4) ++ slice s (k1 + 4) k3 ++ slice s k3 (k3 + 4) ++
        slice s (k3 + 4) k5 ++ slice s k5 (k5 + 4) ++ slice s (k5 + 4) k7 ++
        slice s k7 (k7 + 4) := by
    rw [← slice_split (by omega) (by omega), ← slice_split (by omega) (by omega),
      ← slice_split (by omega) (by omega), ← slice_split (by omega) (by omega),
      ← slice_split (by omega) (by omega), ← slice_split (by omega) (by omega)]
  have hmid3 : (slice s (k1 + 4) k3 = []) ∨
      (∃ c, slice s (k1 + 4) k3 = [c] ∧ isCardSep c) := by
    rcases hk3b with rfl | ⟨rfl, c, hc, hp⟩
    · exact Or.inl (by simp [slice])
    · exact Or.inr ⟨c, hc, hp⟩
  have hmid5 : (slice s (k3 + 4) k5 = []) ∨
      (∃ c, slice s (k3 + 4) k5 = [c] ∧ isCardSep c) := by
    rcases hk5b with rfl | ⟨rfl, c, hc, hp⟩
    · exact Or.inl (by simp [slice])
    · exact Or.inr ⟨c, hc, hp⟩
  have hmid7 : (slice s (k5 + 4) k7 = []) ∨
      (∃ c, slice s (k5 + 4) k7 = [c] ∧ isCardSep c) := by
    rcases hk7b with rfl | ⟨rfl, c, hc, hp⟩
    · exact Or.inl (by simp [slice])
    · exact Or.inr ⟨c, hc, hp⟩
  refine ⟨by omega, ?_, ?_, ?_⟩
  · intro c hc
    rw [hsp] at hc
    simp only [List.mem_append] at hc
    rcases hc with ((((((hc | hc) | hc) | hc) | hc) | hc) | hc)
    · exact isDigitC_ne_br (List.all_eq_true.mp hall2 c hc)
    · rcases hmid3 with he | ⟨c2, he, hp⟩ <;> rw [he] at hc
      · simp at hc
      · simp only [List.mem_singleton] at hc
        exact hc ▸ isPhoneSep_ne_br (isCardSep_phoneSep hp)
    · exact isDigitC_ne_br (List.all_eq_true.mp hall4 c hc)
    · rcases hmid5 with he | ⟨c2, he, hp⟩ <;> rw [he] at hc
      · simp at hc
      · simp only [List.mem_singleton] at hc
        exact hc ▸ isPhoneSep_ne_br (isCardSep_phoneSep hp)
    · exact isDigitC_ne_br (List.all_eq_true.mp hall6 c hc)
    · rcases hmid7 with he | ⟨c2, he, hp⟩ <;> rw [he] at hc
      · simp at hc
      · simp only [List.mem_singleton] at hc
        exact hc ▸ isPhoneSep_ne_br (isCardSep_phoneSep hp)
    · exact isDigitC_ne_br (List.all_eq_true.mp hall8 c hc)
  · exact List.length_pos.mp (by rw [slice_length (by omega) (by omega)]; omega)
  · rcases hmid3 with he3 | ⟨c, he3, hp⟩
    · rcases hmid5 with he5 | ⟨c, he5, hp⟩
      · rcases hmid7 with he7 | ⟨c, he7, hp⟩
        · refine Or.inr ⟨?_, ?_⟩
          · rw [hsp, he3, he5, he7]
            simp only [List.append_nil, List.all_append, Bool.and_eq_true]
            exact ⟨⟨⟨hall2, hall4⟩, hall6⟩, hall8⟩
          · rw [slice_length (by omega) (by omega)]
            have h33 : k3 = k1 + 4 := by
              have := congrArg List.length he3
              rw [slice_length (by omega) (by omega)] at this
              simp at this
              omega
            have h55 : k5 = k3 + 4 := by
              have := congrArg List.length he5
              rw [slice_length (by omega) (by omega)] at this
              simp at this
              omega
            have h77 : k7 = k5 + 4 := by
              have := congrArg List.length he7
              rw [slice_length (by omega) (by omega)] at this
              simp at this
              omega
            omega
        · refine Or.inl ⟨c, ?_, Or.inl (isCardSep_phoneSep hp)⟩
          rw [hsp, he7]
          simp
      · refine Or.inl ⟨c, ?_, Or.inl (isCardSep_phoneSep hp)⟩
        rw [hsp, he5]
        simp
    · refine Or.inl ⟨c, ?_, Or.inl (isCardSep_phoneSep hp)⟩
      rw [hsp, he3]
      simp

/-- A successful email match consumes a nonempty safe value. -/
theorem email_props {s : List Char} {i j : Nat} (hi : i ≤ s.length)
    (h : matchAt emailPat s i = some j) : i < j ∧ SafeVal (slice s i j) := by
  have hj := matchAt_bounds hi h
  obtain ⟨alt, halt, hm⟩ := matchAt_exists_alt h
  simp only [emailPat, List.mem_cons, List.not_mem_nil, or_false] at halt
  subst halt
  simp only [matchItems, List.mem_flatMap, List.mem_singleton] at hm
  obtain ⟨k1, hk1, k2, hk2, k3, hk3, k4, hk4, k5, hk5, k6, hk6, k7, hk7, rfl⟩ := hm
  obtain ⟨rfl, -⟩ := itemEnds_bnd_spec hk1
  obtain ⟨h2lt, hall2⟩ := plusSlice hk2
  obtain ⟨rfl, hlen3, hall3⟩ := clsSlice hk3
  obtain ⟨h4lt, hall4⟩ := plusSlice hk4
  obtain ⟨rfl, hlen5, hall5⟩ := clsSlice hk5
  obtain ⟨h6lt, hall6⟩ := plusSlice hk6
  obtain ⟨rfl, -⟩ := itemEnds_bnd_spec hk7
  obtain ⟨c3, hc3⟩ := List.length_eq_one.mp hlen3
  have hc3a : c3 = '@' := by
    have := List.all_eq_true.mp hall3 c3 (by simp [hc3])
    simpa using this
  obtain ⟨c5, hc5⟩ := List.length_eq_one.mp hlen5
  have hc5a : c5 = '.' := by
    have := List.all_eq_true.mp hall5 c5 (by simp [hc5])
    simpa using this
  have hsp : slice s k1 j =
      slice s k1 k2 ++ slice s k2 (k2 + 1) ++ slice s (k2 + 1) k4 ++
        slice s k4 (k4 + 1) ++ slice s (k4 + 1) j := by
    rw [← slice_split (by omega) (by omega), ← slice_split (by omega) (by omega),
      ← slice_split (by omega) (by omega), ← slice_split (by omega) (by omega)]
  refine ⟨by omega, ?_, ?_, Or.inl ⟨'@', ?_, Or.inr rfl⟩⟩
  · intro c hc
    rw [hsp] at hc
    simp only [List.mem_append] at hc
    rcases hc with ((((hc | hc) | hc) | hc) | hc)
    · exact isEmailC_ne_br (List.all_eq_true.mp hall2 c hc)
    · rw [hc3, hc3a] at hc
      simp only [List.mem_singleton] at hc
      subst hc
      exact ⟨by decide, by decide⟩
    · exact isEmailC_ne_br (List.all_eq_true.mp hall4 c hc)
    · rw [hc5, hc5a] at hc
      simp only [List.mem_singleton] at hc
      subst hc
      exact ⟨by decide, by decide⟩
    · exact isWordC_ne_br (List.all_eq_true.mp hall6 c hc)
  · exact List.length_pos.mp (by rw [slice_length (by omega) (by omega)]; omega)
  · rw [hsp]
    simp only [List.mem_append]
    left; left; left; right
    rw [hc3, hc3a]
    simp

theorem interleave_cons_char (c : Char) (g : List Char) (gs vs : List (List Char)) :
    interleave ((c :: g) :: gs) vs = c :: interleave (g :: gs) vs := by
  cases vs <;> simp [interleave]

/-- Out-of-range scans return nothing. -/
theorem findScan_out {pat : Pat} {s : List Char} {fuel i : Nat}
    (h : s.length < i) : findScan pat s fuel i = [] := by
  cases fuel with
  | zero => rfl
  | succ fuel => rw [findScan, if_pos (by omega)]

/-- `drop i` splits at a match end. -/
theorem drop_eq_slice_append {s : List Char} {i j : Nat} (h1 : i ≤ j)
    (h2 : j ≤ s.length) : s.drop i = slice s i j ++ s.drop j := by
  rw [slice]
  conv_lhs => rw [← List.take_append_drop (j - i) (s.drop i)]
  congr 1
  rw [List.drop_drop]
  congr 1
  omega

/-- Decomposition of the subject along the scanner's matches, with the
per-value properties delivered by the pattern lemma. -/
theorem findScan_spec {pat : Pat}
    (HP : ∀ (s : List Char) (i j : Nat), i ≤ s.length →
      matchAt pat s i = some j → i < j ∧ SafeVal (slice s i j))
    (s : List Char) :
    ∀ (fuel i : Nat), i ≤ s.length → s.length + 1 - i ≤ fuel →
      ∃ gaps, gaps.length = (findScan pat s fuel i).length + 1 ∧
        s.drop i = interleave gaps (findScan pat s fuel i) ∧
        ∀ v ∈ findScan pat s fuel i, SafeVal v := by
  intro fuel
  induction fuel with
  | zero =>
    intro i hi hfuel
    omega
  | succ fuel ih =>
    intro i hi hfuel
    rcases hm : matchAt pat s i with _ | j
    · -- no match at `i`
      have hfs : findScan pat s (fuel + 1) i = findScan pat s fuel (i + 1) := by
        rw [findScan, if_neg (by omega), hm]
      rw [hfs]
      rcases Nat.lt_or_ge i s.length with hlt | hge
      · obtain ⟨gaps, hg1, hg2, hg3⟩ := ih (i + 1) (by omega) (by omega)
        rcases gaps with _ | ⟨g, gs⟩
        · simp at hg1
        · refine ⟨(s[i] :: g) :: gs, by simpa using hg1, ?_, hg3⟩
          rw [List.drop_eq_getElem_cons hlt, interleave_cons_char, ← hg2]
      · have hieq : i = s.length := by omega
        rw [findScan_out (by omega)]
        refine ⟨[[]], by simp, ?_, by simp⟩
        rw [hieq]
        simp [interleave]
    · -- match from `i` to `j`
      obtain ⟨hij, hsv⟩ := HP s i j hi hm
      have hjb := matchAt_bounds hi hm
      have hfs : findScan pat s (fuel + 1) i =
          slice s i j :: findScan pat s fuel j := by
        rw [findScan, if_neg (by omega), hm]
        show slice s i j :: findScan pat s fuel (if j ≤ i then i + 1 else j) = _
        rw [if_neg (by omega)]
      rw [hfs]
      obtain ⟨gaps, hg1, hg2, hg3⟩ := ih j (by omega) (by omega)
      refine ⟨[] :: gaps, by simpa using hg1, ?_, ?_⟩
      · rw [show List.drop i s = slice s i j ++ List.drop j s from
          drop_eq_slice_append (by omega) (by omega), hg2]
        rcases gaps with _ | ⟨g, gs⟩
        · simp at hg1
        · simp [interleave]
      · intro v hv
        rcases List.mem_cons.mp hv with rfl | hv
        · exact hsv
        · exact hg3 v hv

/-- Top-level `findall` decomposition. -/
theorem findall_spec {pat : Pat}
    (HP : ∀ (s : List Char) (i j : Nat), i ≤ s.length →
      matchAt pat s i = some j → i < j ∧ SafeVal (slice s i j))
    (s : List Char) :
    ∃ gaps, gaps.length = (findall pat s).length + 1 ∧
      s = interleave gaps (findall pat s) ∧
      ∀ v ∈ findall pat s, SafeVal v := by
  obtain ⟨gaps, h1, h2, h3⟩ := findScan_spec HP s (s.length + 1) 0
    (by omega) (by omega)
  exact ⟨gaps, h1, by simpa using h2, h3⟩

/-! ### Decimal digits and token structure -/

theorem digitChar_isDigit {n : Nat} (h : n < 10) : isDigitC (digitChar n) := by
  interval_cases n <;> decide

theorem digitChar_toNat {n : Nat} (h : n < 10) : (digitChar n).toNat = 48 + n := by
  interval_cases n <;> decide

theorem natDigits_ne_nil (n : Nat) : natDigits n ≠ [] := by
  rw [natDigits_eq]
  split <;> simp

theorem natDigits_all_digit (n : Nat) : (natDigits n).all isDigitC := by
  induction n using Nat.strong_induction_on with
  | _ n ih =>
    rw [natDigits_eq]
    split
    · next h => simpa using digitChar_isDigit h
    · next h =>
      simp only [List.all_append, Bool.and_eq_true]
      constructor
      · exact ih (n / 10) (Nat.div_lt_self (by omega) (by omega))
      · simpa using digitChar_isDigit (Nat.mod_lt _ (by omega))

theorem digitsVal_append (l : List Char) (c : Char) :
    digitsVal (l ++ [c]) = 10 * digitsVal l + (c.toNat - 48) := by
  simp [digitsVal, List.foldl_append]

theorem digitsVal_natDigits (n : Nat) : digitsVal (natDigits n) = n := by
  induction n using Nat.strong_induction_on with
  | _ n ih =>
    rw [natDigits_eq]
    split
    · next h =>
      simp [digitsVal, digitChar_toNat h]
    · next h =>
      rw [digitsVal_append, ih (n / 10) (Nat.div_lt_self (by omega) (by omega)),
        digitChar_toNat (Nat.mod_lt _ (by omega))]
      omega

theorem natDigits_inj {a b : Nat} (h : natDigits a = natDigits b) : a = b := by
  have := congrArg digitsVal h
  rwa [digitsVal_natDigits, digitsVal_natDigits] at this

theorem natDigits_length_le {k n : Nat} (hk : 1 ≤ k) (h : n < 10 ^ k) :
    (natDigits n).length ≤ k := by
  induction k generalizing n with
  | zero => omega
  | succ k ih =>
    rw [natDigits_eq]
    split
    · next h2 => simp
    · next h2 =>
      have hk1 : 1 ≤ k := by
        rcases Nat.eq_zero_or_pos k with rfl | hpos
        · simp at h
          omega
        · omega
      have hdiv : n / 10 < 10 ^ k := by
        rw [pow_succ] at h
        omega
      have := ih hk1 hdiv
      simp only [List.length_append, List.length_singleton]
      omega

theorem tokenOf_eq_bracket (name : List Char) (n : Nat) :
    tokenOf name n = '[' :: tokenBody name n ++ [']'] := by
  simp [tokenOf, typePfx, tokenBody]

theorem tokenOf_btok (name : List Char) (n : Nat)
    (hbr : ∀ c ∈ pyUpper name, c ≠ '[' ∧ c ≠ ']') : BTok (tokenOf name n) := by
  refine ⟨tokenBody name n, tokenOf_eq_bracket name n, ?_, by simp [tokenBody]⟩
  intro c hc
  simp only [tokenBody, List.mem_append, List.mem_cons] at hc
  rcases hc with hc | rfl | hc
  · exact hbr c hc
  · exact ⟨by decide, by decide⟩
  · exact isDigitC_ne_br (List.all_eq_true.mp (natDigits_all_digit n) c hc)

theorem tokenOf_inj_num {name : List Char} {a b : Nat}
    (h : tokenOf name a = tokenOf name b) : a = b := by
  simp only [tokenOf, List.append_assoc] at h
  have h2 := List.append_cancel_left h
  have h3 := List.append_inj_left' h2 rfl
  exact natDigits_inj h3

/-- Any infix arises as a slice. -/
theorem infix_eq_slice {w t : List Char} (h : w <:+: t) :
    ∃ i j, i ≤ j ∧ j ≤ t.length ∧ w = slice t i j := by
  obtain ⟨l, r, rfl⟩ := h
  refine ⟨l.length, l.length + w.length, by omega, by simp, ?_⟩
  simp only [slice]
  rw [show l ++ w ++ r = l ++ (w ++ r) by simp, List.drop_left' rfl]
  simp only [Nat.add_sub_cancel_left]
  rw [List.take_left' rfl]

/-- A digit is a word character. -/
theorem isWordC_of_digit {c : Char} (h : isDigitC c = true) : isWordC c = true := by
  simp only [isWordC, Bool.or_eq_true]
  left; right
  simpa [isDigitC] using h

/-- A standalone string of exactly 10 digits fully matches the phone
pattern. -/
theorem phone_fullmatch_digits {w : List Char} (hall : w.all isDigitC)
    (hlen : w.length = 10) : matchAt phonePat w 0 = some 10 := by
  obtain ⟨c, cs, rfl⟩ : ∃ c cs, w = c :: cs := by
    rcases w with _ | ⟨c, cs⟩
    · simp at hlen
    · exact ⟨c, cs, rfl⟩
  have hb0 : boundaryAt (c :: cs) 0 = true := by
    simp only [boundaryAt, if_pos rfl, wordAt, List.drop_zero]
    rw [isWordC_of_digit (by simpa using List.all_eq_true.mp hall c (by simp))]
    rfl
  have hb10 : boundaryAt (c :: cs) 10 = true := by
    simp only [boundaryAt, if_neg (by omega : ¬ (10 : Nat) = 0)]
    have h1 : wordAt (c :: cs) 10 = false := by
      simp only [wordAt]
      rw [List.drop_eq_nil_of_le (le_of_eq hlen)]
    have h2 : wordAt (c :: cs) 9 = true := by
      simp only [wordAt]
      rcases hd : (c :: cs).drop 9 with _ | ⟨c2, cs2⟩
      · exfalso
        have := congrArg List.length hd
        rw [List.length_drop, hlen] at this
        simp at this
      · have hc2 : c2 ∈ c :: cs := by
          have : c2 ∈ (c :: cs).drop 9 := by rw [hd]; simp
          exact List.mem_of_mem_drop this
        exact isWordC_of_digit (by simpa using List.all_eq_true.mp hall c2 hc2)
    rw [h1, h2]
    rfl
  have hseg : ((c :: cs).drop 0).take 10 = c :: cs := by
    rw [List.drop_zero]
    exact List.take_of_length_le (le_of_eq hlen)
  have hbnd0 : itemEnds .bnd (c :: cs) 0 = [0] := by simp [itemEnds, hb0]
  have hbnd10 : itemEnds .bnd (c :: cs) 10 = [10] := by simp [itemEnds, hb10]
  have hcls : itemEnds (.cls isDigitC 10) (c :: cs) 0 = [0 + 10] := by
    simp only [itemEnds, hseg]
    rw [if_pos]
    rw [Bool.and_eq_true, decide_eq_true_eq]
    exact ⟨hlen, hall⟩
  have hmi : matchItems [RItem.bnd, RItem.cls isDigitC 10, RItem.bnd]
      (c :: cs) 0 = [10] := by
    rw [matchItems, hbnd0]
    simp only [List.flatMap_cons, List.flatMap_nil, List.append_nil]
    rw [matchItems, hcls]
    simp only [List.flatMap_cons, List.flatMap_nil, List.append_nil]
    rw [matchItems, hbnd10]
    simp only [List.flatMap_cons, List.flatMap_nil, List.append_nil]
    rw [matchItems]
  rw [show phonePat = [[RItem.bnd, RItem.cls isDigitC 10, RItem.bnd],
    [RItem.bnd, RItem.cls isDigitC 3, RItem.opt isPhoneSep, RItem.cls isDigitC 3,
      RItem.opt isPhoneSep, RItem.cls isDigitC 4, RItem.bnd]] from rfl,
    matchAt, hmi]

/-- A digit is not a phone separator. -/
theorem isDigitC_not_phoneSep {c : Char} (h : isDigitC c = true) :
    ¬ isPhoneSep c = true := by
  intro hp
  simp only [isPhoneSep, isSpaceC, Bool.or_eq_true, decide_eq_true_eq] at hp
  rcases hp with (rfl | rfl) | ((((rfl | rfl) | rfl) | rfl) | rfl) | rfl <;>
    exact absurd h (by decide)

/-- A digit is not `'@'`. -/
theorem isDigitC_ne_at {c : Char} (h : isDigitC c = true) : c ≠ '@' := by
  rintro rfl
  exact absurd h (by decide)

theorem catNames_eq : catNames = PII_PATTERNS.map Prod.fst := by decide

/-- The uppercased category names contain no bracket, separator or `'@'`. -/
theorem catName_chars_ok :
    ∀ name ∈ catNames, ∀ c ∈ pyUpper name,
      c ≠ '[' ∧ c ≠ ']' ∧ ¬ isPhoneSep c = true ∧ c ≠ '@' := by
  decide

/-- A generated token none of whose substrings fully matches a category
pattern standalone is a safe token: its 10-digit-run freedom follows from
`tokenMatchFree` via the phone pattern. -/
theorem safeTok_of_tokenMatchFree {name : List Char} {n : Nat}
    (hchars : ∀ c ∈ pyUpper name,
      c ≠ '[' ∧ c ≠ ']' ∧ ¬ isPhoneSep c = true ∧ c ≠ '@')
    (htmf : tokenMatchFree (tokenOf name n)) : SafeTok (tokenOf name n) := by
  refine ⟨tokenBody name n, tokenOf_eq_bracket name n, by simp [tokenBody], ?_, ?_⟩
  · intro c hc
    simp only [tokenBody, List.mem_append, List.mem_cons] at hc
    rcases hc with hc | rfl | hc
    · exact hchars c hc
    · exact ⟨by decide, by decide, by decide, by decide⟩
    · have hd := List.all_eq_true.mp (natDigits_all_digit n) c hc
      exact ⟨(isDigitC_ne_br hd).1, (isDigitC_ne_br hd).2,
        isDigitC_not_phoneSep hd, isDigitC_ne_at hd⟩
  · rintro ⟨w, hinf, hall, hlen⟩
    have hinf2 : w <:+: tokenOf name n := by
      rw [tokenOf_eq_bracket]
      exact hinf.trans ⟨['['], [']'], by simp⟩
    obtain ⟨i, j, hij, hj, hw⟩ := infix_eq_slice hinf2
    have hne := htmf j hj i hij ("phone".data, phonePat) (by simp [PII_PATTERNS])
    rw [← hw] at hne
    exact hne (by rw [phone_fullmatch_digits hall hlen, hlen])

/-! ### Token freshness and the mapping invariant -/

theorem tokenOf_cons_head (c : Char) (r : List Char) (j : Nat) :
    tokenOf (c :: r) j =
      '[' :: c.toUpper :: (pyUpper r ++ '_' :: (natDigits j ++ [']'])) := by
  simp [tokenOf, typePfx, pyUpper]

/-- Tokens of category names with different (uppercased) initials differ. -/
theorem tokenOf_ne_cross {c1 c2 : Char} {r1 r2 : List Char}
    (hne : c1.toUpper ≠ c2.toUpper) (a b : Nat) :
    tokenOf (c1 :: r1) a ≠ tokenOf (c2 :: r2) b := by
  rw [tokenOf_cons_head, tokenOf_cons_head]
  intro h
  simp only [List.cons.injEq] at h
  exact hne h.2.1

/-- The category prefix is a prefix of its own tokens. -/
theorem typePfx_prefix_tokenOf (name : List Char) (j : Nat) :
    (typePfx name).isPrefixOf (tokenOf name j) = true := by
  rw [List.isPrefixOf_iff_prefix, tokenOf]
  exact (List.prefix_append _ _).trans
    ((List.prefix_append _ _).trans (List.prefix_refl _))

/-- A category prefix is not a prefix of a token of a category with a
different (uppercased) initial. -/
theorem typePfx_not_prefix_cross {c1 c2 : Char} {r1 r2 : List Char}
    (hne : c1.toUpper ≠ c2.toUpper) (j : Nat) :
    ¬ (typePfx (c1 :: r1)).isPrefixOf (tokenOf (c2 :: r2) j) = true := by
  rw [List.isPrefixOf_iff_prefix, tokenOf_cons_head]
  rintro ⟨tl, htl⟩
  simp only [typePfx, pyUpper, List.map_cons, List.cons_append,
    List.append_assoc, List.cons.injEq] at htl
  exact hne htl.2.1

theorem tokenOf_ne_names : ∀ n1 ∈ catNames, ∀ n2 ∈ catNames, n1 ≠ n2 →
    ∀ a b, tokenOf n1 a ≠ tokenOf n2 b := by
  intro n1 h1 n2 h2 hne a b
  simp only [catNames, List.mem_cons, List.not_mem_nil, or_false] at h1 h2
  rcases h1 with rfl | rfl | rfl | rfl <;> rcases h2 with rfl | rfl | rfl | rfl <;>
    first
      | exact absurd rfl hne
      | exact tokenOf_ne_cross (by decide) a b

theorem typePfx_not_prefix_names : ∀ n1 ∈ catNames, ∀ n2 ∈ catNames, n1 ≠ n2 →
    ∀ j, ¬ (typePfx n1).isPrefixOf (tokenOf n2 j) = true := by
  intro n1 h1 n2 h2 hne j
  simp only [catNames, List.mem_cons, List.not_mem_nil, or_false] at h1 h2
  rcases h1 with rfl | rfl | rfl | rfl <;> rcases h2 with rfl | rfl | rfl | rfl <;>
    first
      | exact absurd rfl hne
      | exact typePfx_not_prefix_cross (by decide) j

theorem countPrefixKeys_eq (name : List Char) (m : PIIMap) :
    countPrefixKeys name m = (keysFor name m).length := by
  simp [countPrefixKeys, keysFor]

theorem keysFor_append (name : List Char) (m1 m2 : PIIMap) :
    keysFor name (m1 ++ m2) = keysFor name m1 ++ keysFor name m2 := by
  simp [keysFor]

theorem WFMap_nil : WFMap [] := by
  intro name _
  simp [keysFor, countPrefixKeys]

/-- The next token of a category is not yet a key of a well-formed
mapping. -/
theorem tokenOf_fresh {name : List Char} {m : PIIMap}
    (hname : name ∈ catNames) (hWF : WFMap m) {c : Nat}
    (hc : countPrefixKeys name m = c) :
    tokenOf name (c + 1) ∉ m.map Prod.fst := by
  intro hmem
  have h1 : tokenOf name (c + 1) ∈ keysFor name m := by
    simp only [List.mem_map] at hmem
    obtain ⟨kv, hkv, hk⟩ := hmem
    simp only [keysFor, List.mem_map]
    refine ⟨kv, List.mem_filter.mpr ⟨hkv, ?_⟩, hk⟩
    rw [hk]
    exact typePfx_prefix_tokenOf name (c + 1)
  rw [hWF name hname, hc] at h1
  simp only [List.mem_map, List.mem_range] at h1
  obtain ⟨j, hj, hjeq⟩ := h1
  have := tokenOf_inj_num hjeq
  omega

/-- Inserting a fresh key appends it. -/
theorem dictInsert_fresh {m : PIIMap} {k : List Char}
    (h : k ∉ m.map Prod.fst) (v : List Char) :
    dictInsert m k v = m ++ [(k, v)] := by
  rw [dictInsert, if_neg]
  simp only [List.any_eq_true, decide_eq_true_eq, not_exists]
  intro kv
  rintro ⟨hkv, rfl⟩
  exact h (List.mem_map.mpr ⟨kv, hkv, rfl⟩)

/-- Appending the next token of a category preserves well-formedness,
advances that category's count by one and leaves the other categories'
keys untouched. -/
theorem WFMap_append_tok {name : List Char} {m : PIIMap}
    (hname : name ∈ catNames) (hWF : WFMap m) {c : Nat}
    (hc : countPrefixKeys name m = c) (v : List Char) :
    WFMap (m ++ [(tokenOf name (c + 1), v)]) ∧
    countPrefixKeys name (m ++ [(tokenOf name (c + 1), v)]) = c + 1 ∧
    keysFor name (m ++ [(tokenOf name (c + 1), v)]) =
      keysFor name m ++ [tokenOf name (c + 1)] ∧
    (∀ n2 ∈ catNames, n2 ≠ name →
      keysFor n2 (m ++ [(tokenOf name (c + 1), v)]) = keysFor n2 m) := by
  have hsame : keysFor name [(tokenOf name (c + 1), v)] = [tokenOf name (c + 1)] := by
    simp [keysFor, List.filter, typePfx_prefix_tokenOf name (c + 1)]
  have hother : ∀ n2 ∈ catNames, n2 ≠ name →
      keysFor n2 [(tokenOf name (c + 1), v)] = [] := by
    intro n2 hn2 hne
    simp [keysFor, List.filter,
      Bool.eq_false_iff.mpr (typePfx_not_prefix_names n2 hn2 name hname hne (c + 1))]
  have hcnt : countPrefixKeys name (m ++ [(tokenOf name (c + 1), v)]) = c + 1 := by
    rw [countPrefixKeys_eq, keysFor_append, hsame, List.length_append,
      ← countPrefixKeys_eq, hc]
    rfl
  refine ⟨?_, hcnt, by rw [keysFor_append, hsame], ?_⟩
  · intro n hn
    by_cases he : n = name
    · subst he
      rw [keysFor_append, hsame, hcnt, hWF n hn, hc, List.range_succ]
      simp
    · rw [keysFor_append, hother n hn he, List.append_nil, countPrefixKeys_eq,
        keysFor_append, hother n hn he, List.append_nil, ← countPrefixKeys_eq]
      exact hWF n hn
  · intro n2 hn2 hne
    rw [keysFor_append, hother n2 hn2 hne, List.append_nil]

/-- Appending a fresh key preserves key distinctness. -/
theorem nodup_keys_append_fresh {m : PIIMap} {k v : List Char}
    (h : k ∉ m.map Prod.fst) (hn : (m.map Prod.fst).Nodup) :
    ((m ++ [(k, v)]).map Prod.fst).Nodup := by
  rw [List.map_append]
  simp only [List.map_cons, List.map_nil]
  rw [List.nodup_append]
  exact ⟨hn, List.nodup_singleton _, by simpa using h⟩

/-- Mapping evolution of the inner match loop: the values are appended in
order, keyed by consecutively numbered tokens of the category. -/
theorem maskSteps_map {name : List Char} (hname : name ∈ catNames) (cnt : Nat) :
    ∀ (vs : List (List Char)) (k : Nat) (s : List Char) (m : PIIMap),
      WFMap m → countPrefixKeys name m = cnt + k →
      ∃ ps : PIIMap,
        ((List.enumFrom k vs).foldl (maskStep name cnt) (s, m)).2 = m ++ ps ∧
        ps.map Prod.fst =
          (List.range vs.length).map (fun j => tokenOf name (cnt + k + j + 1)) ∧
        ps.map Prod.snd = vs ∧
        WFMap (m ++ ps) ∧
        countPrefixKeys name (m ++ ps) = cnt + k + vs.length ∧
        (∀ n2 ∈ catNames, n2 ≠ name → keysFor n2 (m ++ ps) = keysFor n2 m) ∧
        ((m.map Prod.fst).Nodup → ((m ++ ps).map Prod.fst).Nodup) := by
  intro vs
  induction vs with
  | nil =>
    intro k s m hWF hc
    exact ⟨[], by simp, by simp, rfl, by simpa using hWF,
      by simpa using hc, fun n2 _ _ => by simp, fun h => by simpa using h⟩
  | cons v vs ih =>
    intro k s m hWF hc
    have hfresh := tokenOf_fresh hname hWF hc
    have hm1 := dictInsert_fresh hfresh v
    obtain ⟨hWF1, hc1, -, hother1⟩ := WFMap_append_tok hname hWF hc v
    have hstep : maskStep name cnt (s, m) (k, v) =
        (replaceFirst s v (tokenOf name (cnt + k + 1)),
         m ++ [(tokenOf name (cnt + k + 1), v)]) := by
      show (replaceFirst s v (tokenOf name (cnt + k + 1)),
        dictInsert m (tokenOf name (cnt + k + 1)) v) = _
      rw [hm1]
    obtain ⟨ps, h1, h2, h3, h4, h5, h6, h7⟩ :=
      ih (k + 1) (replaceFirst s v (tokenOf name (cnt + k + 1)))
        (m ++ [(tokenOf name (cnt + k + 1), v)]) hWF1 (by rw [hc1]; omega)
    have hEq : (m ++ [(tokenOf name (cnt + k + 1), v)]) ++ ps =
        m ++ ((tokenOf name (cnt + k + 1), v) :: ps) := by simp
    refine ⟨(tokenOf name (cnt + k + 1), v) :: ps, ?_, ?_, ?_, ?_, ?_, ?_, ?_⟩
    · rw [show List.enumFrom k (v :: vs) = (k, v) :: List.enumFrom (k + 1) vs
        from rfl, List.foldl_cons, hstep, ← hEq]
      exact h1
    · simp only [List.map_cons, List.length_cons, h2, List.range_succ_eq_map,
        List.map_map]
      refine congrArg₂ List.cons rfl (List.map_congr_left ?_)
      intro j _
      show tokenOf name (cnt + (k + 1) + j + 1) = tokenOf name (cnt + k + (j + 1) + 1)
      congr 1
      omega
    · rw [List.map_cons, h3]
    · rw [← hEq]
      exact h4
    · rw [← hEq, h5, List.length_cons]
      omega
    · intro n2 hn2 hne
      rw [← hEq, h6 n2 hn2 hne, hother1 n2 hn2 hne]
    · intro h
      rw [← hEq]
      exact h7 (nodup_keys_append_fresh hfresh h)

/-- Mapping evolution of one category pass. -/
theorem maskCat_map (np : List Char × Pat) (hnp : np.1 ∈ catNames)
    (s : List Char) (m : PIIMap) (hWF : WFMap m) :
    ∃ ps : PIIMap,
      (maskCat (s, m) np).2 = m ++ ps ∧
      ps.map Prod.fst = (List.range (findall np.2 s).length).map
        (fun j => tokenOf np.1 (countPrefixKeys np.1 m + j + 1)) ∧
      ps.map Prod.snd = findall np.2 s ∧
      WFMap (m ++ ps) ∧
      ((m.map Prod.fst).Nodup → ((m ++ ps).map Prod.fst).Nodup) := by
  obtain ⟨ps, h1, h2, h3, h4, h5, h6, h7⟩ :=
    maskSteps_map hnp (countPrefixKeys np.1 m) (findall np.2 s) 0 s m hWF rfl
  refine ⟨ps, ?_, ?_, h3, h4, h7⟩
  · show ((List.enumFrom 0 (findall np.2 s)).foldl
      (maskStep np.1 (countPrefixKeys np.1 m)) (s, m)).2 = m ++ ps
    exact h1
  · exact h2

/-- Mapping evolution of a run of category passes. -/
theorem maskCats_map : ∀ (cats : List (List Char × Pat)),
    (∀ np ∈ cats, np.1 ∈ catNames) →
    ∀ (s : List Char) (m : PIIMap), WFMap m →
    ∃ ps : PIIMap,
      (cats.foldl maskCat (s, m)).2 = m ++ ps ∧
      WFMap (m ++ ps) ∧
      ((m.map Prod.fst).Nodup → ((m ++ ps).map Prod.fst).Nodup) ∧
      (∀ k ∈ ps.map Prod.fst, ∃ name ∈ catNames, ∃ j, k = tokenOf name j) := by
  intro cats
  induction cats with
  | nil =>
    intro _ s m hWF
    exact ⟨[], by simp, by simpa using hWF, fun h => by simpa using h,
      by simp⟩
  | cons np cats ih =>
    intro hc s m hWF
    obtain ⟨ps1, h1, h2, -, h4, h5⟩ := maskCat_map np (hc np (by simp)) s m hWF
    obtain ⟨ps2, g1, g2, g3, g4⟩ :=
      ih (fun q hq => hc q (by simp [hq])) (maskCat (s, m) np).1 (m ++ ps1) h4
    refine ⟨ps1 ++ ps2, ?_, ?_, ?_, ?_⟩
    · rw [List.foldl_cons,
        show maskCat (s, m) np = ((maskCat (s, m) np).1, m ++ ps1) from by
          rw [← h1], g1, List.append_assoc]
    · rw [← List.append_assoc]
      exact g2
    · intro h
      rw [← List.append_assoc]
      exact g3 (h5 h)
    · intro k hk
      rw [List.map_append, List.mem_append] at hk
      rcases hk with hk | hk
      · rw [h2] at hk
        obtain ⟨j, -, rfl⟩ := List.mem_map.mp hk
        exact ⟨np.1, hc np (by simp), _, rfl⟩
      · exact g4 k hk

/-! ### The masking invariant chain -/

theorem replaceFirst_eq_aux {old : List Char} (s new : List Char)
    (h : old ≠ []) : replaceFirst s old new = replaceFirstAux old new s := by
  rw [replaceFirst, if_neg (by simpa [List.isEmpty_iff] using h)]

/-- All four category patterns produce strictly advancing, structurally
safe matches. -/
theorem pii_props : ∀ np ∈ PII_PATTERNS, ∀ (s : List Char) (i j : Nat),
    i ≤ s.length → matchAt np.2 s i = some j → i < j ∧ SafeVal (slice s i j) := by
  intro np hnp
  simp only [PII_PATTERNS, List.mem_cons, List.not_mem_nil, or_false] at hnp
  rcases hnp with rfl | rfl | rfl | rfl
  · exact fun s i j hi h => phone_props hi h
  · exact fun s i j hi h => email_props hi h
  · exact fun s i j hi h => ssn_props hi h
  · exact fun s i j hi h => card_props hi h

/-- The inner match loop preserves the mix invariant; the unprocessed tail
of the `findall` decomposition stays a suffix of the working string. -/
theorem maskSteps_mix {name : List Char} (hname : name ∈ catNames)
    (text : List Char) (cnt : Nat) :
    ∀ (vs gs : List (List Char)) (k : Nat) (m : PIIMap) (p : List Char)
      (L : List ((List Char × List Char) × List Char)),
      WFMap m → countPrefixKeys name m = cnt + k →
      MixInv text m (p, L) →
      (∀ key ∈ (((List.enumFrom k vs).foldl (maskStep name cnt)
          (aflat (p, L), m)).2).map Prod.fst, tokenMatchFree key) →
      interleave gs vs <:+ aflat (p, L) →
      gs.length = vs.length + 1 →
      (∀ v ∈ vs, SafeVal v) →
      ∃ p2 L2,
        ((List.enumFrom k vs).foldl (maskStep name cnt)
          (aflat (p, L), m)).1 = aflat (p2, L2) ∧
        MixInv text (((List.enumFrom k vs).foldl (maskStep name cnt)
          (aflat (p, L), m)).2) (p2, L2) := by
  intro vs
  induction vs with
  | nil =>
    intro gs k m p L _ _ hMI _ _ _ _
    exact ⟨p, L, rfl, hMI⟩
  | cons v vs ih =>
    intro gs k m p L hWF hc hMI hTMF hsuf hglen hvs
    obtain ⟨hI1, hI2, hI3, hI4, hI5⟩ := hMI
    rcases gs with _ | ⟨g, gs⟩
    · simp at hglen
    have hsv : SafeVal v := hvs v (by simp)
    have hvne : v ≠ [] := hsv.2.1
    have hfresh := tokenOf_fresh hname hWF hc
    have hm1 := dictInsert_fresh hfresh v
    obtain ⟨hWF1, hc1, -, -⟩ := WFMap_append_tok hname hWF hc v
    -- the exhibited occurrence of `v` in the working string
    obtain ⟨A, hA⟩ := hsuf
    have hflat : aflat (p, L) = (A ++ g) ++ v ++ interleave gs vs := by
      rw [← hA]
      show A ++ interleave (g :: gs) (v :: vs) = _
      rw [show interleave (g :: gs) (v :: vs) = g ++ v ++ interleave gs vs
        from rfl]
      simp
    have hinf : v <:+: aflat (p, L) :=
      ⟨A ++ g, interleave gs vs, by rw [hflat]⟩
    -- insert the token into the mix
    obtain ⟨h1, h2, h3, h4⟩ := insertTok_spec (tokenOf name (cnt + k + 1)) hsv L p
      (fun e he => (hI1 e he).1) hinf
    have hstep : maskStep name cnt (aflat (p, L), m) (k, v) =
        (replaceFirstAux v (tokenOf name (cnt + k + 1)) (aflat (p, L)),
         m ++ [(tokenOf name (cnt + k + 1), v)]) := by
      show (replaceFirst (aflat (p, L)) v (tokenOf name (cnt + k + 1)),
        dictInsert m (tokenOf name (cnt + k + 1)) v) = _
      rw [hm1, replaceFirst_eq_aux _ _ hvne]
    have hunfold : (List.enumFrom k (v :: vs)).foldl (maskStep name cnt)
        (aflat (p, L), m) =
        (List.enumFrom (k + 1) vs).foldl (maskStep name cnt)
          (aflat (insertTok v (tokenOf name (cnt + k + 1)) p L),
           m ++ [(tokenOf name (cnt + k + 1), v)]) := by
      rw [show List.enumFrom k (v :: vs) = (k, v) :: List.enumFrom (k + 1) vs
        from rfl, List.foldl_cons, hstep, h1]
    -- the inserted token is a key of the final mapping of this loop
    have htmf : tokenMatchFree (tokenOf name (cnt + k + 1)) := by
      apply hTMF
      rw [hunfold]
      obtain ⟨ps, hps, -⟩ := maskSteps_map hname cnt vs (k + 1)
        (aflat (insertTok v (tokenOf name (cnt + k + 1)) p L))
        (m ++ [(tokenOf name (cnt + k + 1), v)]) hWF1 (by rw [hc1]; omega)
      rw [show ((List.enumFrom (k + 1) vs).foldl (maskStep name cnt)
          (aflat (insertTok v (tokenOf name (cnt + k + 1)) p L),
           m ++ [(tokenOf name (cnt + k + 1), v)])).2 =
          (m ++ [(tokenOf name (cnt + k + 1), v)]) ++ ps from hps]
      refine List.mem_map.mpr ⟨(tokenOf name (cnt + k + 1), v), ?_, rfl⟩
      exact List.mem_append_left _ (List.mem_append_right _ (by simp))
    have hstok : SafeTok (tokenOf name (cnt + k + 1)) :=
      safeTok_of_tokenMatchFree (catName_chars_ok name hname) htmf
    -- token not among the current mix tokens
    have hnotin : tokenOf name (cnt + k + 1) ∉ (toks (p, L)).map Prod.fst := by
      intro hmem
      obtain ⟨e, he, heq⟩ := List.mem_map.mp hmem
      exact hfresh (List.mem_map.mpr ⟨e, hI3.mem_iff.mp he, heq⟩)
    -- the new mix satisfies the invariant for the extended mapping
    have hMI1 : MixInv text (m ++ [(tokenOf name (cnt + k + 1), v)])
        (insertTok v (tokenOf name (cnt + k + 1)) p L) := by
      refine ⟨?_, ?_, ?_, h2.trans hI4, ?_⟩
      · intro e he
        rcases List.mem_cons.mp (h3.mem_iff.mp he) with rfl | he2
        · exact ⟨hstok, hsv⟩
        · exact hI1 e he2
      · have hmapeq : ∀ mx : AMix, mx.2.map (fun e => e.1.1) =
            (toks mx).map Prod.fst := by
          intro mx
          simp [toks]
        rw [hmapeq]
        refine ((h3.map Prod.fst).symm).nodup ?_
        rw [List.map_cons]
        refine List.nodup_cons.mpr ⟨hnotin, ?_⟩
        rw [← hmapeq]
        exact hI2
      · refine h3.trans ?_
        refine List.Perm.trans (hI3.cons _) ?_
        exact (List.perm_append_singleton _ _).symm
      · intro q hq
        obtain ⟨q0, hq0, hqin⟩ := h4 q hq
        exact hqin.trans (hI5 q0 hq0)
    -- the remaining tail survives the replacement
    obtain ⟨a, b, -, hrepl, z, hz⟩ :=
      replaceFirstAux_found v (tokenOf name (cnt + k + 1)) hvne (A ++ g)
        (interleave gs vs)
    have hsuf1 : interleave gs vs <:+
        aflat (insertTok v (tokenOf name (cnt + k + 1)) p L) := by
      rw [← h1, hflat, hrepl, hz]
      exact ⟨a ++ tokenOf name (cnt + k + 1) ++ z, by simp⟩
    -- invoke the induction hypothesis on the tail
    obtain ⟨p2, L2, hr1, hr2⟩ := ih gs (k + 1)
      (m ++ [(tokenOf name (cnt + k + 1), v)])
      (insertTok v (tokenOf name (cnt + k + 1)) p L).1
      (insertTok v (tokenOf name (cnt + k + 1)) p L).2
      hWF1 (by rw [hc1]; omega) hMI1
      (by rw [← hunfold]; exact hTMF)
      hsuf1 (by simpa using hglen) (fun u hu => hvs u (by simp [hu]))
    exact ⟨p2, L2, by rw [hunfold]; exact hr1, by rw [hunfold]; exact hr2⟩

/-- One category pass preserves the mix invariant. -/
theorem maskCat_mix (np : List Char × Pat) (hnp : np ∈ PII_PATTERNS)
    (text : List Char) (m : PIIMap) (p : List Char)
    (L : List ((List Char × List Char) × List Char))
    (hWF : WFMap m) (hMI : MixInv text m (p, L))
    (hTMF : ∀ key ∈ ((maskCat (aflat (p, L), m) np).2).map Prod.fst,
      tokenMatchFree key) :
    ∃ p2 L2, (maskCat (aflat (p, L), m) np).1 = aflat (p2, L2) ∧
      MixInv text ((maskCat (aflat (p, L), m) np).2) (p2, L2) := by
  have hnp1 : np.1 ∈ catNames := by
    rw [catNames_eq]
    exact List.mem_map.mpr ⟨np, hnp, rfl⟩
  obtain ⟨gaps, hg1, hg2, hg3⟩ := findall_spec (pii_props np hnp) (aflat (p, L))
  have hcat : maskCat (aflat (p, L), m) np =
      (List.enumFrom 0 (findall np.2 (aflat (p, L)))).foldl
        (maskStep np.1 (countPrefixKeys np.1 m)) (aflat (p, L), m) := rfl
  obtain ⟨p2, L2, h1, h2⟩ := maskSteps_mix hnp1 text (countPrefixKeys np.1 m)
    (findall np.2 (aflat (p, L))) gaps 0 m p L hWF rfl hMI
    (by rw [← hcat]; exact hTMF)
    ⟨[], by rw [List.nil_append]; exact hg2.symm⟩ hg1 hg3
  exact ⟨p2, L2, by rw [hcat]; exact h1, by rw [hcat]; exact h2⟩

/-- A run of category passes preserves the mix invariant. -/
theorem maskCats_mix : ∀ (cats : List (List Char × Pat)),
    (∀ np ∈ cats, np ∈ PII_PATTERNS) →
    ∀ (text : List Char) (m : PIIMap) (p : List Char)
      (L : List ((List Char × List Char) × List Char)),
    WFMap m → MixInv text m (p, L) →
    (∀ key ∈ ((cats.foldl maskCat (aflat (p, L), m)).2).map Prod.fst,
      tokenMatchFree key) →
    ∃ p2 L2, (cats.foldl maskCat (aflat (p, L), m)).1 = aflat (p2, L2) ∧
      MixInv text ((cats.foldl maskCat (aflat (p, L), m)).2) (p2, L2) := by
  intro cats
  induction cats with
  | nil =>
    intro _ text m p L _ hMI _
    exact ⟨p, L, rfl, hMI⟩
  | cons np cats ih =>
    intro hcats text m p L hWF hMI hTMF
    have hnp1 : np.1 ∈ catNames := by
      rw [catNames_eq]
      exact List.mem_map.mpr ⟨np, hcats np (by simp), rfl⟩
    obtain ⟨ps1, hps1, -, -, hWF1, -⟩ := maskCat_map np hnp1 (aflat (p, L)) m hWF
    have hfold : (np :: cats).foldl maskCat (aflat (p, L), m) =
        cats.foldl maskCat (maskCat (aflat (p, L), m) np) := List.foldl_cons _ _
    have hTMF1 : ∀ key ∈ ((maskCat (aflat (p, L), m) np).2).map Prod.fst,
        tokenMatchFree key := by
      intro key hkey
      apply hTMF
      rw [hfold]
      obtain ⟨ps2, hps2, -, -, -⟩ := maskCats_map cats
        (fun q hq => by rw [catNames_eq]; exact List.mem_map.mpr ⟨q, hcats q (by simp [hq]), rfl⟩)
        (maskCat (aflat (p, L), m) np).1 ((maskCat (aflat (p, L), m) np).2)
        (by rw [hps1]; exact hWF1)
      rw [show cats.foldl maskCat (maskCat (aflat (p, L), m) np) =
          cats.foldl maskCat ((maskCat (aflat (p, L), m) np).1,
            (maskCat (aflat (p, L), m) np).2) from rfl, hps2]
      obtain ⟨e, he, hek⟩ := List.mem_map.mp hkey
      exact List.mem_map.mpr ⟨e, List.mem_append_left _ he, hek⟩
    obtain ⟨p1, L1, hm1, hmi1⟩ := maskCat_mix np (hcats np (by simp)) text m p L
      hWF hMI hTMF1
    have hWF1' : WFMap ((maskCat (aflat (p, L), m) np).2) := by
      rw [hps1]
      exact hWF1
    have hpair : maskCat (aflat (p, L), m) np =
        (aflat (p1, L1), (maskCat (aflat (p, L), m) np).2) := by
      rw [← hm1]
    obtain ⟨p2, L2, hr1, hr2⟩ := ih (fun q hq => hcats q (by simp [hq])) text
      ((maskCat (aflat (p, L), m) np).2) p1 L1 hWF1' hmi1
      (by rw [← hpair, ← hfold]; exact hTMF)
    refine ⟨p2, L2, ?_, ?_⟩
    · rw [hfold, hpair]
      exact hr1
    · rw [hfold, hpair]
      exact hr2

/-- C1 (corrected): for every text such that (i) no category pattern fully
matches any substring of a generated token (the claim's stated
precondition) and (ii) no token of the produced mapping occurs as a
substring of the original text (the added precondition), unmasking the
masked text under the produced mapping returns the original text. -/
theorem C1_unmask_mask_roundtrip (text : List Char)
    (hTMF : ∀ key ∈ ((mask_pii text []).2).map Prod.fst, tokenMatchFree key)
    (hindep : ∀ key ∈ ((mask_pii text []).2).map Prod.fst, ¬ key <:+: text) :
    unmask_pii (mask_pii text []).1 (mask_pii text []).2 = text := by
  have hMI0 : MixInv text [] (text, []) := by
    refine ⟨by simp [toks], by simp, by simp [toks], arestore_nil text, ?_⟩
    intro q hq
    simp only [pieces, List.map_nil, List.mem_singleton] at hq
    subst hq
    exact List.infix_refl _
  obtain ⟨p2, L2, h1, h2⟩ := maskCats_mix PII_PATTERNS (fun np h => h) text []
    text [] WFMap_nil hMI0 (by rw [aflat_nil]; exact hTMF)
  rw [aflat_nil] at h1 h2
  obtain ⟨hI1, hI2, hI3, hI4, hI5⟩ := h2
  have hres := unmask_fold (T := ((mask_pii text []).2).map Prod.fst)
    (fun u hu => by
      obtain ⟨e, he, hek⟩ := List.mem_map.mp hu
      exact hek ▸ (hI1 e (hI3.symm.subset he)).1)
    ((mask_pii text []).2) p2 L2 hI1 hI2 hI3
    (fun q hq u hu hinq => hindep u hu (hinq.trans (hI5 q hq)))
    (fun e he => List.mem_map.mpr ⟨e, hI3.subset he, rfl⟩)
  rw [unmask_pii, show (mask_pii text []).1 = aflat (p2, L2) from h1]
  rw [hres]
  exact hI4

theorem C1_unmask_mask_roundtrip_witness :
    (∀ key ∈ ((mask_pii "a 5551234567".data []).2).map Prod.fst,
      tokenMatchFree key) ∧
    (∀ key ∈ ((mask_pii "a 5551234567".data []).2).map Prod.fst,
      ¬ key <:+: "a 5551234567".data) ∧
    unmask_pii (mask_pii "a 5551234567".data []).1
      (mask_pii "a 5551234567".data []).2 = "a 5551234567".data :=
  ⟨by decide, by decide,
   C1_unmask_mask_roundtrip "a 5551234567".data (by decide) (by decide)⟩

/-- C1 counterexample: a text that already contains the literal token
`[PHONE_1]` satisfies the claim's stated precondition (no category pattern
matches inside generated tokens) yet fails the roundtrip. -/
theorem C1_literal_token_counterexample :
    (∀ key ∈ ((mask_pii "[PHONE_1] 5551234567".data []).2).map Prod.fst,
      tokenMatchFree key) ∧
    unmask_pii (mask_pii "[PHONE_1] 5551234567".data []).1
      (mask_pii "[PHONE_1] 5551234567".data []).2 ≠
      "[PHONE_1] 5551234567".data := by
  constructor
  · decide
  · decide

theorem pii_patterns_names : ∀ np ∈ PII_PATTERNS, np.1 ∈ catNames := by
  intro np h
  rw [catNames_eq]
  exact List.mem_map.mpr ⟨np, h, rfl⟩

/-- C2 (amended): masking never reuses a token: starting from a mapping
with well-formed, distinct keys (e.g. the empty one), every entry of the
produced mapping carries a distinct token, so each occurrence of a
repeated value gets its own token rather than one shared token. -/
theorem C2_mask_tokens_distinct (text : List Char) (m : PIIMap)
    (hWF : WFMap m) (hnd : (m.map Prod.fst).Nodup) :
    (((mask_pii text m).2).map Prod.fst).Nodup := by
  obtain ⟨ps, h1, -, h3, -⟩ := maskCats_map PII_PATTERNS pii_patterns_names text m hWF
  rw [show (mask_pii text m).2 = m ++ ps from h1]
  exact h3 hnd

theorem C2_mask_tokens_distinct_witness :
    WFMap [] ∧ (([] : PIIMap).map Prod.fst).Nodup ∧
    (((mask_pii "call 5551234567 or 5551234567".data []).2).map
      Prod.fst).Nodup :=
  ⟨by decide, by decide,
   C2_mask_tokens_distinct "call 5551234567 or 5551234567".data []
     (by decide) (by decide)⟩

/-- C2 counterexample: a text containing the same phone number twice is
given two distinct tokens, `[PHONE_1]` and `[PHONE_2]`, both mapping to
that value — not one token reused at both positions. -/
theorem C2_duplicate_value_counterexample :
    ("[PHONE_1]".data, "5551234567".data) ∈
      (mask_pii "call 5551234567 or 5551234567".data []).2 ∧
    ("[PHONE_2]".data, "5551234567".data) ∈
      (mask_pii "call 5551234567 or 5551234567".data []).2 ∧
    "[PHONE_1]".data ≠ "[PHONE_2]".data ∧
    (mask_pii "call 5551234567 or 5551234567".data []).1 =
      "call [PHONE_1] or [PHONE_2]".data := by
  refine ⟨by decide, by decide, by decide, by decide⟩

/-- C6: starting from any well-formed mapping (the empty one, or any
mapping masking produces), the keys of each category in the produced
mapping are exactly its tokens numbered `1..count` in ascending order —
counters are strictly increasing and never reused — and the supplied
mapping's keys are preserved as a prefix, so numbering continues across a
second call. -/
theorem C6_counter_invariant (text : List Char) (m : PIIMap)
    (hWF : WFMap m) :
    WFMap (mask_pii text m).2 ∧
    (∀ name ∈ catNames,
      keysFor name m <+: keysFor name (mask_pii text m).2) ∧
    (∀ name ∈ catNames, (keysFor name (mask_pii text m).2).Nodup) := by
  obtain ⟨ps, h1, h2, -, -⟩ := maskCats_map PII_PATTERNS pii_patterns_names text m hWF
  rw [show (mask_pii text m).2 = m ++ ps from h1]
  refine ⟨h2, ?_, ?_⟩
  · intro name _
    rw [keysFor_append]
    exact List.prefix_append _ _
  · intro name hname
    rw [h2 name hname]
    refine List.Nodup.map ?_ (List.nodup_range _)
    intro a b hab
    have := tokenOf_inj_num hab
    omega

theorem C6_counter_invariant_witness :
    WFMap [] ∧
    (WFMap (mask_pii "a 5551234567".data []).2 ∧
    (∀ name ∈ catNames,
      keysFor name [] <+: keysFor name (mask_pii "a 5551234567".data []).2) ∧
    (∀ name ∈ catNames,
      (keysFor name (mask_pii "a 5551234567".data []).2).Nodup)) :=
  ⟨by decide, C6_counter_invariant "a 5551234567".data [] (by decide)⟩

/-- C7 (corrected): the mock source returns exactly the venues within the
(default 500 m) radius by true distance, paired with rounded distances, and
both sources sort non-strictly by the ROUNDED distance — not strictly by
great-circle distance; the live source (default radius 800 m, limit 6)
applies no local radius check at all, so its output does not depend on the
radius argument. -/
theorem C7_venue_list_properties (dist : ℚ → ℚ → ℚ → ℚ → ℚ)
    (stores : List Store) (elements : List OsmElement) (lat lng radius : ℚ) :
    List.Sorted distLe (get_mock_stores dist stores lat lng radius) ∧
    List.Perm (get_mock_stores dist stores lat lng radius)
      ((stores.filter (fun st => dist lat lng st.lat st.lng ≤ radius)).map
        (fun st => (st, pyRound (dist lat lng st.lat st.lng)))) ∧
    (∀ st ∈ get_mock_stores dist stores lat lng radius,
      dist lat lng st.1.lat st.1.lng ≤ radius ∧
      st.2 = pyRound (dist lat lng st.1.lat st.1.lng)) ∧
    List.Sorted distLe
      (fetch_live_stores dist elements lat lng LIVE_RADIUS LIVE_LIMIT) ∧
    (∀ r1 r2 : ℚ, fetch_live_stores dist elements lat lng r1 LIVE_LIMIT =
      fetch_live_stores dist elements lat lng r2 LIVE_LIMIT) := by
  refine ⟨List.sorted_insertionSort _ _, List.perm_insertionSort _ _, ?_, ?_, ?_⟩
  · intro st hst
    have hmem := (List.perm_insertionSort distLe _).subset hst
    obtain ⟨s0, hs0, rfl⟩ := List.mem_map.mp hmem
    exact ⟨of_decide_eq_true (List.mem_filter.mp hs0).2, rfl⟩
  · exact List.sorted_insertionSort _ _
  · intro r1 r2
    rfl

/-- C7 counterexample: two venues whose true distances differ but round to
the same meter keep data-file order, so the output is not strictly
ascending by true great-circle distance: the farther venue (by the real
distance) comes first. -/
theorem C7_rounded_tie_counterexample :
    (get_mock_stores
        (fun _ _ slat _ =>
          if slat = 1 then Rat.divInt 1004 10 else Rat.divInt 1002 10)
        [⟨"A".data, 1, 0⟩, ⟨"B".data, 2, 0⟩] 0 0 500).map
        (fun st => st.1.store_id) = ["A".data, "B".data] ∧
    Rat.divInt 1002 10 <
      (fun (_ _ slat _ : ℚ) =>
          if slat = 1 then Rat.divInt 1004 10 else Rat.divInt 1002 10)
        0 0 (1 : ℚ) 0 := by
  constructor
  · decide
  · decide

/-- C8 (corrected): in simulated mode the promotion list concatenates the
per-venue lookups over ALL nearby venues in distance order — there is no
cap at the first 3 — and in live mode no promotions are looked up. -/
theorem C8_promotions_no_cap (dist : ℚ → ℚ → ℚ → ℚ → ℚ) (stores : List Store)
    (promotions : List Promo) (elements : List OsmElement) (lat lng : ℚ) :
    (enrich_context dist stores promotions elements lat lng true).promotions =
      (enrich_context dist stores promotions elements lat lng
        true).nearby_stores.flatMap
        (fun st => get_store_promotions promotions st.1.store_id) ∧
    (enrich_context dist stores promotions elements lat lng
      false).promotions = [] := by
  constructor
  · rfl
  · rfl

/-- C8 counterexample: four in-radius venues, each with one promotion,
yield four promotions — not the promotions of only the first 3 venues. -/
theorem C8_four_venues_counterexample :
    ((enrich_context (fun _ _ _ _ => 0)
        [⟨"s1".data, 0, 0⟩, ⟨"s2".data, 0, 0⟩, ⟨"s3".data, 0, 0⟩,
         ⟨"s4".data, 0, 0⟩]
        [⟨"p1".data, "s1".data⟩, ⟨"p2".data, "s2".data⟩,
         ⟨"p3".data, "s3".data⟩, ⟨"p4".data, "s4".data⟩]
        [] 0 0 true).nearby_stores.length = 4) ∧
    ((enrich_context (fun _ _ _ _ => 0)
        [⟨"s1".data, 0, 0⟩, ⟨"s2".data, 0, 0⟩, ⟨"s3".data, 0, 0⟩,
         ⟨"s4".data, 0, 0⟩]
        [⟨"p1".data, "s1".data⟩, ⟨"p2".data, "s2".data⟩,
         ⟨"p3".data, "s3".data⟩, ⟨"p4".data, "s4".data⟩]
        [] 0 0 true).promotions.map (fun p => p.promo_id) =
      ["p1".data, "p2".data, "p3".data, "p4".data]) := by
  constructor
  · decide
  · decide

theorem update_favorite_drinks (today : List Char) (u : ProfileUpdates)
    (p : Profile) : (update_user_profile today u p).favorite_drinks =
      fdApply u.add_favorite_drink p.favorite_drinks := by
  rcases u with ⟨f1, f2, f3, f4, f5⟩
  cases f1 <;> cases f2 <;> cases f3 <;> cases f4 <;> cases f5 <;> rfl

theorem update_dietary (today : List Char) (u : ProfileUpdates)
    (p : Profile) : (update_user_profile today u p).dietary =
      dietApply u.add_dietary p.dietary := by
  rcases u with ⟨f1, f2, f3, f4, f5⟩
  cases f1 <;> cases f2 <;> cases f3 <;> cases f4 <;> cases f5 <;> rfl

theorem update_temperature (today : List Char) (u : ProfileUpdates)
    (p : Profile) : (update_user_profile today u p).preferred_temperature =
      tempApply u.set_temperature p.preferred_temperature := by
  rcases u with ⟨f1, f2, f3, f4, f5⟩
  cases f1 <;> cases f2 <;> cases f3 <;> cases f4 <;> cases f5 <;> rfl

theorem update_history (today : List Char) (u : ProfileUpdates)
    (p : Profile) : (update_user_profile today u p).purchase_history =
      histApply today u.add_purchase p.purchase_history := by
  rcases u with ⟨f1, f2, f3, f4, f5⟩
  cases f1 <;> cases f2 <;> cases f3 <;> cases f4 <;> cases f5 <;> rfl

theorem update_points (today : List Char) (u : ProfileUpdates)
    (p : Profile) : (update_user_profile today u p).loyalty_points =
      pointsApply u.add_loyalty_points p.loyalty_points := by
  rcases u with ⟨f1, f2, f3, f4, f5⟩
  cases f1 <;> cases f2 <;> cases f3 <;> cases f4 <;> cases f5 <;> rfl

/-- C9: profile merging commutes for updates with disjoint keys, and
`add_favorite_drink` / `add_dietary` are idempotent: adding the same value
twice equals adding it once, and a value not present before ends with
exactly one occurrence. -/
theorem C9_profile_merge_comm_idem :
    (∀ (today : List Char) (u1 u2 : ProfileUpdates) (p : Profile),
      DisjointUpdates u1 u2 →
      update_user_profile today u2 (update_user_profile today u1 p) =
        update_user_profile today u1 (update_user_profile today u2 p)) ∧
    (∀ (today d : List Char) (p : Profile), d ∉ p.favorite_drinks →
      update_user_profile today ⟨some d, none, none, none, none⟩
          (update_user_profile today ⟨some d, none, none, none, none⟩ p) =
        update_user_profile today ⟨some d, none, none, none, none⟩ p ∧
      (update_user_profile today ⟨some d, none, none, none, none⟩
        p).favorite_drinks.count d = 1) ∧
    (∀ (today d : List Char) (p : Profile), d ∉ p.dietary →
      update_user_profile today ⟨none, some d, none, none, none⟩
          (update_user_profile today ⟨none, some d, none, none, none⟩ p) =
        update_user_profile today ⟨none, some d, none, none, none⟩ p ∧
      (update_user_profile today ⟨none, some d, none, none, none⟩
        p).dietary.count d = 1) := by
  refine ⟨?_, ?_, ?_⟩
  · intro today u1 u2 p hdisj
    obtain ⟨h1, h2, h3, h4, h5⟩ := hdisj
    apply Profile.ext
    · rw [update_favorite_drinks, update_favorite_drinks,
        update_favorite_drinks, update_favorite_drinks]
      rcases h1 with h | h <;> rw [h] <;> simp [fdApply]
    · rw [update_dietary, update_dietary, update_dietary, update_dietary]
      rcases h2 with h | h <;> rw [h] <;> simp [dietApply]
    · rw [update_temperature, update_temperature, update_temperature,
        update_temperature]
      rcases h3 with h | h <;> rw [h] <;> simp [tempApply]
    · rw [update_history, update_history, update_history, update_history]
      rcases h4 with h | h <;> rw [h] <;> simp [histApply]
    · rw [update_points, update_points, update_points, update_points]
      rcases h5 with h | h <;> rw [h] <;> simp [pointsApply]
  · intro today d p hd
    have ha : appendNew p.favorite_drinks d = p.favorite_drinks ++ [d] := by
      rw [appendNew, if_neg hd]
    have hb : appendNew (p.favorite_drinks ++ [d]) d =
        p.favorite_drinks ++ [d] := by
      rw [appendNew, if_pos (by simp)]
    constructor
    · apply Profile.ext <;>
        simp only [update_favorite_drinks, update_dietary, update_temperature,
          update_history, update_points, fdApply, dietApply, tempApply,
          histApply, pointsApply]
      rw [ha, hb]
    · rw [update_favorite_drinks]
      simp only [fdApply]
      rw [ha, List.count_append, List.count_eq_zero.mpr hd]
      simp
  · intro today d p hd
    have ha : appendNew p.dietary d = p.dietary ++ [d] := by
      rw [appendNew, if_neg hd]
    have hb : appendNew (p.dietary ++ [d]) d = p.dietary ++ [d] := by
      rw [appendNew, if_pos (by simp)]
    constructor
    · apply Profile.ext <;>
        simp only [update_favorite_drinks, update_dietary, update_temperature,
          update_history, update_points, fdApply, dietApply, tempApply,
          histApply, pointsApply]
      rw [ha, hb]
    · rw [update_dietary]
      simp only [dietApply]
      rw [ha, List.count_append, List.count_eq_zero.mpr hd]
      simp

theorem C9_profile_merge_witness :
    (DisjointUpdates ⟨some "latte".data, none, none, none, none⟩
        ⟨none, none, some "hot".data, none, none⟩ ∧
      update_user_profile "2025-01-01".data
          ⟨none, none, some "hot".data, none, none⟩
          (update_user_profile "2025-01-01".data
            ⟨some "latte".data, none, none, none, none⟩ ⟨[], [], none, [], 0⟩) =
        update_user_profile "2025-01-01".data
          ⟨some "latte".data, none, none, none, none⟩
          (update_user_profile "2025-01-01".data
            ⟨none, none, some "hot".data, none, none⟩ ⟨[], [], none, [], 0⟩)) ∧
    ("latte".data ∉ (⟨[], [], none, [], 0⟩ : Profile).favorite_drinks ∧
      (update_user_profile "2025-01-01".data
          ⟨some "latte".data, none, none, none, none⟩
          (update_user_profile "2025-01-01".data
            ⟨some "latte".data, none, none, none, none⟩
            ⟨[], [], none, [], 0⟩) =
        update_user_profile "2025-01-01".data
          ⟨some "latte".data, none, none, none, none⟩ ⟨[], [], none, [], 0⟩ ∧
      (update_user_profile "2025-01-01".data
        ⟨some "latte".data, none, none, none, none⟩
        (⟨[], [], none, [], 0⟩ : Profile)).favorite_drinks.count
          "latte".data = 1)) :=
  ⟨⟨by decide,
    C9_profile_merge_comm_idem.1 "2025-01-01".data
      ⟨some "latte".data, none, none, none, none⟩
      ⟨none, none, some "hot".data, none, none⟩ ⟨[], [], none, [], 0⟩
      (by decide)⟩,
   ⟨by decide,
    C9_profile_merge_comm_idem.2.1 "2025-01-01".data "latte".data
      ⟨[], [], none, [], 0⟩ (by decide)⟩⟩

/-- C3: whatever the similarity backend returns from the offered entries,
retrieval for user A yields only entries carrying A's id; in particular an
entry just saved for a different user B is never returned. -/
theorem C3_memory_user_isolation
    (search : List Char → List MemEntry → Nat → List MemEntry)
    (hsearch : ∀ q l n, ∀ e ∈ search q l n, e ∈ l)
    (mc : List MemEntry) (A B t c ts query : List Char) (n : Nat)
    (hAB : B ≠ A) :
    (∀ e ∈ retrieve_memories search (save_memory mc B t c ts) A query n,
      e.user_id = A) ∧
    (⟨B, t, c, ts⟩ : MemEntry) ∉
      retrieve_memories search (save_memory mc B t c ts) A query n := by
  have hmem : ∀ e ∈ retrieve_memories search (save_memory mc B t c ts) A query n,
      e.user_id = A := by
    intro e he
    have h1 := hsearch query _ n e he
    exact of_decide_eq_true (List.mem_filter.mp h1).2
  refine ⟨hmem, fun hin => hAB (hmem _ hin)⟩

theorem C3_memory_user_isolation_witness :
    (∀ q l n, ∀ e ∈ (fun (_ : List Char) (l : List MemEntry) (n : Nat) =>
        l.take n) q l n, e ∈ l) ∧
    "bob".data ≠ "alice".data ∧
    ((∀ e ∈ retrieve_memories
        (fun _ l n => l.take n)
        (save_memory [] "bob".data "t".data "c".data "ts".data)
        "alice".data "q".data 5, e.user_id = "alice".data) ∧
      (⟨"bob".data, "t".data, "c".data, "ts".data⟩ : MemEntry) ∉
        retrieve_memories (fun _ l n => l.take n)
          (save_memory [] "bob".data "t".data "c".data "ts".data)
          "alice".data "q".data 5) :=
  ⟨fun q l n e he => List.mem_of_mem_take he, by decide,
   C3_memory_user_isolation (fun _ l n => l.take n)
     (fun q l n e he => List.mem_of_mem_take he)
     [] "alice".data "bob".data "t".data "c".data "ts".data "q".data 5
     (by decide)⟩

/-- Replacing keys that do not occur leaves a text unchanged. -/
theorem unmask_pii_id {text : List Char} : ∀ m : PIIMap,
    (∀ k ∈ m.map Prod.fst, k ≠ [] ∧ ¬ k <:+: text) →
    unmask_pii text m = text := by
  intro m
  induction m with
  | nil => intro _; rfl
  | cons kv m ih =>
    intro h
    have hk := h kv.1 (by simp)
    rw [unmask_pii, List.foldl_cons]
    rw [show replaceAll text kv.1 kv.2 = text from by
      rw [replaceAll_eq_aux _ _ hk.1]
      exact replaceAllAux_of_not_infix _ hk.2]
    exact ih (fun k hkm => h k (by simp [hkm]))

/-- Every key of the mapping the masking node builds is a generated
token (mapping form). -/
theorem pii_masking_keys_shape (msg ctx : List Char) :
    ∀ k ∈ ((mask_pii ctx (mask_pii msg []).2).2).map Prod.fst,
      ∃ name ∈ catNames, ∃ j, k = tokenOf name j := by
  obtain ⟨ps1, e1, w1, -, sh1⟩ :=
    maskCats_map PII_PATTERNS pii_patterns_names msg [] WFMap_nil
  have hm1 : (mask_pii msg []).2 = [] ++ ps1 := e1
  obtain ⟨ps2, e2, -, -, sh2⟩ := maskCats_map PII_PATTERNS pii_patterns_names
    ctx (mask_pii msg []).2 (by rw [hm1]; exact w1)
  intro k hk
  rw [show (mask_pii ctx (mask_pii msg []).2).2 =
    (mask_pii msg []).2 ++ ps2 from e2] at hk
  rw [List.map_append, List.mem_append] at hk
  rcases hk with hk | hk
  · rw [hm1, List.nil_append] at hk
    exact sh1 k hk
  · exact sh2 k hk

/-- C4 (corrected): a missing API key makes `process_message` return the
configuration sentinel (which unmasking leaves intact, every mapping token
being bracketed while the sentinel is bracket-free). -/
theorem pipeline_keys_shape {γ : Type} (env : Env γ) (S : ChatState γ) :
    ∀ k ∈ ((pii_masking_node env S).pii_mapping).map Prod.fst,
      ∃ name ∈ catNames, ∃ j, k = tokenOf name j := by
  intro k hk
  dsimp only [pii_masking_node] at hk
  exact pii_masking_keys_shape S.user_message
    (env.buildContext S.enriched_context S.rag_results S.long_term_memories
      S.conversation_history) k hk

theorem C4_missing_key_sentinel {γ : Type} (env : Env γ)
    (h : env.apiKey = none) (uid msg : List Char) (lat lng : ℚ)
    (hist : List (List Char × List Char)) (mock : Bool) :
    process_message env uid msg lat lng hist mock = .ok NO_API_KEY_MSG := by
  have h1 : llm_generation_node env
      (pipeline_state3 env uid msg lat lng hist mock) =
      .ok { pipeline_state3 env uid msg lat lng hist mock with
        llm_response := NO_API_KEY_MSG } := by
    rw [llm_generation_node, h]
  have h2 : ∀ (S : ChatState γ) (t : List Char),
      finish_stages (γ := γ) (.ok { S with llm_response := t }) =
        .ok (unmask_pii t S.pii_mapping) := fun S t => rfl
  rw [process_message, h1, h2]
  have hshape : ∀ k ∈ ((pipeline_state3 env uid msg lat lng hist
      mock).pii_mapping).map Prod.fst, k ≠ [] ∧ ¬ k <:+: NO_API_KEY_MSG := by
    intro k hk
    dsimp only [pipeline_state3] at hk
    obtain ⟨name, -, j, rfl⟩ := pipeline_keys_shape env
      (rag_retrieval_node env (context_enrichment_node env
        (initialChatState env.emptyContext uid msg lat lng hist mock))) k hk
    refine ⟨?_, fun hinf => ?_⟩
    · rw [tokenOf_eq_bracket]
      simp
    · have hbr : '[' ∈ tokenOf name j := by
        rw [tokenOf_eq_bracket]
        simp
      exact absurd (hinf.subset hbr) (by decide)
  rw [unmask_pii_id _ hshape]

theorem C4_missing_key_sentinel_witness :
    (⟨(), fun _ _ _ _ => (), fun _ _ _ => [], fun _ _ => [],
      fun _ _ _ _ => [], none, fun _ => Except.error []⟩ :
        Env Unit).apiKey = none ∧
    process_message
      (⟨(), fun _ _ _ _ => (), fun _ _ _ => [], fun _ _ => [],
        fun _ _ _ _ => [], none, fun _ => Except.error []⟩ : Env Unit)
      "u1".data "a 5551234567".data 0 0 [] true = .ok NO_API_KEY_MSG :=
  ⟨rfl, C4_missing_key_sentinel
    (⟨(), fun _ _ _ _ => (), fun _ _ _ => [], fun _ _ => [],
      fun _ _ _ _ => [], none, fun _ => Except.error []⟩ : Env Unit)
    rfl "u1".data "a 5551234567".data 0 0 [] true⟩

/-- C4 counterexample: with an API key set and the generation service
unreachable, the failure escapes `process_message` — no sentinel, no
handler. -/
theorem C4_unreachable_service_counterexample :
    process_message
      (⟨(), fun _ _ _ _ => (), fun _ _ _ => [], fun _ _ => [],
        fun _ _ _ _ => [], some "key".data,
        fun _ => Except.error "ConnectionError".data⟩ : Env Unit)
      "u1".data "hi".data 0 0 [] true =
      .error "ConnectionError".data := by
  decide

/-- C5 (corrected): a request missing its user identifier is rejected with
a descriptive failure before stage 1, but coordinates are never
range-checked — any rational latitude/longitude passes validation and the
pipeline runs. -/
theorem C5_validation_no_range_check {γ : Type} (env : Env γ) :
    (∀ raw : RawChatRequest, raw.user_id = none →
      chat_endpoint env raw = .error "user_id: Field required".data) ∧
    (∀ (uid msg : List Char) (lat lng : ℚ),
      chat_endpoint env ⟨some uid, some msg, some lat, some lng, none, none⟩ =
        .ok (process_message env uid msg lat lng [] true)) := by
  constructor
  · intro raw h
    rw [chat_endpoint, validateChatRequest, h]
  · intro uid msg lat lng
    rfl

theorem C5_validation_witness :
    (⟨none, some "hi".data, some 0, some 0, none, none⟩ :
      RawChatRequest).user_id = none ∧
    chat_endpoint
      (⟨(), fun _ _ _ _ => (), fun _ _ _ => [], fun _ _ => [],
        fun _ _ _ _ => [], none, fun _ => Except.error []⟩ : Env Unit)
      ⟨none, some "hi".data, some 0, some 0, none, none⟩ =
      .error "user_id: Field required".data :=
  ⟨rfl,
   (C5_validation_no_range_check
     (⟨(), fun _ _ _ _ => (), fun _ _ _ => [], fun _ _ => [],
       fun _ _ _ _ => [], none, fun _ => Except.error []⟩ : Env Unit)).1
     ⟨none, some "hi".data, some 0, some 0, none, none⟩ rfl⟩

/-- C5 counterexample: latitude 1000 and longitude 2000 — far outside any
valid coordinate range — are accepted by validation, and a configured but
unreachable generation service aborts the pipeline after validation,
before any reply: caller errors are not the only pre-reply abort class. -/
theorem C5_out_of_range_counterexample :
    validateChatRequest
      ⟨some "u1".data, some "hi".data, some 1000, some 2000, none, none⟩ =
      .ok ⟨"u1".data, "hi".data, 1000, 2000, true, []⟩ ∧
    chat_endpoint
      (⟨(), fun _ _ _ _ => (), fun _ _ _ => [], fun _ _ => [],
        fun _ _ _ _ => [], some "key".data,
        fun _ => Except.error "ConnectionError".data⟩ : Env Unit)
      ⟨some "u1".data, some "hi".data, some 1000, some 2000, none, none⟩ =
      .ok (.error "ConnectionError".data) := by
  constructor
  · rfl
  · decide

/-- C10: the queries both retrieval backends receive are the raw, unmasked
user message; masking first happens in stage 3 and only populates the
masked fields. -/
theorem C10_raw_query_to_backends {γ : Type} (env : Env γ)
    (uid msg : List Char) (lat lng : ℚ)
    (hist : List (List Char × List Char)) (mock : Bool) :
    (pipeline_state3 env uid msg lat lng hist mock).long_term_memories =
      env.retrieveMemories uid msg 3 ∧
    (pipeline_state3 env uid msg lat lng hist mock).rag_results =
      env.retrieveRelevantInfo msg 3 ∧
    (pipeline_state3 env uid msg lat lng hist mock).user_message = msg ∧
    (pipeline_state3 env uid msg lat lng hist mock).masked_message =
      (mask_pii msg []).1 := by
  refine ⟨?_, ?_, ?_, ?_⟩ <;>
    dsimp only [pipeline_state3, pii_masking_node, rag_retrieval_node,
      context_enrichment_node, initialChatState]

end GTHack
